import Mathlib

/-! Live election vote counter: Fenwick tree, vote registry and election coordinator.

A shallow embedding of `fenwick_tree.cpp`, `vote_manager.cpp` and `election_system.cpp`.

* In the functions that bear the names of the source, `size_t` indices and `int64_t` values
  are exact integers (`Nat` and `Int`).
* The functions with the suffix `64` are the same functions with the arithmetic of the
  machine: every `int64_t` result is brought back into `-2^63 .. 2^63 - 1` by `wrap64`, and
  the constructor `construct64` computes `n + 1` in `size_t`.
* A C++ exception is a value of `Exn`; a member function that mutates its object returns
  the outcome together with the object as the call leaves it.
* `std::unordered_map<std::string, V>` is a key/value list, see `UMap`.
* A `while` loop carries a step budget and answers `none` when the budget is used up; the
  theorems show that the budget handed over by the caller is never used up.
-/

/-- The C++ exceptions thrown by the program, by class, with the `what()` text.
`loop_budget` is no C++ exception: it marks a loop of the model that used up its budget. -/
inductive Exn where
  | invalid_argument (what : String)
  | out_of_range (what : String)
  | runtime_error (what : String)
  | loop_budget
  deriving DecidableEq, Repr

deriving instance DecidableEq for Except

/-! ## `std::unordered_map` with string keys -/

/-- Key/value list standing for a `std::unordered_map<std::string, V>`. -/
abbrev UMap (V : Type) := List (String × V)

namespace UMap

/-- `m.find(k)`: the value stored under `k`, `none` standing for `m.end()`. -/
def find {V : Type} : UMap V → String → Option V
  | [], _ => none
  | (k', v) :: m, k => if k' = k then some v else find m k

/-- `m[k] = v`: overwrites the value of an existing key, inserts the pair otherwise. -/
def assign {V : Type} : UMap V → String → V → UMap V
  | [], k, v => [(k, v)]
  | (k', v') :: m, k, v => if k' = k then (k', v) :: m else (k', v') :: assign m k v

/-- Mutation of the value stored under `k` through the iterator that `find` returned. -/
def modify {V : Type} : UMap V → String → (V → V) → UMap V
  | [], _, _ => []
  | (k', v') :: m, k, f => if k' = k then (k', f v') :: m else (k', v') :: modify m k f

/-- `m.size()`. -/
def size {V : Type} (m : UMap V) : Nat := m.length

end UMap

/-! ## `FenwickTree` -/

/-- `class FenwickTree`: the cell vector `tree` and the logical size `size`. -/
structure FenwickTree where
  tree : List Int
  size : Nat
  deriving DecidableEq, Repr

namespace FenwickTree

/-- `FenwickTree::lsb`, `x & (-x)`, for the indices `x ≥ 0` it is called with. In two's
complement `-x` is the bitwise complement of `x - 1` (for `x > 0`), so `x & (-x)` keeps
exactly the bits of `x` that `x - 1` does not have: `x` without `x & (x - 1)`.
`lsb_eq_land` checks this against the two's-complement conjunction `Int.land x (-x)`. -/
def lsb (x : Nat) : Nat := x ^^^ (x &&& (x - 1))

/-- The constructor `FenwickTree::FenwickTree(size_t n)`. -/
def construct (n : Nat) : Except Exn FenwickTree :=
  if n = 0 then
    .error (.invalid_argument "Fenwick Tree size must be greater than 0")
  else
    .ok { tree := List.replicate (n + 1) 0, size := n }

/-- The loop of `update`: `while (i <= size) { tree[i] += delta; i += lsb(i); }`. -/
def updateLoop (size : Nat) (delta : Int) : Nat → List Int → Nat → Option (List Int)
  | budget, tree, i =>
    if i ≤ size then
      match budget with
      | 0 => none
      | budget + 1 => updateLoop size delta budget (tree.set i (tree.getD i 0 + delta)) (i + lsb i)
    else some tree

/-- `FenwickTree::update(i, delta)`. -/
def update (t : FenwickTree) (i : Nat) (delta : Int) : Except Exn Unit × FenwickTree :=
  if i = 0 ∨ i > t.size then
    (.error (.out_of_range "Index out of range for Fenwick Tree update"), t)
  else
    match updateLoop t.size delta (t.size + 1) t.tree i with
    | some tree => (.ok (), { t with tree := tree })
    | none => (.error .loop_budget, t)

/-- The loop of `query`: `while (i > 0) { sum += tree[i]; i -= lsb(i); }`. -/
def queryLoop (tree : List Int) : Nat → Nat → Int → Option Int
  | budget, i, sum =>
    if i > 0 then
      match budget with
      | 0 => none
      | budget + 1 => queryLoop tree budget (i - lsb i) (sum + tree.getD i 0)
    else some sum

/-- `FenwickTree::query(i)`. -/
def query (t : FenwickTree) (i : Nat) : Except Exn Int :=
  if i = 0 then .ok 0
  else if i > t.size then
    .error (.out_of_range "Index out of range for Fenwick Tree query")
  else
    match queryLoop t.tree i i 0 with
    | some sum => .ok sum
    | none => .error .loop_budget

/-- `FenwickTree::rangeQuery(left, right)`. -/
def rangeQuery (t : FenwickTree) (left right : Nat) : Except Exn Int :=
  if left > right then
    .error (.invalid_argument "Left boundary must be <= right boundary")
  else if left = 0 ∨ right > t.size then
    .error (.out_of_range "Range boundaries out of range for Fenwick Tree")
  else do
    let r ← query t right
    let l ← query t (left - 1)
    pure (r - l)

/-- `FenwickTree::getSize()`. -/
def getSize (t : FenwickTree) : Nat := t.size

/-- `FenwickTree::reset()`: `std::fill(tree.begin(), tree.end(), 0)`. -/
def reset (t : FenwickTree) : FenwickTree := { t with tree := t.tree.map (fun _ => 0) }

/-- `FenwickTree::getValue(i)`. -/
def getValue (t : FenwickTree) (i : Nat) : Except Exn Int :=
  if i = 0 ∨ i > t.size then
    .error (.out_of_range "Index out of range for Fenwick Tree getValue")
  else rangeQuery t i i

/-- What the constructor establishes and `update`, `reset` keep: `size + 1` cells. -/
def WF (t : FenwickTree) : Prop := t.tree.length = t.size + 1

instance (t : FenwickTree) : Decidable (WF t) := by unfold WF; infer_instance

end FenwickTree

/-! ## `VoteManager` -/

/-- `struct Candidate`. -/
structure Candidate where
  name : String
  party : String
  id : String
  deriving DecidableEq, Repr

/-- `struct District`. -/
structure District where
  name : String
  id : String
  candidateCount : Nat
  deriving DecidableEq, Repr

/-- `struct VoteUpdate`, one record of the vote history. -/
structure VoteUpdate where
  districtId : String
  candidateId : String
  voteCount : Int
  precinctId : String
  timestamp : String
  deriving DecidableEq, Repr

/-- `class VoteManager`. `districtTrees` maps a district id to the table that its
`unique_ptr` owns. -/
structure VoteManager where
  districtTrees : UMap FenwickTree
  candidateIndices : UMap (UMap Nat)
  districts : List District
  candidates : List Candidate
  voteHistory : List VoteUpdate
  deriving DecidableEq, Repr

namespace VoteManager

/-- A default-constructed `VoteManager`. -/
def empty : VoteManager :=
  { districtTrees := [], candidateIndices := [], districts := [], candidates := [],
    voteHistory := [] }

/-- `VoteManager::addDistrict`. The district is pushed first; the table is constructed next
(the right-hand side of the assignment, which may throw) and only then stored. -/
def addDistrict (vm : VoteManager) (district : District) : Except Exn Unit × VoteManager :=
  let vm1 := { vm with districts := vm.districts ++ [district] }
  match FenwickTree.construct district.candidateCount with
  | .error e => (.error e, vm1)
  | .ok t =>
    (.ok (), { vm1 with
      districtTrees := vm1.districtTrees.assign district.id t
      candidateIndices := vm1.candidateIndices.assign district.id [] })

/-- `VoteManager::addCandidate`. -/
def addCandidate (vm : VoteManager) (candidate : Candidate) : VoteManager :=
  { vm with candidates := vm.candidates ++ [candidate] }

/-- `VoteManager::assignCandidateToDistrict`. `candidateIndices[districtId]` stands for an
empty map when the key is absent. -/
def assignCandidateToDistrict (vm : VoteManager) (districtId candidateId : String) :
    Except Exn Unit × VoteManager :=
  match vm.districts.find? (fun d => d.id == districtId) with
  | none => (.error (.runtime_error ("District not found: " ++ districtId)), vm)
  | some _ =>
    match vm.candidates.find? (fun c => c.id == candidateId) with
    | none => (.error (.runtime_error ("Candidate not found: " ++ candidateId)), vm)
    | some _ =>
      let inner := (vm.candidateIndices.find districtId).getD []
      let nextIndex := inner.size + 1
      (.ok (), { vm with
        candidateIndices :=
          vm.candidateIndices.assign districtId (inner.assign candidateId nextIndex) })

/-- `VoteManager::addVotes`. -/
def addVotes (vm : VoteManager) (districtId candidateId : String) (voteCount : Int)
    (precinctId timestamp : String) : Except Exn Unit × VoteManager :=
  match vm.districtTrees.find districtId with
  | none => (.error (.runtime_error ("District not found: " ++ districtId)), vm)
  | some tree =>
    match vm.candidateIndices.find districtId with
    | none =>
      (.error (.runtime_error ("No candidates assigned to district: " ++ districtId)), vm)
    | some indices =>
      match indices.find candidateId with
      | none =>
        (.error (.runtime_error
          ("Candidate not found in district: " ++ candidateId ++ " in " ++ districtId)), vm)
      | some candidateIndex =>
        match tree.update candidateIndex voteCount with
        | (.error e, tree2) =>
          (.error e, { vm with districtTrees := vm.districtTrees.modify districtId (fun _ => tree2) })
        | (.ok (), tree2) =>
          (.ok (), { vm with
            districtTrees := vm.districtTrees.modify districtId (fun _ => tree2)
            voteHistory := vm.voteHistory ++
              [{ districtId := districtId, candidateId := candidateId, voteCount := voteCount,
                 precinctId := precinctId, timestamp := timestamp }] })

/-- `VoteManager::getCandidateVotes`. -/
def getCandidateVotes (vm : VoteManager) (districtId candidateId : String) : Except Exn Int :=
  match vm.districtTrees.find districtId with
  | none => .ok 0
  | some tree =>
    match vm.candidateIndices.find districtId with
    | none => .ok 0
    | some indices =>
      match indices.find candidateId with
      | none => .ok 0
      | some candidateIndex => tree.getValue candidateIndex

/-- The loop of `getCandidateTotalVotes`:
`for (district : districts) total += getCandidateVotes(district.id, candidateId)`. -/
def totalLoop (vm : VoteManager) (candidateId : String) : List District → Int → Except Exn Int
  | [], total => .ok total
  | district :: rest, total =>
    match vm.getCandidateVotes district.id candidateId with
    | .error e => .error e
    | .ok votes => totalLoop vm candidateId rest (total + votes)

/-- `VoteManager::getCandidateTotalVotes`. -/
def getCandidateTotalVotes (vm : VoteManager) (candidateId : String) : Except Exn Int :=
  totalLoop vm candidateId vm.districts 0

/-- `VoteManager::getDistrictTotalVotes`. -/
def getDistrictTotalVotes (vm : VoteManager) (districtId : String) : Except Exn Int :=
  match vm.districtTrees.find districtId with
  | none => .ok 0
  | some tree => tree.query tree.getSize

/-- The scan shared by `getDistrictLeader` and `getOverallLeader`:
`for (candidate : candidates) { votes = ...; if (votes > maxVotes) { maxVotes = votes;
leaderId = candidate.id; } }`, with `votesOf` the count that the caller looks up. -/
def leaderLoop (votesOf : String → Except Exn Int) :
    List Candidate → String → Int → Except Exn String
  | [], leaderId, _ => .ok leaderId
  | candidate :: rest, leaderId, maxVotes =>
    match votesOf candidate.id with
    | .error e => .error e
    | .ok votes =>
      if votes > maxVotes then leaderLoop votesOf rest candidate.id votes
      else leaderLoop votesOf rest leaderId maxVotes

/-- `VoteManager::getDistrictLeader`. -/
def getDistrictLeader (vm : VoteManager) (districtId : String) : Except Exn String :=
  match vm.districtTrees.find districtId with
  | none => .ok ""
  | some _ =>
    match vm.candidateIndices.find districtId with
    | none => .ok ""
    | some _ => leaderLoop (fun c => vm.getCandidateVotes districtId c) vm.candidates "" (-1)

/-- `VoteManager::getOverallLeader`. -/
def getOverallLeader (vm : VoteManager) : Except Exn String :=
  leaderLoop (fun c => vm.getCandidateTotalVotes c) vm.candidates "" (-1)

/-- `VoteManager::getVoteHistory`. -/
def getVoteHistory (vm : VoteManager) : List VoteUpdate := vm.voteHistory

/-- `VoteManager::getDistricts`. -/
def getDistricts (vm : VoteManager) : List District := vm.districts

/-- `VoteManager::getCandidates`. -/
def getCandidates (vm : VoteManager) : List Candidate := vm.candidates

/-- `VoteManager::resetVotes`. -/
def resetVotes (vm : VoteManager) : VoteManager :=
  { vm with
    districtTrees := vm.districtTrees.map (fun p => (p.1, p.2.reset))
    voteHistory := [] }

/-- The loop of `getDetailedResults` (and of `ElectionSystem::getDistrictResults`) that fills
`districtResults`: `for (candidate : candidates) { votes = getCandidateVotes(district.id,
candidate.id); if (votes > 0) districtResults.emplace_back(candidate.id, votes); }`. -/
def collectResults (vm : VoteManager) (districtId : String) :
    List Candidate → Except Exn (List (String × Int))
  | [] => .ok []
  | candidate :: rest =>
    match vm.getCandidateVotes districtId candidate.id with
    | .error e => .error e
    | .ok votes =>
      match collectResults vm districtId rest with
      | .error e => .error e
      | .ok results => .ok (if votes > 0 then (candidate.id, votes) :: results else results)

/-- The list that `getDetailedResults` prints for one district: `districtResults` after
`std::sort(begin, end, [](a, b) { return a.second > b.second; })`. The library's `std::sort`
is the parameter `sort`. -/
def rankedResults (sort : List (String × Int) → List (String × Int)) (vm : VoteManager)
    (districtId : String) : Except Exn (List (String × Int)) :=
  match collectResults vm districtId vm.candidates with
  | .error e => .error e
  | .ok results => .ok (sort results)

end VoteManager

/-! ## `ElectionSystem` -/

/-- `class ElectionSystem`. -/
structure ElectionSystem where
  voteManager : VoteManager
  electionName : String
  electionDate : String
  isActive : Bool
  deriving DecidableEq, Repr

namespace ElectionSystem

/-- The constructor `ElectionSystem::ElectionSystem(name, date)`. -/
def construct (name date : String) : ElectionSystem :=
  { voteManager := VoteManager.empty, electionName := name, electionDate := date,
    isActive := false }

/-- First loop of `setupElection`: district number `i` (0-based) gets the id
`"D" + std::to_string(i + 1)` and the capacity `candidateNames.size()`. -/
def setupDistricts (capacity : Nat) :
    VoteManager → List String → Nat → Except Exn Unit × VoteManager
  | vm, [], _ => (.ok (), vm)
  | vm, name :: rest, i =>
    match vm.addDistrict { name := name, id := "D" ++ toString (i + 1), candidateCount := capacity } with
    | (.error e, vm2) => (.error e, vm2)
    | (.ok (), vm2) => setupDistricts capacity vm2 rest (i + 1)

/-- Second loop of `setupElection`: candidate number `i` gets the id
`"C" + std::to_string(i + 1)` and the party `partyNames[i]`. -/
def setupCandidates : VoteManager → List String → List String → Nat → VoteManager
  | vm, name :: rest, party :: parties, i =>
    setupCandidates (vm.addCandidate { name := name, party := party, id := "C" ++ toString (i + 1) })
      rest parties (i + 1)
  | vm, _, _, _ => vm

/-- Inner loop of the third loop of `setupElection`: every candidate is attached to one
district. -/
def assignCandidates (districtId : String) :
    VoteManager → List Candidate → Except Exn Unit × VoteManager
  | vm, [] => (.ok (), vm)
  | vm, candidate :: rest =>
    match vm.assignCandidateToDistrict districtId candidate.id with
    | (.error e, vm2) => (.error e, vm2)
    | (.ok (), vm2) => assignCandidates districtId vm2 rest

/-- Third loop of `setupElection`: every district of the catalog, in order. -/
def assignDistricts : VoteManager → List District → Except Exn Unit × VoteManager
  | vm, [] => (.ok (), vm)
  | vm, district :: rest =>
    match assignCandidates district.id vm vm.getCandidates with
    | (.error e, vm2) => (.error e, vm2)
    | (.ok (), vm2) => assignDistricts vm2 rest

/-- `ElectionSystem::setupElection`. -/
def setupElection (es : ElectionSystem) (districtNames candidateNames partyNames : List String) :
    Except Exn Unit × ElectionSystem :=
  if candidateNames.length ≠ partyNames.length then
    (.error (.invalid_argument "Number of candidates must match number of parties"), es)
  else
    match setupDistricts candidateNames.length es.voteManager districtNames 0 with
    | (.error e, vm1) => (.error e, { es with voteManager := vm1 })
    | (.ok (), vm1) =>
      let vm2 := setupCandidates vm1 candidateNames partyNames 0
      match assignDistricts vm2 vm2.getDistricts with
      | (.error e, vm3) => (.error e, { es with voteManager := vm3 })
      | (.ok (), vm3) => (.ok (), { es with voteManager := vm3 })

/-- `ElectionSystem::processVoteUpdate`. `timestamp` is the text that the wall clock gives
at the call. `catch (const std::exception&)` turns every C++ exception into `false`; a used-up
loop budget of the model is no exception and is passed on. -/
def processVoteUpdate (es : ElectionSystem) (districtName candidateName : String)
    (voteCount : Int) (precinctId timestamp : String) : Except Exn Bool × ElectionSystem :=
  if !es.isActive then (.ok false, es)
  else
    match es.voteManager.getDistricts.find? (fun d => d.name == districtName) with
    | none => (.ok false, es)
    | some district =>
      match es.voteManager.getCandidates.find? (fun c => c.name == candidateName) with
      | none => (.ok false, es)
      | some candidate =>
        match es.voteManager.addVotes district.id candidate.id voteCount precinctId timestamp with
        | (.ok (), vm2) => (.ok true, { es with voteManager := vm2 })
        | (.error .loop_budget, vm2) => (.error .loop_budget, { es with voteManager := vm2 })
        | (.error _, vm2) => (.ok false, { es with voteManager := vm2 })

/-- `ElectionSystem::getCurrentLeader`. -/
def getCurrentLeader (es : ElectionSystem) : Except Exn String :=
  match es.voteManager.getOverallLeader with
  | .error e => .error e
  | .ok leaderId =>
    if leaderId = "" then .ok "No votes cast yet"
    else
      match es.voteManager.getCandidates.find? (fun c => c.id == leaderId) with
      | some leader =>
        match es.voteManager.getCandidateTotalVotes leaderId with
        | .error e => .error e
        | .ok totalVotes =>
          .ok (leader.name ++ " (" ++ leader.party ++ ") - " ++ toString totalVotes ++ " votes")
      | none => .ok "Unknown leader"

/-- `ElectionSystem::getVoteHistory`. -/
def getVoteHistory (es : ElectionSystem) : List VoteUpdate := es.voteManager.getVoteHistory

/-- `ElectionSystem::resetElection`. -/
def resetElection (es : ElectionSystem) : ElectionSystem :=
  { es with voteManager := es.voteManager.resetVotes }

/-- `ElectionSystem::isElectionActive`. -/
def isElectionActive (es : ElectionSystem) : Bool := es.isActive

/-- `ElectionSystem::setElectionStatus`. -/
def setElectionStatus (es : ElectionSystem) (active : Bool) : ElectionSystem :=
  { es with isActive := active }

end ElectionSystem

/-! ## The arithmetic of `int64_t` and `size_t` -/

/-- The `int64_t` that an arithmetic operation leaves when its exact result is `x`: the
representative of `x` modulo `2^64` in `-2^63 .. 2^63 - 1` (two's complement wraparound, which
is what the compiled program does; the C++ standard itself leaves signed overflow
undefined). -/
def wrap64 (x : Int) : Int :=
  (x + 9223372036854775808) % 18446744073709551616 - 9223372036854775808

namespace FenwickTree

/-- The constructor `FenwickTree::FenwickTree(size_t n)` with `n + 1` computed in `size_t`:
`tree.resize(n + 1, 0)` gets `(n + 1) mod 2^64` cells. -/
def construct64 (n : Nat) : Except Exn FenwickTree :=
  if n = 0 then
    .error (.invalid_argument "Fenwick Tree size must be greater than 0")
  else
    .ok { tree := List.replicate ((n + 1) % 18446744073709551616) 0, size := n }

/-- The loop of `update` with `tree[i] += delta` computed in `int64_t`. -/
def updateLoop64 (size : Nat) (delta : Int) : Nat → List Int → Nat → Option (List Int)
  | budget, tree, i =>
    if i ≤ size then
      match budget with
      | 0 => none
      | budget + 1 =>
        updateLoop64 size delta budget (tree.set i (wrap64 (tree.getD i 0 + delta))) (i + lsb i)
    else some tree

/-- `FenwickTree::update(i, delta)` with the cells computed in `int64_t`. -/
def update64 (t : FenwickTree) (i : Nat) (delta : Int) : Except Exn Unit × FenwickTree :=
  if i = 0 ∨ i > t.size then
    (.error (.out_of_range "Index out of range for Fenwick Tree update"), t)
  else
    match updateLoop64 t.size delta (t.size + 1) t.tree i with
    | some tree => (.ok (), { t with tree := tree })
    | none => (.error .loop_budget, t)

/-- The loop of `query` with `sum += tree[i]` computed in `int64_t`. -/
def queryLoop64 (tree : List Int) : Nat → Nat → Int → Option Int
  | budget, i, sum =>
    if i > 0 then
      match budget with
      | 0 => none
      | budget + 1 => queryLoop64 tree budget (i - lsb i) (wrap64 (sum + tree.getD i 0))
    else some sum

/-- `FenwickTree::query(i)` with the sum computed in `int64_t`. -/
def query64 (t : FenwickTree) (i : Nat) : Except Exn Int :=
  if i = 0 then .ok 0
  else if i > t.size then
    .error (.out_of_range "Index out of range for Fenwick Tree query")
  else
    match queryLoop64 t.tree i i 0 with
    | some sum => .ok sum
    | none => .error .loop_budget

/-- `FenwickTree::rangeQuery(left, right)` with the difference computed in `int64_t`. -/
def rangeQuery64 (t : FenwickTree) (left right : Nat) : Except Exn Int :=
  if left > right then
    .error (.invalid_argument "Left boundary must be <= right boundary")
  else if left = 0 ∨ right > t.size then
    .error (.out_of_range "Range boundaries out of range for Fenwick Tree")
  else do
    let r ← query64 t right
    let l ← query64 t (left - 1)
    pure (wrap64 (r - l))

/-- `FenwickTree::getValue(i)` over `rangeQuery64`. -/
def getValue64 (t : FenwickTree) (i : Nat) : Except Exn Int :=
  if i = 0 ∨ i > t.size then
    .error (.out_of_range "Index out of range for Fenwick Tree getValue")
  else rangeQuery64 t i i

end FenwickTree

namespace VoteManager

/-- `VoteManager::addVotes` over `update64`. -/
def addVotes64 (vm : VoteManager) (districtId candidateId : String) (voteCount : Int)
    (precinctId timestamp : String) : Except Exn Unit × VoteManager :=
  match vm.districtTrees.find districtId with
  | none => (.error (.runtime_error ("District not found: " ++ districtId)), vm)
  | some tree =>
    match vm.candidateIndices.find districtId with
    | none =>
      (.error (.runtime_error ("No candidates assigned to district: " ++ districtId)), vm)
    | some indices =>
      match indices.find candidateId with
      | none =>
        (.error (.runtime_error
          ("Candidate not found in district: " ++ candidateId ++ " in " ++ districtId)), vm)
      | some candidateIndex =>
        match tree.update64 candidateIndex voteCount with
        | (.error e, tree2) =>
          (.error e, { vm with districtTrees := vm.districtTrees.modify districtId (fun _ => tree2) })
        | (.ok (), tree2) =>
          (.ok (), { vm with
            districtTrees := vm.districtTrees.modify districtId (fun _ => tree2)
            voteHistory := vm.voteHistory ++
              [{ districtId := districtId, candidateId := candidateId, voteCount := voteCount,
                 precinctId := precinctId, timestamp := timestamp }] })

/-- `VoteManager::getCandidateVotes` over `getValue64`. -/
def getCandidateVotes64 (vm : VoteManager) (districtId candidateId : String) : Except Exn Int :=
  match vm.districtTrees.find districtId with
  | none => .ok 0
  | some tree =>
    match vm.candidateIndices.find districtId with
    | none => .ok 0
    | some indices =>
      match indices.find candidateId with
      | none => .ok 0
      | some candidateIndex => tree.getValue64 candidateIndex

/-- The loop of `getCandidateTotalVotes` with `total += ...` computed in `int64_t`. -/
def totalLoop64 (vm : VoteManager) (candidateId : String) : List District → Int → Except Exn Int
  | [], total => .ok total
  | district :: rest, total =>
    match vm.getCandidateVotes64 district.id candidateId with
    | .error e => .error e
    | .ok votes => totalLoop64 vm candidateId rest (wrap64 (total + votes))

/-- `VoteManager::getCandidateTotalVotes` with the total computed in `int64_t`. -/
def getCandidateTotalVotes64 (vm : VoteManager) (candidateId : String) : Except Exn Int :=
  totalLoop64 vm candidateId vm.districts 0

/-- `VoteManager::getDistrictTotalVotes` over `query64`. -/
def getDistrictTotalVotes64 (vm : VoteManager) (districtId : String) : Except Exn Int :=
  match vm.districtTrees.find districtId with
  | none => .ok 0
  | some tree => tree.query64 tree.getSize

end VoteManager

namespace ElectionSystem

/-- `ElectionSystem::processVoteUpdate` over `addVotes64`. -/
def processVoteUpdate64 (es : ElectionSystem) (districtName candidateName : String)
    (voteCount : Int) (precinctId timestamp : String) : Except Exn Bool × ElectionSystem :=
  if !es.isActive then (.ok false, es)
  else
    match es.voteManager.getDistricts.find? (fun d => d.name == districtName) with
    | none => (.ok false, es)
    | some district =>
      match es.voteManager.getCandidates.find? (fun c => c.name == candidateName) with
      | none => (.ok false, es)
      | some candidate =>
        match es.voteManager.addVotes64 district.id candidate.id voteCount precinctId
            timestamp with
        | (.ok (), vm2) => (.ok true, { es with voteManager := vm2 })
        | (.error .loop_budget, vm2) => (.error .loop_budget, { es with voteManager := vm2 })
        | (.error _, vm2) => (.ok false, { es with voteManager := vm2 })

end ElectionSystem

/-! ## Vocabulary of the statements -/

namespace FenwickTree

/-- Cell `j` holds position `s`: `s` lies in `(j - lsb j, j]`. -/
def covers (j s : Nat) : Prop := j - lsb j < s ∧ s ≤ j

instance (j s : Nat) : Decidable (covers j s) := by unfold covers; infer_instance

/-- A sequence of `update(i, delta)` calls, one after the other; the first failing call ends
the run with its error. -/
def applyUpdates : FenwickTree → List (Nat × Int) → Except Exn FenwickTree
  | t, [] => .ok t
  | t, (i, delta) :: rest =>
    match t.update i delta with
    | (.ok (), t2) => applyUpdates t2 rest
    | (.error e, _) => .error e

/-- A sequence of `update(i, delta)` calls in `int64_t` arithmetic, one after the other; the
first failing call ends the run with its error. -/
def applyUpdates64 : FenwickTree → List (Nat × Int) → Except Exn FenwickTree
  | t, [] => .ok t
  | t, (i, delta) :: rest =>
    match t.update64 i delta with
    | (.ok (), t2) => applyUpdates64 t2 rest
    | (.error e, _) => .error e

/-- Two tables of the same size whose cells agree modulo `2^64`. -/
def Sim (t t2 : FenwickTree) : Prop :=
  t.size = t2.size ∧ t.tree.map wrap64 = t2.tree.map wrap64

/-- The value that `query(i)` returns, `0` when it fails. -/
def queryValue (t : FenwickTree) (i : Nat) : Int :=
  match t.query i with
  | .ok v => v
  | .error _ => 0

/-- The cell indices that the loop of `update` writes, in order, when started at `i`: the
loop of `updateLoop` with the cells left out. `updateLoop_eq_trace` ties the two together. -/
def updateTrace (size : Nat) : Nat → Nat → Option (List Nat)
  | budget, i =>
    if i ≤ size then
      match budget with
      | 0 => none
      | budget + 1 => (updateTrace size budget (i + lsb i)).map (fun rest => i :: rest)
    else some []

/-- The cell indices that the loop of `query` reads, in order, when started at `i`: the loop
of `queryLoop` with the sum left out. `queryLoop_eq_trace` ties the two together. -/
def queryTrace : Nat → Nat → Option (List Nat)
  | budget, i =>
    if i > 0 then
      match budget with
      | 0 => none
      | budget + 1 => (queryTrace budget (i - lsb i)).map (fun rest => i :: rest)
    else some []

/-- The cells after `tree[j] += delta` for the indices `j` of the list, in order. -/
def applyWrites (delta : Int) (tree : List Int) (idxs : List Nat) : List Int :=
  idxs.foldl (fun t j => t.set j (t.getD j 0 + delta)) tree

/-- The sum after `sum += tree[j]` for the indices `j` of the list, in order. -/
def sumReads (tree : List Int) (sum : Int) (idxs : List Nat) : Int :=
  idxs.foldl (fun acc j => acc + tree.getD j 0) sum

/-- Sum of the deltas of the updates whose index satisfies `p`. -/
def deltaSum (p : Nat → Bool) (us : List (Nat × Int)) : Int :=
  ((us.filter (fun u => p u.1)).map (fun u => u.2)).sum

end FenwickTree

namespace VoteManager

/-- Two registries that differ at most in the cells of their tables, and there by multiples
of `2^64`. -/
def Sim (vm vm2 : VoteManager) : Prop :=
  List.Forall₂ (fun p q => p.1 = q.1 ∧ FenwickTree.Sim p.2 q.2)
      vm.districtTrees vm2.districtTrees ∧
    vm.candidateIndices = vm2.candidateIndices ∧ vm.districts = vm2.districts ∧
    vm.candidates = vm2.candidates ∧ vm.voteHistory = vm2.voteHistory

/-- The registry is configured for capacity `k`: every catalog district has a well-formed
table of size `k` and an index map that gives every catalog candidate a slot in `1..k`. -/
def Configured (k : Nat) (vm : VoteManager) : Prop :=
  ∀ d ∈ vm.districts, ∃ tree indices,
    vm.districtTrees.find d.id = some tree ∧ tree.WF ∧ tree.size = k ∧
    vm.candidateIndices.find d.id = some indices ∧
    ∀ c ∈ vm.candidates, ∃ s, indices.find c.id = some s ∧ 1 ≤ s ∧ s ≤ k

/-- District `id` has an all-zero table of size `k` and no candidate attached. -/
def Fresh (k : Nat) (vm : VoteManager) (id : String) : Prop :=
  vm.districtTrees.find id = some { tree := List.replicate (k + 1) 0, size := k } ∧
  vm.candidateIndices.find id = some []

/-- The index map `inner` has at most `p` keys and all its slots lie in `1..p`. -/
def SlotsWithin (inner : UMap Nat) (p : Nat) : Prop :=
  inner.size ≤ p ∧ ∀ key s, inner.find key = some s → 1 ≤ s ∧ s ≤ p

/-- The slot that candidate `c` holds in district `d`, if any, lies within the table of `d`. -/
def SlotInRange (vm : VoteManager) (d c : String) : Prop :=
  match vm.districtTrees.find d, vm.candidateIndices.find d with
  | some tree, some indices =>
    match indices.find c with
    | some s => 1 ≤ s ∧ s ≤ tree.size
    | none => True
  | _, _ => True

instance (vm : VoteManager) (d c : String) : Decidable (SlotInRange vm d c) := by
  unfold SlotInRange
  split
  · split <;> infer_instance
  · infer_instance

/-- The index map that attaching the candidates `cs` in order leaves when `n` slots were
taken before and none of them held one: the first gets slot `n + 1`, the next `n + 2`, and
so on. -/
def slotList : Nat → List Candidate → UMap Nat
  | _, [] => []
  | n, c :: rest => (c.id, n + 1) :: slotList (n + 1) rest

/-- What the C++ standard promises of `std::sort` with the comparison
`a.second > b.second`: the result is a rearrangement of the input in which no later element
compares before an earlier one. -/
def StdSortContract (sort : List (String × Int) → List (String × Int)) : Prop :=
  ∀ l, (sort l).Perm l ∧ (sort l).Pairwise (fun a b => ¬ b.2 > a.2)

/-- A sort that meets the contract and keeps equal elements in their order. -/
def sortKeeping (l : List (String × Int)) : List (String × Int) :=
  l.insertionSort (fun a b => a.2 ≥ b.2)

/-- A sort that meets the contract and turns equal elements around. -/
def sortTurning (l : List (String × Int)) : List (String × Int) :=
  l.reverse.insertionSort (fun a b => a.2 ≥ b.2)

/-- A registry built by public calls only: one district of capacity one and two candidates,
none attached yet. -/
def unassignedManager : VoteManager :=
  ((empty.addDistrict { name := "North", id := "D1", candidateCount := 1 }).2.addCandidate
    { name := "Ann", party := "Red", id := "C1" }).addCandidate
    { name := "Bob", party := "Blue", id := "C2" }

/-- The registry `unassignedManager` after the first candidate was attached: the district's
one slot is taken. -/
def fullManager : VoteManager := (unassignedManager.assignCandidateToDistrict "D1" "C1").2

/-- A registry built by public calls only: one district of capacity one, two candidates, both
attached to the district, and seven votes for the first. -/
def overfullManager : VoteManager :=
  ((((((empty.addDistrict { name := "North", id := "D1", candidateCount := 1 }).2.addCandidate
    { name := "Ann", party := "Red", id := "C1" }).addCandidate
    { name := "Bob", party := "Blue", id := "C2" }).assignCandidateToDistrict "D1" "C1"
    ).2.assignCandidateToDistrict "D1" "C2").2.addVotes "D1" "C1" 7 "P001"
    "Mon Jan  1 10:00:00 2024").2

end VoteManager

namespace ElectionSystem

/-- The districts that `setupElection` registers for the names from number `i` on. -/
def districtCatalog (capacity : Nat) : List String → Nat → List District
  | [], _ => []
  | name :: rest, i =>
    { name := name, id := "D" ++ toString (i + 1), candidateCount := capacity } ::
      districtCatalog capacity rest (i + 1)

/-- The candidates that `setupElection` registers for the names from number `i` on. -/
def candidateCatalog : List String → List String → Nat → List Candidate
  | name :: rest, party :: parties, i =>
    { name := name, party := party, id := "C" ++ toString (i + 1) } ::
      candidateCatalog rest parties (i + 1)
  | _, _, _ => []

/-- A call of one of the coordinator operations that may follow the setup. -/
inductive Op where
  | setElectionStatus (active : Bool)
  | processVoteUpdate (districtName candidateName : String) (voteCount : Int)
      (precinctId timestamp : String)
  | resetElection
  deriving DecidableEq, Repr

/-- The coordinator after one call. -/
def step (es : ElectionSystem) : Op → ElectionSystem
  | .setElectionStatus active => es.setElectionStatus active
  | .processVoteUpdate districtName candidateName voteCount precinctId timestamp =>
    (es.processVoteUpdate districtName candidateName voteCount precinctId timestamp).2
  | .resetElection => es.resetElection

/-- The coordinator after a sequence of calls. -/
def run (es : ElectionSystem) (ops : List Op) : ElectionSystem := ops.foldl step es

/-- The coordinator after one call, votes counted in `int64_t`. -/
def step64 (es : ElectionSystem) : Op → ElectionSystem
  | .setElectionStatus active => es.setElectionStatus active
  | .processVoteUpdate districtName candidateName voteCount precinctId timestamp =>
    (es.processVoteUpdate64 districtName candidateName voteCount precinctId timestamp).2
  | .resetElection => es.resetElection

/-- The coordinator after a sequence of calls, votes counted in `int64_t`. -/
def run64 (es : ElectionSystem) (ops : List Op) : ElectionSystem := ops.foldl step64 es

/-- Two coordinators whose registries differ at most in the cells of their tables, and there
by multiples of `2^64`. -/
def Sim (es es2 : ElectionSystem) : Prop :=
  VoteManager.Sim es.voteManager es2.voteManager ∧
    es.electionName = es2.electionName ∧ es.electionDate = es2.electionDate ∧
    es.isActive = es2.isActive

/-- The coordinator that `setupElection` makes of two districts and two candidates. -/
def demoSystem : ElectionSystem :=
  { voteManager :=
      { districtTrees :=
          [("D1", { tree := [0, 0, 0], size := 2 }), ("D2", { tree := [0, 0, 0], size := 2 })]
        candidateIndices :=
          [("D1", [("C1", 1), ("C2", 2)]), ("D2", [("C1", 1), ("C2", 2)])]
        districts :=
          [{ name := "District A", id := "D1", candidateCount := 2 },
           { name := "District B", id := "D2", candidateCount := 2 }]
        candidates :=
          [{ name := "Candidate 1", party := "Party A", id := "C1" },
           { name := "Candidate 2", party := "Party B", id := "C2" }]
        voteHistory := [] }
    electionName := "Test Election"
    electionDate := "2024-01-01"
    isActive := false }

/-- The registry of `demoSystem` after the election was started and four updates were
processed: 100 and 75 votes in the first district, 80 and 120 in the second. -/
def demoManager : VoteManager :=
  { demoSystem.voteManager with
    districtTrees :=
      [("D1", { tree := [0, 100, 175], size := 2 }), ("D2", { tree := [0, 80, 200], size := 2 })]
    voteHistory :=
      [{ districtId := "D1", candidateId := "C1", voteCount := 100, precinctId := "P001",
         timestamp := "Mon Jan  1 10:00:00 2024" },
       { districtId := "D1", candidateId := "C2", voteCount := 75, precinctId := "P002",
         timestamp := "Mon Jan  1 10:01:00 2024" },
       { districtId := "D2", candidateId := "C1", voteCount := 80, precinctId := "P003",
         timestamp := "Mon Jan  1 10:02:00 2024" },
       { districtId := "D2", candidateId := "C2", voteCount := 120, precinctId := "P004",
         timestamp := "Mon Jan  1 10:03:00 2024" }] }

/-- The registry of `demoSystem` after five votes for each candidate in the first district. -/
def tiedManager : VoteManager :=
  ((demoSystem.voteManager.addVotes "D1" "C1" 5 "P001" "Mon Jan  1 10:00:00 2024").2.addVotes
    "D1" "C2" 5 "P002" "Mon Jan  1 10:01:00 2024").2

/-- The coordinator that `setupElection` makes of two districts that bear the same display
name and two candidates that bear the same display name. -/
def twinSystem : ElectionSystem :=
  { voteManager :=
      { districtTrees :=
          [("D1", { tree := [0, 0, 0], size := 2 }), ("D2", { tree := [0, 0, 0], size := 2 })]
        candidateIndices :=
          [("D1", [("C1", 1), ("C2", 2)]), ("D2", [("C1", 1), ("C2", 2)])]
        districts :=
          [{ name := "Twin", id := "D1", candidateCount := 2 },
           { name := "Twin", id := "D2", candidateCount := 2 }]
        candidates :=
          [{ name := "Ann", party := "Red", id := "C1" },
           { name := "Ann", party := "Blue", id := "C2" }]
        voteHistory := [] }
    electionName := "Twin Election"
    electionDate := "2024-01-01"
    isActive := false }

/-- The registry of `demoSystem` after `2^63 - 1` votes for the first candidate in the first
district, counted in `int64_t`. -/
def saturatedManager : VoteManager :=
  (demoSystem.voteManager.addVotes64 "D1" "C1" 9223372036854775807 "P001"
    "Mon Jan  1 10:00:00 2024").2

/-- The registry of `demoSystem` after `2^62` votes for the first candidate in each of the two
districts, counted in `int64_t`. -/
def halvesManager : VoteManager :=
  ((demoSystem.voteManager.addVotes64 "D1" "C1" 4611686018427387904 "P001"
    "Mon Jan  1 10:00:00 2024").2.addVotes64 "D2" "C1" 4611686018427387904 "P002"
    "Mon Jan  1 10:01:00 2024").2

/-- The registry of `demoSystem` after `2^63 - 1` votes for the first candidate and `-2^63`
and `-1` votes for the second in the first district, counted in `int64_t`: no cell of the
table overflows on the way. -/
def skewedManager : VoteManager :=
  (((demoSystem.voteManager.addVotes64 "D1" "C1" 9223372036854775807 "P001"
    "Mon Jan  1 10:00:00 2024").2.addVotes64 "D1" "C2" (-9223372036854775808) "P002"
    "Mon Jan  1 10:01:00 2024").2.addVotes64 "D1" "C2" (-1) "P003"
    "Mon Jan  1 10:02:00 2024").2

/-- A coordinator on which `setupElection` was called twice with one district and one
candidate, then started. -/
def twiceSetupSystem : ElectionSystem :=
  (((construct "Edge Case Test" "2024-01-01").setupElection ["North"] ["Ann"] ["Red"]
    ).2.setupElection ["North"] ["Ann"] ["Red"]).2.setElectionStatus true

end ElectionSystem

namespace VoteManager

/-- Sum of `voteCount` over the audit records of district `d` and candidate `c`. -/
def auditSum (history : List VoteUpdate) (d c : String) : Int :=
  ((history.filter (fun r => decide (r.districtId = d ∧ r.candidateId = c))).map
    (fun r => r.voteCount)).sum

/-- Sum of `voteCount` over the audit records of district `d`. -/
def auditDistrictSum (history : List VoteUpdate) (d : String) : Int :=
  ((history.filter (fun r => decide (r.districtId = d))).map (fun r => r.voteCount)).sum

/-- The registry as one `setupElection` leaves it, whatever was voted since: the ids of each
catalog are pairwise distinct, every catalog district has a well-formed table with one cell
per catalog candidate and the index map that attaching the whole candidate catalog in order
gives, and no other id has a table. -/
def Arranged (vm : VoteManager) : Prop :=
  (vm.districts.map (fun d => d.id)).Nodup ∧ (vm.candidates.map (fun c => c.id)).Nodup ∧
  (∀ d ∈ vm.districts, ∃ tree, vm.districtTrees.find d.id = some tree ∧ tree.WF ∧
    tree.size = vm.candidates.length ∧
    vm.candidateIndices.find d.id = some (slotList 0 vm.candidates)) ∧
  ∀ id, (∀ d ∈ vm.districts, d.id ≠ id) → vm.districtTrees.find id = none

/-- Every count and every district total that the registry returns is the sum of the matching
audit records. -/
def Tallied (vm : VoteManager) : Prop :=
  (∀ d c, vm.getCandidateVotes d c = .ok (auditSum vm.voteHistory d c)) ∧
  ∀ d, vm.getDistrictTotalVotes d = .ok (auditDistrictSum vm.voteHistory d)

end VoteManager

namespace VoteManager

/-- A call of one of the registry operations that change the registry. -/
inductive Call where
  | addDistrict (district : District)
  | addCandidate (candidate : Candidate)
  | assignCandidateToDistrict (districtId candidateId : String)
  | addVotes (districtId candidateId : String) (voteCount : Int) (precinctId timestamp : String)
  | resetVotes
  deriving DecidableEq, Repr

/-- The registry after one call, whether it returned or threw. -/
def call (vm : VoteManager) : Call → VoteManager
  | .addDistrict district => (vm.addDistrict district).2
  | .addCandidate candidate => vm.addCandidate candidate
  | .assignCandidateToDistrict districtId candidateId =>
    (vm.assignCandidateToDistrict districtId candidateId).2
  | .addVotes districtId candidateId voteCount precinctId timestamp =>
    (vm.addVotes districtId candidateId voteCount precinctId timestamp).2
  | .resetVotes => vm.resetVotes

/-- The registry after a sequence of calls. -/
def calls (vm : VoteManager) (cs : List Call) : VoteManager := cs.foldl call vm

/-- The slot that candidate `c` holds in district `d`, if any. -/
def slotOf (vm : VoteManager) (d c : String) : Option Nat :=
  match vm.candidateIndices.find d with
  | none => none
  | some inner => inner.find c

/-- The call adds a district whose id is not in the catalog yet, or attaches a candidate to a
district in which the candidate holds no slot yet, or is one of the other calls. -/
def permitted (vm : VoteManager) : Call → Bool
  | .addDistrict district => vm.districts.all (fun x => x.id != district.id)
  | .assignCandidateToDistrict districtId candidateId => (slotOf vm districtId candidateId).isNone
  | _ => true

/-- Every call of the sequence is permitted in the state in which it is made. -/
def admissible : VoteManager → List Call → Bool
  | _, [] => true
  | vm, op :: rest => permitted vm op && admissible (call vm op) rest

/-- Every index map holds the slots `1..k` in the order of attachment, under `k` distinct
candidate ids. -/
def Dense (vm : VoteManager) : Prop :=
  ∀ d inner, vm.candidateIndices.find d = some inner →
    inner.map Prod.snd = List.range' 1 inner.length ∧ (inner.map Prod.fst).Nodup

/-- Only ids of the district catalog have an index map. -/
def IndexedInCatalog (vm : VoteManager) : Prop :=
  ∀ d, (∀ x ∈ vm.districts, x.id ≠ d) → vm.candidateIndices.find d = none

end VoteManager

/-- Value of a list of decimal digit characters, most significant digit first. -/
def digitsValue (cs : List Char) : Nat := cs.foldl (fun a c => 10 * a + (c.toNat - 48)) 0

/-! ## Lemmas: `lsb` -/

namespace FenwickTree

theorem lsb_eq_land (x : Nat) : ((lsb x : Nat) : Int) = Int.land (x : Int) (-(x : Int)) := by
  cases x with
  | zero => simp [lsb, Int.land]
  | succ m =>
    have h : -(((m + 1 : Nat)) : Int) = Int.negSucc m := rfl
    rw [h]
    show ((lsb (m + 1) : Nat) : Int) = ((Nat.ldiff (m + 1) m : Nat) : Int)
    congr 1
    apply Nat.eq_of_testBit_eq
    intro i
    simp only [lsb, Nat.testBit_xor, Nat.testBit_and, Nat.testBit_ldiff, Nat.add_sub_cancel]
    cases (m + 1).testBit i <;> cases m.testBit i <;> rfl

theorem lsb_odd (q : Nat) : lsb (2 * q + 1) = 1 := by
  have h1 : 2 * q + 1 = Nat.bit true q := by simp [Nat.bit_val]
  have h2 : 2 * q = Nat.bit false q := by simp [Nat.bit_val]
  unfold lsb
  rw [Nat.add_sub_cancel, h1, h2, Nat.land_bit, Nat.xor_bit]
  simp [Nat.bit_val]

theorem lsb_even (q : Nat) : lsb (2 * q) = 2 * lsb q := by
  rcases Nat.eq_zero_or_pos q with h | h
  · subst h; simp [lsb]
  · have h1 : 2 * q - 1 = Nat.bit true (q - 1) := by simp [Nat.bit_val]; omega
    have h2 : 2 * q = Nat.bit false q := by simp [Nat.bit_val]
    unfold lsb
    rw [h1, h2, Nat.land_bit, Nat.xor_bit]
    simp [Nat.bit_val]

theorem lsb_pos : ∀ x : Nat, 0 < x → 0 < lsb x := by
  intro x
  induction x using Nat.strong_induction_on with
  | _ x ih =>
    intro hx
    rcases Nat.even_or_odd' x with ⟨q, rfl | rfl⟩
    · rw [lsb_even]; have := ih q (by omega) (by omega); omega
    · rw [lsb_odd]; omega

theorem lsb_le : ∀ x : Nat, lsb x ≤ x := by
  intro x
  induction x using Nat.strong_induction_on with
  | _ x ih =>
    rcases Nat.even_or_odd' x with ⟨q, rfl | rfl⟩
    · rcases Nat.eq_zero_or_pos q with h | h
      · subst h; simp [lsb]
      · rw [lsb_even]; have := ih q (by omega); omega
    · rw [lsb_odd]; omega

/-- Climbing from strictly inside the range `(j - lsb j, j)` of cell `j` does not pass `j`. -/
theorem lsb_climb_in : ∀ j s : Nat, j - lsb j < s → s < j → s + lsb s ≤ j := by
  intro j
  induction j using Nat.strong_induction_on with
  | _ j ih =>
    intro s h1 h2
    rcases Nat.even_or_odd' j with ⟨q, rfl | rfl⟩
    · rw [lsb_even] at h1
      rcases Nat.even_or_odd' s with ⟨r, rfl | rfl⟩
      · rw [lsb_even]
        have := ih q (by omega) r (by omega) (by omega)
        omega
      · rw [lsb_odd]; omega
    · rw [lsb_odd] at h1; omega

/-- Climbing from below the range of cell `j` either stays below it or jumps over `j`. -/
theorem lsb_climb_out : ∀ j s : Nat, 0 < s → s ≤ j - lsb j →
    s + lsb s ≤ j - lsb j ∨ j < s + lsb s := by
  intro j
  induction j using Nat.strong_induction_on with
  | _ j ih =>
    intro s h0 h1
    rcases Nat.even_or_odd' j with ⟨q, rfl | rfl⟩
    · rw [lsb_even] at h1 ⊢
      rcases Nat.even_or_odd' s with ⟨r, rfl | rfl⟩
      · rw [lsb_even]
        have := ih q (by omega) r (by omega) (by omega)
        omega
      · rw [lsb_odd]; omega
    · rw [lsb_odd] at h1 ⊢
      rcases Nat.even_or_odd' s with ⟨r, rfl | rfl⟩
      · rw [lsb_even]; omega
      · rw [lsb_odd]; omega

/-- The loop of `update` ends within `size + 1 - s` steps, keeps the number of cells and adds
`delta` to exactly the cells up to `size` that hold position `s`. -/
theorem updateLoop_spec (size : Nat) (delta : Int) :
    ∀ (budget : Nat) (tree : List Int) (s : Nat), 0 < s → size + 1 - s ≤ budget →
      tree.length = size + 1 →
      ∃ tree2, updateLoop size delta budget tree s = some tree2 ∧
        tree2.length = size + 1 ∧
        ∀ j, tree2.getD j 0 = tree.getD j 0 + (if j ≤ size ∧ covers j s then delta else 0) := by
  intro budget
  induction budget with
  | zero =>
    intro tree s hs hb hl
    have hgt : ¬ s ≤ size := by omega
    refine ⟨tree, by unfold updateLoop; simp [hgt], hl, ?_⟩
    intro j
    have : ¬ (j ≤ size ∧ covers j s) := by unfold covers; omega
    simp [this]
  | succ b ih =>
    intro tree s hs hb hl
    by_cases hle : s ≤ size
    · have hp := lsb_pos s hs
      obtain ⟨tree2, h1, h2, h3⟩ := ih (tree.set s (tree.getD s 0 + delta)) (s + lsb s)
        (by omega) (by omega) (by simpa using hl)
      refine ⟨tree2, by rw [updateLoop]; simp only [hle, if_true]; exact h1, h2, ?_⟩
      intro j
      rw [h3 j]
      have hpj := lsb_pos j
      by_cases hjs : j = s
      · subst hjs
        have c1 : j ≤ size ∧ covers j j := ⟨hle, by unfold covers; omega⟩
        have c2 : ¬ (j ≤ size ∧ covers j (j + lsb j)) := by unfold covers; omega
        have hlt : j < tree.length := by omega
        rw [if_neg c2, if_pos c1]
        simp [List.getD_eq_getElem?_getD, List.getElem?_set, hlt]
      · have hset : (tree.set s (tree.getD s 0 + delta)).getD j 0 = tree.getD j 0 := by
          simp [List.getD_eq_getElem?_getD, List.getElem?_set, Ne.symm hjs]
        rw [hset]
        have hiff : (j ≤ size ∧ covers j (s + lsb s)) ↔ (j ≤ size ∧ covers j s) := by
          unfold covers
          constructor
          · rintro ⟨a, b, c⟩
            refine ⟨a, ?_, by omega⟩
            by_contra hcon
            rcases lsb_climb_out j s hs (by omega) with h | h <;> omega
          · rintro ⟨a, b, c⟩
            have := lsb_climb_in j s b (by omega)
            exact ⟨a, by omega, this⟩
        by_cases hc : j ≤ size ∧ covers j s
        · simp [hc, hiff.mpr hc]
        · have hc2 : ¬ (j ≤ size ∧ covers j (s + lsb s)) := fun h => hc (hiff.mp h)
          simp [hc, hc2]
    · refine ⟨tree, by rw [updateLoop]; simp [hle], hl, ?_⟩
      intro j
      have : ¬ (j ≤ size ∧ covers j s) := by unfold covers; omega
      simp [this]

/-- The loop of `query` ends within `i` steps; on a tree whose cells holding position `s` were
raised by `delta` it returns `delta` more exactly when `s ≤ i`. -/
theorem queryLoop_update (size s : Nat) (delta : Int) (tree tree2 : List Int) (hs : 0 < s)
    (h : ∀ j, tree2.getD j 0 = tree.getD j 0 + (if j ≤ size ∧ covers j s then delta else 0)) :
    ∀ (budget i : Nat) (sum sum2 : Int), i ≤ budget → i ≤ size →
      ∃ v, queryLoop tree budget i sum = some v ∧
        queryLoop tree2 budget i sum2 = some (v + (sum2 - sum) + (if s ≤ i then delta else 0)) := by
  intro budget
  induction budget with
  | zero =>
    intro i sum sum2 hb _
    have hi : i = 0 := by omega
    subst hi
    refine ⟨sum, by simp [queryLoop], ?_⟩
    have : ¬ s ≤ 0 := by omega
    simp [queryLoop, this]
  | succ b ih =>
    intro i sum sum2 hb hsz
    by_cases hi : i = 0
    · subst hi
      refine ⟨sum, by simp [queryLoop], ?_⟩
      have : ¬ s ≤ 0 := by omega
      simp [queryLoop, this]
    · have hpos : 0 < i := by omega
      have hp := lsb_pos i hpos
      have hl := lsb_le i
      obtain ⟨v, h1, h2⟩ := ih (i - lsb i) (sum + tree.getD i 0) (sum2 + tree2.getD i 0)
        (by omega) (by omega)
      refine ⟨v, by rw [queryLoop]; simp only [hpos, if_true]; exact h1, ?_⟩
      rw [queryLoop]
      simp only [hpos, if_true]
      rw [h2, h i]
      congr 1
      by_cases hc : s ≤ i - lsb i
      · have c1 : ¬ (i ≤ size ∧ covers i s) := by unfold covers; omega
        have c2 : s ≤ i := by omega
        rw [if_pos hc, if_neg c1, if_pos c2]; ring
      · by_cases hc2 : s ≤ i
        · have c1 : i ≤ size ∧ covers i s := ⟨hsz, by unfold covers; omega⟩
          rw [if_neg hc, if_pos c1, if_pos hc2]; ring
        · have c1 : ¬ (i ≤ size ∧ covers i s) := by unfold covers; omega
          rw [if_neg hc, if_neg c1, if_neg hc2]; ring

/-- On a well-formed table every `query(i)` with `i ≤ size` returns a value. -/
theorem query_ok (t : FenwickTree) (i : Nat) (hi : i ≤ t.size) : ∃ v, query t i = .ok v := by
  unfold query
  by_cases h0 : i = 0
  · exact ⟨0, by simp [h0]⟩
  · have hgt : ¬ i > t.size := by omega
    obtain ⟨v, h1, _⟩ := queryLoop_update t.size 1 0 t.tree t.tree (by omega)
      (by intro j; simp) i i 0 0 (le_refl i) hi
    exact ⟨v, by simp [h0, hgt, h1]⟩

/-- A valid `update(s, delta)` on a well-formed table succeeds, keeps the table well formed
and its size, and raises `query(i)` by `delta` exactly when `s ≤ i`. -/
theorem update_query (t : FenwickTree) (hwf : WF t) (s : Nat) (delta : Int)
    (hs : 1 ≤ s) (hs2 : s ≤ t.size) :
    ∃ t2, t.update s delta = (.ok (), t2) ∧ WF t2 ∧ t2.size = t.size ∧
      ∀ i, i ≤ t.size → ∃ v, query t i = .ok v ∧
        query t2 i = .ok (v + (if s ≤ i then delta else 0)) := by
  obtain ⟨tree2, h1, h2, h3⟩ := updateLoop_spec t.size delta (t.size + 1) t.tree s
    (by omega) (by omega) hwf
  refine ⟨{ t with tree := tree2 }, ?_, h2, rfl, ?_⟩
  · unfold update
    have : ¬ (s = 0 ∨ s > t.size) := by omega
    simp [this, h1]
  · intro i hi
    unfold query
    by_cases h0 : i = 0
    · subst h0
      have : ¬ s ≤ 0 := by omega
      exact ⟨0, by simp, by simp [this]⟩
    · have hgt : ¬ i > t.size := by omega
      obtain ⟨v, q1, q2⟩ := queryLoop_update t.size s delta t.tree tree2 (by omega) h3
        i i 0 0 (le_refl i) hi
      refine ⟨v, by simp [h0, hgt, q1], ?_⟩
      simp [h0, hgt, q2]

/-- The table that `construct n` builds. -/
theorem construct_ok (n : Nat) (hn : 1 ≤ n) :
    construct n = .ok { tree := List.replicate (n + 1) 0, size := n } := by
  unfold construct
  have : ¬ n = 0 := by omega
  simp [this]

theorem queryLoop_zero (m : Nat) :
    ∀ (budget i : Nat) (sum : Int), i ≤ budget →
      queryLoop (List.replicate m 0) budget i sum = some sum := by
  intro budget
  induction budget with
  | zero =>
    intro i sum hb
    have hi : i = 0 := by omega
    subst hi
    simp [queryLoop]
  | succ b ih =>
    intro i sum hb
    by_cases hi : i = 0
    · subst hi; simp [queryLoop]
    · have hpos : 0 < i := by omega
      have hp := lsb_pos i hpos
      rw [queryLoop]
      simp only [hpos, if_true]
      have hz : (List.replicate m (0 : Int)).getD i 0 = 0 := by
        simp only [List.getD_eq_getElem?_getD, List.getElem?_replicate]
        split <;> rfl
      rw [hz, add_zero]
      exact ih (i - lsb i) sum (by omega)

/-- Every prefix sum of a table whose cells are all zero is zero. -/
theorem query_zero (m n i : Nat) (hi : i ≤ n) :
    query { tree := List.replicate m 0, size := n } i = .ok 0 := by
  unfold query
  by_cases h0 : i = 0
  · simp [h0]
  · have hgt : ¬ i > n := by omega
    simp [h0, hgt, queryLoop_zero m i i 0 (le_refl i)]

theorem deltaSum_cons (p : Nat → Bool) (u : Nat × Int) (us : List (Nat × Int)) :
    deltaSum p (u :: us) = (if p u.1 then u.2 else 0) + deltaSum p us := by
  unfold deltaSum
  by_cases h : p u.1 = true
  · simp [List.filter_cons, h]
  · simp [List.filter_cons, h]

/-- A sequence of valid updates on a well-formed table succeeds and raises `query(i)` by the
sum of the deltas applied at indices `≤ i`. -/
theorem applyUpdates_query :
    ∀ (us : List (Nat × Int)) (t : FenwickTree), WF t →
      (∀ u ∈ us, 1 ≤ u.1 ∧ u.1 ≤ t.size) →
      ∃ t2, applyUpdates t us = .ok t2 ∧ WF t2 ∧ t2.size = t.size ∧
        ∀ i, i ≤ t.size → ∃ v, query t i = .ok v ∧
          query t2 i = .ok (v + deltaSum (fun k => decide (k ≤ i)) us) := by
  intro us
  induction us with
  | nil =>
    intro t hwf _
    refine ⟨t, rfl, hwf, rfl, ?_⟩
    intro i hi
    obtain ⟨v, hv⟩ := query_ok t i hi
    exact ⟨v, hv, by simp [deltaSum, hv]⟩
  | cons u us ih =>
    intro t hwf hus
    obtain ⟨hu1, hu2⟩ := hus u (List.mem_cons_self _ _)
    obtain ⟨t1, e1, wf1, sz1, q1⟩ := update_query t hwf u.1 u.2 hu1 hu2
    obtain ⟨t2, e2, wf2, sz2, q2⟩ := ih t1 wf1 (by
      intro w hw
      rw [sz1]
      exact hus w (List.mem_cons_of_mem _ hw))
    refine ⟨t2, ?_, wf2, by rw [sz2, sz1], ?_⟩
    · obtain ⟨a, b⟩ := u
      simp only [applyUpdates]
      rw [e1]
      exact e2
    · intro i hi
      obtain ⟨v, hv, hv1⟩ := q1 i hi
      obtain ⟨w, hw, hw2⟩ := q2 i (by rw [sz1]; exact hi)
      rw [hv1] at hw
      injection hw with hw
      refine ⟨v, hv, ?_⟩
      rw [hw2, deltaSum_cons, ← hw]
      by_cases hc : u.1 ≤ i
      · simp [hc, add_assoc]
      · simp [hc]

/-- `getValue(i)` is the difference of the prefix sums at `i` and `i - 1`. -/
theorem getValue_of_query (t : FenwickTree) (i : Nat) (a b : Int) (h1 : 1 ≤ i)
    (h2 : i ≤ t.size) (qa : query t i = .ok a) (qb : query t (i - 1) = .ok b) :
    getValue t i = .ok (a - b) := by
  unfold getValue rangeQuery
  have c1 : ¬ (i = 0 ∨ i > t.size) := by omega
  have c2 : ¬ i > i := by omega
  rw [if_neg c1, if_neg c2, if_neg c1, qa, qb]
  rfl

/-- A valid `update(s, delta)` raises `getValue(s)` by `delta` and leaves every other
`getValue(i)` as it was. -/
theorem update_getValue (t : FenwickTree) (hwf : WF t) (s : Nat) (delta : Int)
    (hs : 1 ≤ s) (hs2 : s ≤ t.size) :
    ∃ t2, t.update s delta = (.ok (), t2) ∧ WF t2 ∧ t2.size = t.size ∧
      ∀ i, 1 ≤ i → i ≤ t.size → ∃ v, getValue t i = .ok v ∧
        getValue t2 i = .ok (v + (if s = i then delta else 0)) := by
  obtain ⟨t2, e, wf2, sz, q⟩ := update_query t hwf s delta hs hs2
  refine ⟨t2, e, wf2, sz, ?_⟩
  intro i hi1 hi2
  obtain ⟨a, qa, qa2⟩ := q i hi2
  obtain ⟨b, qb, qb2⟩ := q (i - 1) (by omega)
  refine ⟨a - b, getValue_of_query t i a b hi1 hi2 qa qb, ?_⟩
  rw [getValue_of_query t2 i _ _ hi1 (by omega) qa2 qb2]
  congr 1
  by_cases h1 : s ≤ i - 1
  · have h2 : s ≤ i := by omega
    have h3 : ¬ s = i := by omega
    rw [if_pos h1, if_pos h2, if_neg h3]; ring
  · by_cases h2 : s ≤ i
    · have h3 : s = i := by omega
      rw [if_neg h1, if_pos h2, if_pos h3]; ring
    · have h3 : ¬ s = i := by omega
      rw [if_neg h1, if_neg h2, if_neg h3]; ring

theorem deltaSum_all (p : Nat → Bool) (us : List (Nat × Int)) (h : ∀ u ∈ us, p u.1 = true) :
    deltaSum p us = (us.map (fun u => u.2)).sum := by
  induction us with
  | nil => rfl
  | cons u us ih =>
    rw [deltaSum_cons, h u (List.mem_cons_self _ _),
      ih (fun w hw => h w (List.mem_cons_of_mem _ hw))]
    simp

theorem deltaSum_le_sub (i : Nat) (hi : 1 ≤ i) (us : List (Nat × Int)) :
    deltaSum (fun k => decide (k ≤ i)) us - deltaSum (fun k => decide (k ≤ i - 1)) us
      = deltaSum (fun k => decide (k = i)) us := by
  induction us with
  | nil => rfl
  | cons u us ih =>
    rw [deltaSum_cons, deltaSum_cons, deltaSum_cons, ← ih]
    by_cases h1 : u.1 ≤ i - 1
    · have h2 : u.1 ≤ i := by omega
      have h3 : ¬ u.1 = i := by omega
      simp only [h1, h2, h3, decide_True, decide_False, if_true]
      simp
    · by_cases h2 : u.1 ≤ i
      · have h3 : u.1 = i := by omega
        simp only [h1, h2, h3, decide_True, decide_False, if_true]
        simp
        omega
      · have h3 : ¬ u.1 = i := by omega
        simp only [h1, h2, h3, decide_True, decide_False]
        simp

end FenwickTree

/-! ## Lemmas: maps and the registry -/

/-- A loop over a list all of whose calls return is the list of the returned values. -/
theorem mapM_ok {α β : Type} (f : α → Except Exn β) (g : α → β) (l : List α)
    (h : ∀ x ∈ l, f x = .ok (g x)) : l.mapM f = .ok (l.map g) := by
  induction l with
  | nil => rfl
  | cons x l ih =>
    rw [List.mapM_cons, h x (List.mem_cons_self _ _),
      ih (fun y hy => h y (List.mem_cons_of_mem _ hy))]
    rfl

/-- Differences of consecutive values add up to the difference of the ends. -/
theorem sum_range_diff (q : Nat → Int) (n : Nat) :
    ((List.range' 1 n).map (fun s => q s - q (s - 1))).sum = q n - q 0 := by
  induction n with
  | zero => simp
  | succ n ih =>
    rw [List.range'_1_concat, List.map_append, List.sum_append, ih]
    have : 1 + n - 1 = n := by omega
    simp only [List.map_cons, List.map_nil, List.sum_cons, List.sum_nil, this, add_zero]
    rw [Nat.add_comm 1 n]
    ring


theorem digitChar_value (r : Nat) (h : r < 10) : (Nat.digitChar r).toNat - 48 = r := by
  interval_cases r <;> rfl

/-- The digits that `Nat.toDigitsCore` puts in front of `ds` have the value `n`. -/
theorem toDigitsCore_value : ∀ (fuel n : Nat) (ds : List Char), n < fuel →
    ∃ pre, Nat.toDigitsCore 10 fuel n ds = pre ++ ds ∧ digitsValue pre = n := by
  intro fuel
  induction fuel with
  | zero => intro n ds h; omega
  | succ fuel ih =>
    intro n ds h
    by_cases h0 : n / 10 = 0
    · refine ⟨[Nat.digitChar (n % 10)], by simp [Nat.toDigitsCore, h0], ?_⟩
      simp only [digitsValue, List.foldl_cons, List.foldl_nil]
      rw [digitChar_value _ (Nat.mod_lt _ (by omega))]
      omega
    · obtain ⟨pre, h1, h2⟩ := ih (n / 10) (Nat.digitChar (n % 10) :: ds) (by omega)
      refine ⟨pre ++ [Nat.digitChar (n % 10)], by simp [Nat.toDigitsCore, h0, h1], ?_⟩
      unfold digitsValue at h2 ⊢
      rw [List.foldl_append, h2]
      simp only [List.foldl_cons, List.foldl_nil]
      rw [digitChar_value _ (Nat.mod_lt _ (by omega))]
      omega

/-- The decimal text of a number determines the number (`std::to_string` on `size_t`). -/
theorem repr_injective (a b : Nat) (h : Nat.repr a = Nat.repr b) : a = b := by
  unfold Nat.repr Nat.toDigits at h
  obtain ⟨p, hp, vp⟩ := toDigitsCore_value (a + 1) a [] (by omega)
  obtain ⟨q, hq, vq⟩ := toDigitsCore_value (b + 1) b [] (by omega)
  rw [hp, hq] at h
  simp only [List.append_nil, List.asString] at h
  have : p = q := by injection h
  rw [← vp, ← vq, this]

/-- Generated ids `pre ++ toString a` are distinct for distinct numbers. -/
theorem id_injective (pre : String) (a b : Nat) (h : pre ++ toString a = pre ++ toString b) :
    a = b := by
  apply repr_injective
  have h2 := congrArg String.data h
  simp only [String.data_append] at h2
  have h3 := List.append_cancel_left h2
  show toString a = toString b
  exact String.ext h3

namespace UMap

theorem find_modify {V : Type} (m : UMap V) (k k2 : String) (f : V → V) :
    find (modify m k f) k2 = if k2 = k then (find m k).map f else find m k2 := by
  induction m with
  | nil => simp [modify, find]
  | cons p m ih =>
    obtain ⟨a, v⟩ := p
    by_cases hak : a = k
    · by_cases hk : k2 = k
      · simp [modify, find, hak, hk]
      · have : ¬ k = k2 := fun h => hk h.symm
        simp [modify, find, hak, hk, this]
    · by_cases hk : k2 = k
      · subst hk
        simp [modify, find, hak, ih]
      · by_cases hak2 : a = k2
        · simp [modify, find, hak, hk, hak2]
        · simp [modify, find, hak, hk, hak2, ih]

theorem find_assign {V : Type} (m : UMap V) (k k2 : String) (v : V) :
    find (assign m k v) k2 = if k2 = k then some v else find m k2 := by
  induction m with
  | nil =>
    by_cases hk : k2 = k
    · simp [assign, find, hk]
    · have : ¬ k = k2 := fun h => hk h.symm
      simp [assign, find, hk, this]
  | cons p m ih =>
    obtain ⟨a, w⟩ := p
    by_cases hak : a = k
    · by_cases hk : k2 = k
      · simp [assign, find, hak, hk]
      · have : ¬ k = k2 := fun h => hk h.symm
        simp [assign, find, hak, hk, this]
    · by_cases hk : k2 = k
      · subst hk
        simp [assign, find, hak, ih]
      · by_cases hak2 : a = k2
        · simp [assign, find, hak, hk, hak2]
        · simp [assign, find, hak, hk, hak2, ih]

theorem size_assign_le {V : Type} (m : UMap V) (k : String) (v : V) :
    (assign m k v).size ≤ m.size + 1 := by
  induction m with
  | nil => simp [assign, size]
  | cons p m ih =>
    obtain ⟨a, w⟩ := p
    by_cases hak : a = k
    · simp [assign, size, hak]
    · simp only [assign, size, hak, if_false, List.length_cons] at ih ⊢
      omega

theorem find_map_values {V : Type} (m : UMap V) (k : String) (f : V → V) :
    find (m.map (fun p => (p.1, f p.2))) k = (find m k).map f := by
  induction m with
  | nil => rfl
  | cons p m ih =>
    obtain ⟨a, w⟩ := p
    by_cases hak : a = k
    · simp [find, hak]
    · simp only [List.map_cons, find, hak, if_false]
      exact ih

end UMap

namespace VoteManager

/-- `addDistrict` with a capacity of at least one. -/
theorem addDistrict_ok (vm : VoteManager) (district : District)
    (hk : 1 ≤ district.candidateCount) :
    vm.addDistrict district = (.ok (),
      { districts := vm.districts ++ [district]
        districtTrees := vm.districtTrees.assign district.id
          { tree := List.replicate (district.candidateCount + 1) 0,
            size := district.candidateCount }
        candidateIndices := vm.candidateIndices.assign district.id []
        candidates := vm.candidates
        voteHistory := vm.voteHistory }) := by
  simp only [addDistrict, FenwickTree.construct_ok _ hk]

/-- `assignCandidateToDistrict` for a catalog district and a catalog candidate. -/
theorem assignCandidateToDistrict_ok (vm : VoteManager) (d : String) (c : Candidate)
    (hd : ∃ x ∈ vm.districts, x.id = d) (hc : c ∈ vm.candidates) :
    vm.assignCandidateToDistrict d c.id = (.ok (),
      { vm with
        candidateIndices := vm.candidateIndices.assign d
          (((vm.candidateIndices.find d).getD []).assign c.id
            (((vm.candidateIndices.find d).getD []).size + 1)) }) := by
  obtain ⟨x, hx, hxd⟩ := hd
  unfold assignCandidateToDistrict
  cases h1 : vm.districts.find? (fun y => y.id == d) with
  | none =>
    rw [List.find?_eq_none] at h1
    exact absurd (by simp [hxd]) (h1 x hx)
  | some _ =>
    cases h2 : vm.candidates.find? (fun y => y.id == c.id) with
    | none =>
      rw [List.find?_eq_none] at h2
      exact absurd (by simp) (h2 c hc)
    | some _ => rfl

/-- What `addVotes` does when the district has the well-formed table `tree` and the candidate
the slot `s` within it. -/
theorem addVotes_ok (vm : VoteManager) (d c : String) (delta : Int) (unit ts : String)
    (tree : FenwickTree) (indices : UMap Nat) (s : Nat)
    (ht : vm.districtTrees.find d = some tree) (hwf : tree.WF)
    (hi : vm.candidateIndices.find d = some indices) (hs : indices.find c = some s)
    (hs1 : 1 ≤ s) (hs2 : s ≤ tree.size) :
    ∃ tree2, tree.update s delta = (.ok (), tree2) ∧ tree2.WF ∧ tree2.size = tree.size ∧
      vm.addVotes d c delta unit ts = (.ok (), { vm with
        districtTrees := vm.districtTrees.modify d (fun _ => tree2)
        voteHistory := vm.voteHistory ++
          [{ districtId := d, candidateId := c, voteCount := delta,
             precinctId := unit, timestamp := ts }] }) := by
  obtain ⟨tree2, e, wf2, sz, _⟩ := FenwickTree.update_query tree hwf s delta hs1 hs2
  refine ⟨tree2, e, wf2, sz, ?_⟩
  simp only [addVotes, ht, hi, hs, e]

theorem totalLoop_eq (vm : VoteManager) (c : String) :
    ∀ (ds : List District) (total : Int),
      totalLoop vm c ds total =
        Except.map (fun vs => total + vs.sum) (ds.mapM (fun d => vm.getCandidateVotes d.id c)) := by
  intro ds
  induction ds with
  | nil => intro total; rw [List.mapM_nil]; simp [totalLoop, Except.map, pure, Except.pure]
  | cons d ds ih =>
    intro total
    rw [List.mapM_cons, totalLoop]
    cases hx : vm.getCandidateVotes d.id c with
    | error e => rfl
    | ok v =>
      simp only [ih]
      cases hl : ds.mapM (fun d => vm.getCandidateVotes d.id c) with
      | error e => rfl
      | ok vs => simp [Except.map, bind, Except.bind, pure, Except.pure, add_assoc]

/-- The leader scan over candidates whose counts `f` are all returned: either no candidate
beats `maxVotes` and the incoming `leaderId` is returned, or the first candidate whose count
is the greatest of the list (which is more than `maxVotes`) is returned. -/
theorem leaderLoop_spec (votesOf : String → Except Exn Int) (f : Candidate → Int) :
    ∀ (cands : List Candidate) (leaderId : String) (maxVotes : Int),
      (∀ c ∈ cands, votesOf c.id = .ok (f c)) →
      ((∀ c ∈ cands, f c ≤ maxVotes) ∧ leaderLoop votesOf cands leaderId maxVotes = .ok leaderId) ∨
      ∃ pre L post, cands = pre ++ L :: post ∧
        leaderLoop votesOf cands leaderId maxVotes = .ok L.id ∧ maxVotes < f L ∧
        (∀ c ∈ pre, f c < f L) ∧ (∀ c ∈ post, f c ≤ f L) := by
  intro cands
  induction cands with
  | nil =>
    intro leaderId maxVotes _
    exact Or.inl ⟨by simp, rfl⟩
  | cons c rest ih =>
    intro leaderId maxVotes hf
    have hc := hf c (List.mem_cons_self _ _)
    have hrest : ∀ x ∈ rest, votesOf x.id = .ok (f x) :=
      fun x hx => hf x (List.mem_cons_of_mem _ hx)
    by_cases hgt : f c > maxVotes
    · have hstep : leaderLoop votesOf (c :: rest) leaderId maxVotes =
          leaderLoop votesOf rest c.id (f c) := by
        simp only [leaderLoop, hc, if_pos hgt]
      rcases ih c.id (f c) hrest with ⟨hall, hres⟩ | ⟨pre, L, post, hsplit, hres, hlt, hpre, hpost⟩
      · exact Or.inr ⟨[], c, rest, rfl, by rw [hstep, hres], hgt, by simp, hall⟩
      · refine Or.inr ⟨c :: pre, L, post, by rw [hsplit]; rfl, by rw [hstep, hres],
          lt_trans hgt hlt, ?_, hpost⟩
        intro x hx
        rcases List.mem_cons.mp hx with h | h
        · rw [h]; exact hlt
        · exact hpre x h
    · have hstep : leaderLoop votesOf (c :: rest) leaderId maxVotes =
          leaderLoop votesOf rest leaderId maxVotes := by
        simp only [leaderLoop, hc, if_neg hgt]
      rcases ih leaderId maxVotes hrest with
        ⟨hall, hres⟩ | ⟨pre, L, post, hsplit, hres, hlt, hpre, hpost⟩
      · refine Or.inl ⟨?_, by rw [hstep, hres]⟩
        intro x hx
        rcases List.mem_cons.mp hx with h | h
        · rw [h]; exact not_lt.mp hgt
        · exact hall x h
      · refine Or.inr ⟨c :: pre, L, post, by rw [hsplit]; rfl, by rw [hstep, hres], hlt, ?_, hpost⟩
        intro x hx
        rcases List.mem_cons.mp hx with h | h
        · rw [h]; exact lt_of_le_of_lt (not_lt.mp hgt) hlt
        · exact hpre x h

/-- The leader scan started at `-1` over a non-empty list of non-negative counts returns the
first candidate whose count is the greatest. -/
theorem leaderLoop_nonneg (votesOf : String → Except Exn Int) (f : Candidate → Int)
    (cands : List Candidate) (hne : cands ≠ [])
    (hf : ∀ c ∈ cands, votesOf c.id = .ok (f c)) (hnn : ∀ c ∈ cands, 0 ≤ f c) :
    ∃ pre L post, cands = pre ++ L :: post ∧ leaderLoop votesOf cands "" (-1) = .ok L.id ∧
      (∀ c ∈ cands, f c ≤ f L) ∧ (∀ c ∈ pre, f c < f L) := by
  rcases leaderLoop_spec votesOf f cands "" (-1) hf with
    ⟨hall, _⟩ | ⟨pre, L, post, hsplit, hres, _, hpre, hpost⟩
  · exfalso
    cases cands with
    | nil => exact hne rfl
    | cons c rest =>
      have h1 := hall c (List.mem_cons_self _ _)
      have h2 := hnn c (List.mem_cons_self _ _)
      omega
  · refine ⟨pre, L, post, hsplit, hres, ?_, hpre⟩
    intro c hc
    rw [hsplit, List.mem_append, List.mem_cons] at hc
    rcases hc with h | h | h
    · exact le_of_lt (hpre c h)
    · rw [h]
    · exact hpost c h

end VoteManager

/-! ## Lemmas: the setup and the states that follow it -/

namespace ElectionSystem

open VoteManager in
/-- The first loop of `setupElection`, for a capacity of at least one: it registers the
districts of `districtCatalog`, and every district of the catalog is fresh afterwards. -/
theorem setupDistricts_spec (k : Nat) (hk : 1 ≤ k) :
    ∀ (names : List String) (vm : VoteManager) (i : Nat),
      (∀ d ∈ vm.districts, Fresh k vm d.id) →
      ∃ vm2, setupDistricts k vm names i = (.ok (), vm2) ∧
        vm2.districts = vm.districts ++ districtCatalog k names i ∧
        vm2.candidates = vm.candidates ∧ vm2.voteHistory = vm.voteHistory ∧
        ∀ d ∈ vm2.districts, Fresh k vm2 d.id := by
  intro names
  induction names with
  | nil =>
    intro vm i hf
    exact ⟨vm, rfl, by simp [districtCatalog], rfl, rfl, hf⟩
  | cons name rest ih =>
    intro vm i hf
    have hadd := addDistrict_ok vm
      { name := name, id := "D" ++ toString (i + 1), candidateCount := k } hk
    obtain ⟨vm1, hvm1⟩ : ∃ vm1, vm1 =
        (vm.addDistrict { name := name, id := "D" ++ toString (i + 1), candidateCount := k }).2 :=
      ⟨_, rfl⟩
    have hres : vm.addDistrict
        { name := name, id := "D" ++ toString (i + 1), candidateCount := k } = (.ok (), vm1) := by
      rw [hvm1, hadd]
    rw [hadd] at hvm1
    obtain ⟨vm2, h1, h2, h3, h4, h5⟩ := ih vm1 (i + 1) (by
      intro d hd
      rw [hvm1] at hd ⊢
      simp only [List.mem_append, List.mem_singleton] at hd
      unfold Fresh
      simp only [UMap.find_assign]
      by_cases hid : d.id = "D" ++ toString (i + 1)
      · simp [hid]
      · rcases hd with hd | hd
        · simp only [if_neg hid]
          exact hf d hd
        · rw [hd] at hid
          exact absurd rfl hid)
    refine ⟨vm2, ?_, ?_, ?_, ?_, h5⟩
    · simp only [setupDistricts, hres]
      exact h1
    · rw [h2, hvm1]
      simp [districtCatalog]
    · rw [h3, hvm1]
    · rw [h4, hvm1]

/-- Every id of `districtCatalog` is `"D"` followed by a number above the start. -/
theorem districtCatalog_ids (k : Nat) :
    ∀ (names : List String) (i : Nat), ∀ d ∈ districtCatalog k names i,
      ∃ j, i ≤ j ∧ d.id = "D" ++ toString (j + 1) := by
  intro names
  induction names with
  | nil => intro i d hd; simp [districtCatalog] at hd
  | cons name rest ih =>
    intro i d hd
    simp only [districtCatalog, List.mem_cons] at hd
    rcases hd with hd | hd
    · exact ⟨i, le_refl _, by rw [hd]⟩
    · obtain ⟨j, hj, hid⟩ := ih (i + 1) d hd
      exact ⟨j, by omega, hid⟩

/-- The ids of `districtCatalog` are pairwise distinct. -/
theorem districtCatalog_nodup (k : Nat) :
    ∀ (names : List String) (i : Nat),
      ((districtCatalog k names i).map (fun d => d.id)).Nodup := by
  intro names
  induction names with
  | nil => intro i; simp [districtCatalog]
  | cons name rest ih =>
    intro i
    simp only [districtCatalog, List.map_cons, List.nodup_cons]
    refine ⟨?_, ih (i + 1)⟩
    intro hmem
    rw [List.mem_map] at hmem
    obtain ⟨d, hd, hid⟩ := hmem
    obtain ⟨j, hj, hdj⟩ := districtCatalog_ids k rest (i + 1) d hd
    rw [hdj] at hid
    have := id_injective "D" (j + 1) (i + 1) hid
    omega

/-- The second loop of `setupElection` registers the candidates of `candidateCatalog` and
touches nothing else. -/
theorem setupCandidates_spec :
    ∀ (names parties : List String) (vm : VoteManager) (i : Nat),
      (setupCandidates vm names parties i).candidates =
          vm.candidates ++ candidateCatalog names parties i ∧
        (setupCandidates vm names parties i).districts = vm.districts ∧
        (setupCandidates vm names parties i).districtTrees = vm.districtTrees ∧
        (setupCandidates vm names parties i).candidateIndices = vm.candidateIndices ∧
        (setupCandidates vm names parties i).voteHistory = vm.voteHistory := by
  intro names
  induction names with
  | nil =>
    intro parties vm i
    simp [setupCandidates, candidateCatalog]
  | cons name rest ih =>
    intro parties vm i
    cases parties with
    | nil => simp [setupCandidates, candidateCatalog]
    | cons party parties =>
      obtain ⟨h1, h2, h3, h4, h5⟩ := ih parties
        (vm.addCandidate { name := name, party := party, id := "C" ++ toString (i + 1) }) (i + 1)
      simp only [setupCandidates, candidateCatalog]
      refine ⟨?_, ?_, ?_, ?_, ?_⟩
      · rw [h1]; simp [VoteManager.addCandidate]
      · rw [h2]; rfl
      · rw [h3]; rfl
      · rw [h4]; rfl
      · rw [h5]; rfl

theorem candidateCatalog_length :
    ∀ (names parties : List String) (i : Nat), names.length = parties.length →
      (candidateCatalog names parties i).length = names.length := by
  intro names
  induction names with
  | nil => intro parties i _; simp [candidateCatalog]
  | cons name rest ih =>
    intro parties i h
    cases parties with
    | nil => simp at h
    | cons party parties =>
      simp only [candidateCatalog, List.length_cons]
      rw [ih parties (i + 1) (by simpa using h)]

open VoteManager in
/-- The inner assignment loop for a catalog district `d` whose index map `inner0` has its
slots within `1..p`: it succeeds, changes only the index map of `d`, keeps the keys of
`inner0`, gives every listed candidate a slot and keeps the slots within
`1..p + cs.length`. -/
theorem assignCandidates_spec (d : String) :
    ∀ (cs : List Candidate) (vm : VoteManager) (inner0 : UMap Nat) (p : Nat),
      (∃ x ∈ vm.districts, x.id = d) → (∀ c ∈ cs, c ∈ vm.candidates) →
      vm.candidateIndices.find d = some inner0 → SlotsWithin inner0 p →
      ∃ vm2 inner, assignCandidates d vm cs = (.ok (), vm2) ∧
        vm2.districts = vm.districts ∧ vm2.candidates = vm.candidates ∧
        vm2.districtTrees = vm.districtTrees ∧ vm2.voteHistory = vm.voteHistory ∧
        (∀ d2, d2 ≠ d → vm2.candidateIndices.find d2 = vm.candidateIndices.find d2) ∧
        vm2.candidateIndices.find d = some inner ∧ SlotsWithin inner (p + cs.length) ∧
        (∀ key, (inner0.find key).isSome → (inner.find key).isSome) ∧
        ∀ c ∈ cs, (inner.find c.id).isSome := by
  intro cs
  induction cs with
  | nil =>
    intro vm inner0 p _ _ hfind hin
    exact ⟨vm, inner0, rfl, rfl, rfl, rfl, rfl, fun _ _ => rfl, hfind, hin,
      fun _ h => h, by simp⟩
  | cons c rest ih =>
    intro vm inner0 p hd hcs hfind hin
    have hstep := assignCandidateToDistrict_ok vm d c hd (hcs c (List.mem_cons_self _ _))
    rw [hfind, Option.getD_some] at hstep
    obtain ⟨vm1, hvm1⟩ : ∃ vm1, vm1 = (vm.assignCandidateToDistrict d c.id).2 := ⟨_, rfl⟩
    have hres : vm.assignCandidateToDistrict d c.id = (.ok (), vm1) := by rw [hvm1, hstep]
    rw [hstep] at hvm1
    have hin1 : SlotsWithin (inner0.assign c.id (inner0.size + 1)) (p + 1) := by
      obtain ⟨hsz, hval⟩ := hin
      refine ⟨?_, ?_⟩
      · have := UMap.size_assign_le inner0 c.id (inner0.size + 1)
        omega
      · intro key s hs
        rw [UMap.find_assign] at hs
        by_cases hk : key = c.id
        · rw [if_pos hk] at hs
          injection hs with hs
          omega
        · rw [if_neg hk] at hs
          have := hval key s hs
          omega
    obtain ⟨vm2, inner, h1, h2, h3, h4, h5, h6, h7, h8, h9, h10⟩ :=
      ih vm1 (inner0.assign c.id (inner0.size + 1)) (p + 1)
        (by rw [hvm1]; exact hd)
        (by rw [hvm1]; exact fun x hx => hcs x (List.mem_cons_of_mem _ hx))
        (by rw [hvm1]; simp [UMap.find_assign])
        hin1
    refine ⟨vm2, inner, ?_, ?_, ?_, ?_, ?_, ?_, h7, ?_, ?_, ?_⟩
    · simp only [assignCandidates, hres]
      exact h1
    · rw [h2, hvm1]
    · rw [h3, hvm1]
    · rw [h4, hvm1]
    · rw [h5, hvm1]
    · intro d2 hd2
      rw [h6 d2 hd2, hvm1]
      simp [UMap.find_assign, hd2]
    · have : p + (c :: rest).length = p + 1 + rest.length := by simp; omega
      rw [this]
      exact h8
    · intro key hkey
      apply h9
      rw [UMap.find_assign]
      by_cases hk : key = c.id
      · simp [hk]
      · simpa [hk] using hkey
    · intro x hx
      rcases List.mem_cons.mp hx with h | h
      · apply h9
        rw [h, UMap.find_assign]
        simp
      · exact h10 x h

open VoteManager in
/-- The third loop of `setupElection` over districts with pairwise distinct ids and empty
index maps: it succeeds, changes only the index maps of these districts and gives every
catalog candidate a slot in `1..candidates.length` in each of them. -/
theorem assignDistricts_spec :
    ∀ (ds : List District) (vm : VoteManager),
      (ds.map (fun d => d.id)).Nodup → (∀ d ∈ ds, d ∈ vm.districts) →
      (∀ d ∈ ds, vm.candidateIndices.find d.id = some []) →
      ∃ vm2, assignDistricts vm ds = (.ok (), vm2) ∧
        vm2.districts = vm.districts ∧ vm2.candidates = vm.candidates ∧
        vm2.districtTrees = vm.districtTrees ∧ vm2.voteHistory = vm.voteHistory ∧
        (∀ id, id ∉ ds.map (fun d => d.id) →
          vm2.candidateIndices.find id = vm.candidateIndices.find id) ∧
        ∀ d ∈ ds, ∃ inner, vm2.candidateIndices.find d.id = some inner ∧
          ∀ c ∈ vm.candidates, ∃ s, inner.find c.id = some s ∧ 1 ≤ s ∧
            s ≤ vm.candidates.length := by
  intro ds
  induction ds with
  | nil =>
    intro vm _ _ _
    exact ⟨vm, rfl, rfl, rfl, rfl, rfl, fun _ _ => rfl, by simp⟩
  | cons d rest ih =>
    intro vm hnd hmem hempty
    rw [List.map_cons, List.nodup_cons] at hnd
    obtain ⟨vm1, inner, e1, a1, a2, a3, a4, a5, a6, a7, _, a9⟩ :=
      assignCandidates_spec d.id vm.candidates vm [] 0
        ⟨d, hmem d (List.mem_cons_self _ _), rfl⟩ (fun _ h => h)
        (hempty d (List.mem_cons_self _ _))
        ⟨by simp [UMap.size], by intro key s h; simp [UMap.find] at h⟩
    have hne : ∀ x ∈ rest, x.id ≠ d.id := by
      intro x hx heq
      exact hnd.1 (List.mem_map.mpr ⟨x, hx, heq⟩)
    obtain ⟨vm2, e2, b1, b2, b3, b4, b5, b6⟩ := ih vm1 hnd.2
      (by rw [a1]; exact fun x hx => hmem x (List.mem_cons_of_mem _ hx))
      (by
        intro x hx
        rw [a5 x.id (hne x hx)]
        exact hempty x (List.mem_cons_of_mem _ hx))
    refine ⟨vm2, ?_, by rw [b1, a1], by rw [b2, a2], by rw [b3, a3], by rw [b4, a4], ?_, ?_⟩
    · simp only [assignDistricts, VoteManager.getCandidates, e1]
      exact e2
    · intro id hid
      rw [List.map_cons, List.mem_cons, not_or] at hid
      rw [b5 id hid.2, a5 id hid.1]
    · intro x hx
      rcases List.mem_cons.mp hx with h | h
      · refine ⟨inner, ?_, ?_⟩
        · rw [h, b5 d.id hnd.1]
          exact a6
        · intro c hc
          have hsome := a9 c hc
          cases hf : inner.find c.id with
          | none => rw [hf] at hsome; simp at hsome
          | some s =>
            have := a7.2 c.id s hf
            exact ⟨s, rfl, this.1, by omega⟩
      · obtain ⟨inner2, i1, i2⟩ := b6 x h
        rw [a2] at i2
        exact ⟨inner2, i1, i2⟩

/-- `setupElection` on a freshly constructed coordinator with as many parties as candidates
and at least one candidate succeeds, registers the two catalogs, leaves the history empty and
the coordinator inactive, and configures the registry for the number of candidates. -/
theorem setupElection_spec (name date : String)
    (districtNames candidateNames partyNames : List String)
    (hlen : candidateNames.length = partyNames.length) (hk : 1 ≤ candidateNames.length) :
    ∃ vm, (construct name date).setupElection districtNames candidateNames partyNames =
        (.ok (), { voteManager := vm, electionName := name, electionDate := date,
                   isActive := false }) ∧
      vm.districts = districtCatalog candidateNames.length districtNames 0 ∧
      vm.candidates = candidateCatalog candidateNames partyNames 0 ∧
      vm.voteHistory = [] ∧ vm.Configured candidateNames.length := by
  obtain ⟨vm1, e1, d1, c1, v1, f1⟩ := setupDistricts_spec candidateNames.length hk
    districtNames VoteManager.empty 0 (by intro d hd; simp [VoteManager.empty] at hd)
  obtain ⟨c2, d2, t2, i2, v2⟩ := setupCandidates_spec candidateNames partyNames vm1 0
  have hd1 : vm1.districts = districtCatalog candidateNames.length districtNames 0 := by
    rw [d1]; simp [VoteManager.empty]
  have hc2 : (setupCandidates vm1 candidateNames partyNames 0).candidates =
      candidateCatalog candidateNames partyNames 0 := by
    rw [c2, c1]; simp [VoteManager.empty]
  obtain ⟨vm3, e3, d3, c3, t3, v3, _, g3⟩ := assignDistricts_spec
    (setupCandidates vm1 candidateNames partyNames 0).districts
    (setupCandidates vm1 candidateNames partyNames 0)
    (by rw [d2, hd1]; exact districtCatalog_nodup _ _ _)
    (fun _ h => h)
    (by
      intro d hd
      rw [d2] at hd
      rw [i2]
      exact (f1 d hd).2)
  refine ⟨vm3, ?_, by rw [d3, d2, hd1], by rw [c3, hc2], by rw [v3, v2, v1]; rfl, ?_⟩
  · have hne : ¬ candidateNames.length ≠ partyNames.length := fun h => h hlen
    simp only [setupElection, construct, if_neg hne, e1, VoteManager.getDistricts, e3]
  · intro d hd
    rw [d3] at hd
    obtain ⟨inner, hi, hs⟩ := g3 d hd
    rw [d2] at hd
    refine ⟨{ tree := List.replicate (candidateNames.length + 1) 0,
              size := candidateNames.length }, inner, ?_, ?_, rfl, hi, ?_⟩
    · rw [t3, t2]
      exact (f1 d hd).1
    · simp [FenwickTree.WF]
    · intro c hc
      rw [c3] at hc
      obtain ⟨s, h1, h2, h3⟩ := hs c hc
      rw [hc2, candidateCatalog_length _ _ _ hlen] at h3
      exact ⟨s, h1, h2, h3⟩

/-- `resetVotes` keeps a configured registry configured. -/
theorem configured_resetVotes (k : Nat) (vm : VoteManager) (h : vm.Configured k) :
    vm.resetVotes.Configured k := by
  intro d hd
  obtain ⟨tree, indices, h1, h2, h3, h4, h5⟩ := h d hd
  refine ⟨tree.reset, indices, ?_, ?_, h3, h4, h5⟩
  · show UMap.find (vm.districtTrees.map (fun p => (p.1, p.2.reset))) d.id = some tree.reset
    rw [UMap.find_map_values, h1]
    rfl
  · unfold FenwickTree.WF at h2 ⊢
    simp only [FenwickTree.reset, List.length_map]
    exact h2

/-- `processVoteUpdate` on a coordinator whose registry is configured: either it returns
`false` and changes nothing, one of the three conditions failing; or the coordinator is
active, both names resolve, `addVotes` on the resolved ids succeeds and `true` is returned,
with one record appended and the count of the resolved pair raised by `voteCount`. -/
theorem processVoteUpdate_cases (es : ElectionSystem) (k : Nat)
    (hc : es.voteManager.Configured k) (dn cn : String) (v : Int) (unit ts : String) :
    (es.processVoteUpdate dn cn v unit ts = (.ok false, es) ∧
      ¬ (es.isActive = true ∧ (∃ d ∈ es.voteManager.districts, d.name = dn) ∧
          (∃ c ∈ es.voteManager.candidates, c.name = cn))) ∨
    (∃ d c vm2, es.isActive = true ∧
      es.voteManager.districts.find? (fun x => x.name == dn) = some d ∧
      es.voteManager.candidates.find? (fun x => x.name == cn) = some c ∧
      es.voteManager.addVotes d.id c.id v unit ts = (.ok (), vm2) ∧
      es.processVoteUpdate dn cn v unit ts = (.ok true, { es with voteManager := vm2 }) ∧
      vm2.Configured k ∧ vm2.districts = es.voteManager.districts ∧
      vm2.candidates = es.voteManager.candidates ∧
      vm2.voteHistory = es.voteManager.voteHistory ++
        [{ districtId := d.id, candidateId := c.id, voteCount := v, precinctId := unit,
           timestamp := ts }] ∧
      ∃ old, es.voteManager.getCandidateVotes d.id c.id = .ok old ∧
        vm2.getCandidateVotes d.id c.id = .ok (old + v)) := by
  by_cases hact : es.isActive = true
  swap
  · left
    refine ⟨?_, fun h => hact h.1⟩
    have : es.isActive = false := by simpa using hact
    simp [processVoteUpdate, this]
  cases hd : es.voteManager.districts.find? (fun x => x.name == dn) with
  | none =>
    left
    refine ⟨by simp [processVoteUpdate, hact, VoteManager.getDistricts, hd], ?_⟩
    rintro ⟨_, ⟨d, hmem, hname⟩, _⟩
    rw [List.find?_eq_none] at hd
    exact hd d hmem (by simp [hname])
  | some d =>
    cases hcand : es.voteManager.candidates.find? (fun x => x.name == cn) with
    | none =>
      left
      refine ⟨by simp [processVoteUpdate, hact, VoteManager.getDistricts,
        VoteManager.getCandidates, hd, hcand], ?_⟩
      rintro ⟨_, _, ⟨c, hmem, hname⟩⟩
      rw [List.find?_eq_none] at hcand
      exact hcand c hmem (by simp [hname])
    | some c =>
      right
      have hdm := List.mem_of_find?_eq_some hd
      have hcm := List.mem_of_find?_eq_some hcand
      obtain ⟨tree, indices, h1, h2, h3, h4, h5⟩ := hc d hdm
      obtain ⟨s, hs, hs1, hs2⟩ := h5 c hcm
      obtain ⟨tree2, e, wf2, sz, g⟩ :=
        FenwickTree.update_getValue tree h2 s v hs1 (by omega)
      obtain ⟨tree3, e3, _, _, hadd⟩ :=
        VoteManager.addVotes_ok es.voteManager d.id c.id v unit ts tree indices s h1 h2 h4 hs
          hs1 (by omega)
      rw [e] at e3
      injection e3 with _ e3
      subst e3
      refine ⟨d, c, _, hact, rfl, rfl, hadd, ?_, ?_, rfl, rfl, rfl, ?_⟩
      · simp [processVoteUpdate, hact, VoteManager.getDistricts, VoteManager.getCandidates,
          hd, hcand, hadd]
      · intro d2 hd2
        obtain ⟨t2, i2, a1, a2, a3, a4, a5⟩ := hc d2 hd2
        by_cases hid : d2.id = d.id
        · refine ⟨tree2, i2, ?_, wf2, by rw [sz, h3], a4, a5⟩
          show UMap.find (es.voteManager.districtTrees.modify d.id (fun _ => tree2)) d2.id = _
          rw [UMap.find_modify, if_pos hid, h1]
          rfl
        · refine ⟨t2, i2, ?_, a2, a3, a4, a5⟩
          show UMap.find (es.voteManager.districtTrees.modify d.id (fun _ => tree2)) d2.id = _
          rw [UMap.find_modify, if_neg hid, a1]
      · obtain ⟨old, gv, gv2⟩ := g s hs1 (by omega)
        refine ⟨old, ?_, ?_⟩
        · simp only [VoteManager.getCandidateVotes, h1, h4, hs, gv]
        · simp only [VoteManager.getCandidateVotes, UMap.find_modify, h1, h4, hs, if_true,
            Option.map_some', gv2]

/-- Every call that may follow the setup keeps the registry configured and the two catalogs
as they are. -/
theorem step_configured (k : Nat) (es : ElectionSystem) (op : Op)
    (h : es.voteManager.Configured k) :
    (es.step op).voteManager.Configured k ∧
      (es.step op).voteManager.districts = es.voteManager.districts ∧
      (es.step op).voteManager.candidates = es.voteManager.candidates := by
  cases op with
  | setElectionStatus active => exact ⟨h, rfl, rfl⟩
  | processVoteUpdate dn cn v unit ts =>
    rcases processVoteUpdate_cases es k h dn cn v unit ts with
      ⟨e, _⟩ | ⟨d, c, vm2, _, _, _, _, e, hc2, hd2, hcand2, _⟩
    · have hs : es.step (.processVoteUpdate dn cn v unit ts) = es := by
        simp only [step, e]
      rw [hs]
      exact ⟨h, rfl, rfl⟩
    · have hs : es.step (.processVoteUpdate dn cn v unit ts) =
          { es with voteManager := vm2 } := by
        simp only [step, e]
      rw [hs]
      exact ⟨hc2, hd2, hcand2⟩
  | resetElection => exact ⟨configured_resetVotes k _ h, rfl, rfl⟩

/-- A sequence of calls after the setup keeps the registry configured and the catalogs. -/
theorem run_configured (k : Nat) :
    ∀ (ops : List Op) (es : ElectionSystem), es.voteManager.Configured k →
      (es.run ops).voteManager.Configured k ∧
        (es.run ops).voteManager.districts = es.voteManager.districts ∧
        (es.run ops).voteManager.candidates = es.voteManager.candidates := by
  intro ops
  induction ops with
  | nil => intro es h; exact ⟨h, rfl, rfl⟩
  | cons op ops ih =>
    intro es h
    obtain ⟨h1, h2, h3⟩ := step_configured k es op h
    obtain ⟨g1, g2, g3⟩ := ih (es.step op) h1
    exact ⟨g1, by rw [← h2]; exact g2, by rw [← h3]; exact g3⟩

/-- `demoSystem` is what `setupElection` makes of a freshly constructed coordinator. -/
theorem demoSystem_is_setup :
    (construct "Test Election" "2024-01-01").setupElection ["District A", "District B"]
      ["Candidate 1", "Candidate 2"] ["Party A", "Party B"] = (.ok (), demoSystem) := by
  decide

/-- `demoManager` is the registry of `demoSystem` after the start and four updates. -/
theorem demoManager_is_run :
    (demoSystem.run
      [.setElectionStatus true,
       .processVoteUpdate "District A" "Candidate 1" 100 "P001" "Mon Jan  1 10:00:00 2024",
       .processVoteUpdate "District A" "Candidate 2" 75 "P002" "Mon Jan  1 10:01:00 2024",
       .processVoteUpdate "District B" "Candidate 1" 80 "P003" "Mon Jan  1 10:02:00 2024",
       .processVoteUpdate "District B" "Candidate 2" 120 "P004" "Mon Jan  1 10:03:00 2024"]
      ).voteManager = demoManager := by
  rfl

end ElectionSystem

/-! ## Lemmas: failure paths and reset -/

namespace FenwickTree

/-- The loop of `update` ends within `size + 1 - s` steps, whatever the cells are. -/
theorem updateLoop_some (size : Nat) (delta : Int) :
    ∀ (budget : Nat) (tree : List Int) (s : Nat), 0 < s → size + 1 - s ≤ budget →
      ∃ tree2, updateLoop size delta budget tree s = some tree2 := by
  intro budget
  induction budget with
  | zero =>
    intro tree s hs hb
    have hgt : ¬ s ≤ size := by omega
    exact ⟨tree, by unfold updateLoop; simp [hgt]⟩
  | succ b ih =>
    intro tree s hs hb
    by_cases hle : s ≤ size
    · have hp := lsb_pos s hs
      obtain ⟨tree2, h⟩ := ih (tree.set s (tree.getD s 0 + delta)) (s + lsb s)
        (by omega) (by omega)
      exact ⟨tree2, by rw [updateLoop]; simp only [hle, if_true]; exact h⟩
    · exact ⟨tree, by rw [updateLoop]; simp [hle]⟩

/-- `update` either rejects the index, leaving the table as it is, or succeeds: it never
uses up the budget of its loop. -/
theorem update_cases (t : FenwickTree) (i : Nat) (delta : Int) :
    ((i = 0 ∨ i > t.size) ∧
      t.update i delta =
        (.error (.out_of_range "Index out of range for Fenwick Tree update"), t)) ∨
    ((1 ≤ i ∧ i ≤ t.size) ∧
      ∃ tree2, t.update i delta = (.ok (), { t with tree := tree2 })) := by
  by_cases h : i = 0 ∨ i > t.size
  · exact Or.inl ⟨h, by simp only [update, if_pos h]⟩
  · obtain ⟨tree2, h2⟩ := updateLoop_some t.size delta (t.size + 1) t.tree i
      (by omega) (by omega)
    exact Or.inr ⟨by omega, tree2, by simp only [update, if_neg h, h2]⟩

/-- After `reset` the table has its old size and `size + 1` zero cells, when it was well
formed. -/
theorem reset_eq (t : FenwickTree) (hwf : t.WF) :
    t.reset = { tree := List.replicate (t.size + 1) 0, size := t.size } := by
  unfold WF at hwf
  unfold reset
  congr 1
  rw [← hwf]
  exact List.map_const' t.tree 0

/-- After `reset` every prefix sum within the table is zero. -/
theorem query_reset (t : FenwickTree) (i : Nat) (hi : i ≤ t.size) :
    t.reset.query i = .ok 0 := by
  have h : t.reset = { tree := List.replicate t.tree.length 0, size := t.size } := by
    unfold reset
    congr 1
    exact List.map_const' t.tree 0
  rw [h]
  exact query_zero _ _ i hi

/-- After `reset` every point value within the table is zero. -/
theorem getValue_reset (t : FenwickTree) (i : Nat) (h1 : 1 ≤ i) (h2 : i ≤ t.size) :
    t.reset.getValue i = .ok 0 := by
  have e := getValue_of_query t.reset i 0 0 h1 h2 (query_reset t i h2)
    (query_reset t (i - 1) (by omega))
  simpa using e

/-- `rangeQuery(left, right)` within the table is the difference of two prefix sums. -/
theorem rangeQuery_of_query (t : FenwickTree) (l r : Nat) (a b : Int) (h1 : 1 ≤ l)
    (h2 : l ≤ r) (h3 : r ≤ t.size) (qa : query t r = .ok a) (qb : query t (l - 1) = .ok b) :
    rangeQuery t l r = .ok (a - b) := by
  unfold rangeQuery
  have c1 : ¬ l > r := by omega
  have c2 : ¬ (l = 0 ∨ r > t.size) := by omega
  rw [if_neg c1, if_neg c2, qa, qb]
  rfl

/-- `getValue(i)` within the table returns a value. -/
theorem getValue_ok (t : FenwickTree) (i : Nat) (h1 : 1 ≤ i) (h2 : i ≤ t.size) :
    ∃ v, getValue t i = .ok v := by
  obtain ⟨a, qa⟩ := query_ok t i h2
  obtain ⟨b, qb⟩ := query_ok t (i - 1) (by omega)
  exact ⟨a - b, getValue_of_query t i a b h1 h2 qa qb⟩

theorem deltaSum_range_sub (l r : Nat) (h1 : 1 ≤ l) (h2 : l ≤ r) (us : List (Nat × Int)) :
    deltaSum (fun k => decide (k ≤ r)) us - deltaSum (fun k => decide (k ≤ l - 1)) us
      = deltaSum (fun k => decide (l ≤ k ∧ k ≤ r)) us := by
  induction us with
  | nil => rfl
  | cons u us ih =>
    rw [deltaSum_cons, deltaSum_cons, deltaSum_cons, ← ih]
    simp only [decide_eq_true_eq]
    by_cases ha : u.1 ≤ l - 1
    · have hb : u.1 ≤ r := by omega
      have hc : ¬ (l ≤ u.1 ∧ u.1 ≤ r) := by omega
      rw [if_pos ha, if_pos hb, if_neg hc]
      ring
    · by_cases hb : u.1 ≤ r
      · have hc : l ≤ u.1 ∧ u.1 ≤ r := by omega
        rw [if_neg ha, if_pos hb, if_pos hc]
        ring
      · have hc : ¬ (l ≤ u.1 ∧ u.1 ≤ r) := by omega
        rw [if_neg ha, if_neg hb, if_neg hc]
        ring

end FenwickTree

namespace UMap

theorem modify_same {V : Type} (m : UMap V) (k : String) (v : V) (h : find m k = some v) :
    modify m k (fun _ => v) = m := by
  induction m with
  | nil => rfl
  | cons p m ih =>
    obtain ⟨a, w⟩ := p
    by_cases hak : a = k
    · simp only [find, hak, if_true] at h
      injection h with h
      simp [modify, hak, h]
    · simp only [find, hak, if_false] at h
      simp [modify, hak, ih h]

end UMap

namespace VoteManager

/-- `addVotes` either succeeds or throws a `runtime_error` or an `out_of_range`; when it
throws, the registry is as before. -/
theorem addVotes_cases (vm : VoteManager) (d c : String) (delta : Int) (unit ts : String) :
    (∃ vm2, vm.addVotes d c delta unit ts = (.ok (), vm2)) ∨
    (∃ msg, vm.addVotes d c delta unit ts = (.error (.runtime_error msg), vm)) ∨
    (∃ msg, vm.addVotes d c delta unit ts = (.error (.out_of_range msg), vm)) := by
  cases ht : vm.districtTrees.find d with
  | none =>
    exact Or.inr (Or.inl ⟨"District not found: " ++ d, by simp only [addVotes, ht]⟩)
  | some tree =>
    cases hi : vm.candidateIndices.find d with
    | none =>
      exact Or.inr (Or.inl ⟨"No candidates assigned to district: " ++ d,
        by simp only [addVotes, ht, hi]⟩)
    | some indices =>
      cases hs : indices.find c with
      | none =>
        exact Or.inr (Or.inl ⟨"Candidate not found in district: " ++ c ++ " in " ++ d,
          by simp only [addVotes, ht, hi, hs]⟩)
      | some s =>
        rcases FenwickTree.update_cases tree s delta with ⟨_, e⟩ | ⟨_, tree2, e⟩
        · refine Or.inr (Or.inr ⟨"Index out of range for Fenwick Tree update", ?_⟩)
          simp only [addVotes, ht, hi, hs, e, UMap.modify_same _ _ _ ht]
        · have h : vm.addVotes d c delta unit ts =
              (.ok (), (vm.addVotes d c delta unit ts).2) := by
            simp only [addVotes, ht, hi, hs, e]
          exact Or.inl ⟨_, h⟩

end VoteManager

namespace ElectionSystem

/-- `processVoteUpdate` always returns a boolean: `true` with the registry that a successful
`addVotes` on the resolved ids left, or `false` with the coordinator as it was. -/
theorem processVoteUpdate_total (es : ElectionSystem) (dn cn : String) (v : Int)
    (unit ts : String) :
    (∃ d c vm2, es.isActive = true ∧
      es.voteManager.districts.find? (fun x => x.name == dn) = some d ∧
      es.voteManager.candidates.find? (fun x => x.name == cn) = some c ∧
      es.voteManager.addVotes d.id c.id v unit ts = (.ok (), vm2) ∧
      es.processVoteUpdate dn cn v unit ts = (.ok true, { es with voteManager := vm2 })) ∨
    es.processVoteUpdate dn cn v unit ts = (.ok false, es) := by
  by_cases hact : es.isActive = true
  swap
  · right
    have : es.isActive = false := by simpa using hact
    simp [processVoteUpdate, this]
  cases hd : es.voteManager.districts.find? (fun x => x.name == dn) with
  | none =>
    right
    simp [processVoteUpdate, hact, VoteManager.getDistricts, hd]
  | some d =>
    cases hcand : es.voteManager.candidates.find? (fun x => x.name == cn) with
    | none =>
      right
      simp [processVoteUpdate, hact, VoteManager.getDistricts, VoteManager.getCandidates,
        hd, hcand]
    | some c =>
      rcases VoteManager.addVotes_cases es.voteManager d.id c.id v unit ts with
        ⟨vm2, e⟩ | ⟨msg, e⟩ | ⟨msg, e⟩
      · left
        refine ⟨d, c, vm2, hact, rfl, rfl, e, ?_⟩
        simp [processVoteUpdate, hact, VoteManager.getDistricts, VoteManager.getCandidates,
          hd, hcand, e]
      · right
        have h : es.processVoteUpdate dn cn v unit ts =
            (.ok false, { es with voteManager := es.voteManager }) := by
          simp [processVoteUpdate, hact, VoteManager.getDistricts, VoteManager.getCandidates,
            hd, hcand, e]
        exact h
      · right
        have h : es.processVoteUpdate dn cn v unit ts =
            (.ok false, { es with voteManager := es.voteManager }) := by
          simp [processVoteUpdate, hact, VoteManager.getDistricts, VoteManager.getCandidates,
            hd, hcand, e]
        exact h

end ElectionSystem

namespace ElectionSystem

/-- After two setups the only candidate holds slot 2 of a table of size 1: `addVotes` throws
`out_of_range` and `processVoteUpdate` answers `false`, the coordinator being as before. -/
theorem twiceSetupSystem_rejects :
    twiceSetupSystem.voteManager.addVotes "D1" "C1" 5 "P001" "Mon Jan  1 10:00:00 2024" =
        (.error (.out_of_range "Index out of range for Fenwick Tree update"),
          twiceSetupSystem.voteManager) ∧
      twiceSetupSystem.processVoteUpdate "North" "Ann" 5 "P001" "Mon Jan  1 10:00:00 2024" =
        (.ok false, twiceSetupSystem) := by
  decide

end ElectionSystem

namespace VoteManager

/-- Every call in the definition of `overfullManager` succeeds, and this is the registry they
leave: the second candidate holds slot 2 of a table of size 1. -/
theorem overfullManager_built :
    (empty.addDistrict { name := "North", id := "D1", candidateCount := 1 }).1 = .ok () ∧
      ((((empty.addDistrict { name := "North", id := "D1", candidateCount := 1 }).2.addCandidate
        { name := "Ann", party := "Red", id := "C1" }).addCandidate
        { name := "Bob", party := "Blue", id := "C2" }).assignCandidateToDistrict "D1" "C1"
        ).1 = .ok () ∧
      (((((empty.addDistrict { name := "North", id := "D1", candidateCount := 1 }).2.addCandidate
        { name := "Ann", party := "Red", id := "C1" }).addCandidate
        { name := "Bob", party := "Blue", id := "C2" }).assignCandidateToDistrict "D1" "C1"
        ).2.assignCandidateToDistrict "D1" "C2").1 = .ok () ∧
      ((((((empty.addDistrict { name := "North", id := "D1", candidateCount := 1 }).2.addCandidate
        { name := "Ann", party := "Red", id := "C1" }).addCandidate
        { name := "Bob", party := "Blue", id := "C2" }).assignCandidateToDistrict "D1" "C1"
        ).2.assignCandidateToDistrict "D1" "C2").2.addVotes "D1" "C1" 7 "P001"
        "Mon Jan  1 10:00:00 2024").1 = .ok () ∧
      overfullManager =
        { districtTrees := [("D1", { tree := [0, 7], size := 1 })]
          candidateIndices := [("D1", [("C1", 1), ("C2", 2)])]
          districts := [{ name := "North", id := "D1", candidateCount := 1 }]
          candidates := [{ name := "Ann", party := "Red", id := "C1" },
                         { name := "Bob", party := "Blue", id := "C2" }]
          voteHistory := [{ districtId := "D1", candidateId := "C1", voteCount := 7,
                            precinctId := "P001", timestamp := "Mon Jan  1 10:00:00 2024" }] } := by
  decide

/-- After `resetVotes` the count of a pair whose slot, if any, lies within the table is 0. -/
theorem getCandidateVotes_resetVotes (vm : VoteManager) (d c : String)
    (h : vm.SlotInRange d c) : vm.resetVotes.getCandidateVotes d c = .ok 0 := by
  have hfind : vm.resetVotes.districtTrees.find d =
      (vm.districtTrees.find d).map FenwickTree.reset :=
    UMap.find_map_values vm.districtTrees d FenwickTree.reset
  have hidx : vm.resetVotes.candidateIndices = vm.candidateIndices := rfl
  unfold getCandidateVotes
  rw [hfind, hidx]
  cases ht : vm.districtTrees.find d with
  | none => rfl
  | some tree =>
    cases hi : vm.candidateIndices.find d with
    | none => rfl
    | some indices =>
      cases hs : indices.find c with
      | none => simp only [Option.map_some', hs]
      | some s =>
        unfold SlotInRange at h
        simp only [ht, hi, hs] at h
        obtain ⟨h1, h2⟩ := h
        simp only [Option.map_some', hs]
        exact FenwickTree.getValue_reset tree s h1 h2

/-- After `resetVotes` the total of every district is 0. -/
theorem getDistrictTotalVotes_resetVotes (vm : VoteManager) (d : String) :
    vm.resetVotes.getDistrictTotalVotes d = .ok 0 := by
  have hfind : vm.resetVotes.districtTrees.find d =
      (vm.districtTrees.find d).map FenwickTree.reset :=
    UMap.find_map_values vm.districtTrees d FenwickTree.reset
  unfold getDistrictTotalVotes
  rw [hfind]
  cases ht : vm.districtTrees.find d with
  | none => rfl
  | some tree =>
    simp only [Option.map_some', FenwickTree.getSize]
    exact FenwickTree.query_reset tree tree.size (le_refl _)

/-- The loop of `getCandidateTotalVotes` over districts whose counts are all 0. -/
theorem totalLoop_zero (vm : VoteManager) (c : String) :
    ∀ (ds : List District) (total : Int),
      (∀ d ∈ ds, vm.getCandidateVotes d.id c = .ok 0) →
      totalLoop vm c ds total = .ok total := by
  intro ds
  induction ds with
  | nil => intro total _; rfl
  | cons d ds ih =>
    intro total h
    simp only [totalLoop, h d (List.mem_cons_self _ _), add_zero]
    exact ih total (fun x hx => h x (List.mem_cons_of_mem _ hx))

end VoteManager

/-! ## Lemmas: sizes, slots in order and the exact setup -/

namespace FenwickTree

/-- The loop of `update` keeps the number of cells. -/
theorem updateLoop_length (size : Nat) (delta : Int) :
    ∀ (budget : Nat) (tree : List Int) (s : Nat) (tree2 : List Int),
      updateLoop size delta budget tree s = some tree2 → tree2.length = tree.length := by
  intro budget
  induction budget with
  | zero =>
    intro tree s tree2 h
    unfold updateLoop at h
    by_cases hle : s ≤ size
    · simp [hle] at h
    · simp only [hle, if_false] at h
      injection h with h
      rw [h]
  | succ b ih =>
    intro tree s tree2 h
    rw [updateLoop] at h
    by_cases hle : s ≤ size
    · simp only [hle, if_true] at h
      have := ih _ _ _ h
      simpa using this
    · simp only [hle, if_false] at h
      injection h with h
      rw [h]

/-- `update` keeps the size and the number of cells, whether it fails or not. -/
theorem update_shape (t : FenwickTree) (i : Nat) (delta : Int) :
    (t.update i delta).2.size = t.size ∧
      (t.update i delta).2.tree.length = t.tree.length := by
  unfold update
  by_cases h : i = 0 ∨ i > t.size
  · simp only [if_pos h, and_self]
  · simp only [if_neg h]
    cases hl : updateLoop t.size delta (t.size + 1) t.tree i with
    | none => exact ⟨rfl, rfl⟩
    | some tree2 => exact ⟨rfl, updateLoop_length _ _ _ _ _ _ hl⟩

end FenwickTree

namespace UMap

theorem assign_absent {V : Type} (m : UMap V) (k : String) (v : V) (h : find m k = none) :
    assign m k v = m ++ [(k, v)] := by
  induction m with
  | nil => rfl
  | cons p m ih =>
    obtain ⟨a, w⟩ := p
    by_cases hak : a = k
    · simp [find, hak] at h
    · simp only [find, hak, if_false] at h
      simp [assign, hak, ih h]

theorem find_append {V : Type} (m1 m2 : UMap V) (k : String) :
    find (m1 ++ m2) k = (find m1 k).orElse (fun _ => find m2 k) := by
  induction m1 with
  | nil => rfl
  | cons p m ih =>
    obtain ⟨a, w⟩ := p
    by_cases hak : a = k
    · simp [find, hak]
    · simp only [List.cons_append, find, hak, if_false]
      exact ih

end UMap

namespace VoteManager

/-- Candidates outside the list hold no slot in `slotList`. -/
theorem slotList_find_none :
    ∀ (cs : List Candidate) (n : Nat) (k : String), (∀ c ∈ cs, c.id ≠ k) →
      UMap.find (slotList n cs) k = none := by
  intro cs
  induction cs with
  | nil => intro n k _; rfl
  | cons c rest ih =>
    intro n k h
    have hc := h c (List.mem_cons_self _ _)
    simp only [slotList, UMap.find, hc, if_false]
    exact ih (n + 1) k (fun x hx => h x (List.mem_cons_of_mem _ hx))

/-- With pairwise distinct ids, candidate number `j` (from 0) of the list holds slot
`n + j + 1` in `slotList n`. -/
theorem slotList_find :
    ∀ (cs : List Candidate) (n : Nat), (cs.map (fun c => c.id)).Nodup →
      ∀ (j : Nat) (y : Candidate), cs[j]? = some y →
        UMap.find (slotList n cs) y.id = some (n + j + 1) := by
  intro cs
  induction cs with
  | nil => intro n _ j y h; simp at h
  | cons c rest ih =>
    intro n hnd j y h
    rw [List.map_cons, List.nodup_cons] at hnd
    cases j with
    | zero =>
      simp only [List.getElem?_cons_zero, Option.some.injEq] at h
      rw [← h]
      simp [slotList, UMap.find]
    | succ j =>
      simp only [List.getElem?_cons_succ] at h
      have hy : y ∈ rest := List.getElem?_mem h
      have hne : ¬ c.id = y.id := by
        intro heq
        exact hnd.1 (List.mem_map.mpr ⟨y, hy, heq.symm⟩)
      simp only [slotList, UMap.find, hne, if_false]
      rw [ih (n + 1) hnd.2 j y h]
      congr 1
      omega

theorem slotList_length : ∀ (cs : List Candidate) (n : Nat), (slotList n cs).length = cs.length := by
  intro cs
  induction cs with
  | nil => intro n; rfl
  | cons c rest ih => intro n; simp [slotList, ih]

end VoteManager

namespace ElectionSystem

open VoteManager in
/-- Attaching candidates with pairwise distinct ids, none of which holds a slot yet, to a
catalog district whose index map is `inner0`: every call succeeds, only the index map of that
district changes, and it becomes `inner0` followed by the slots `inner0.size + 1, ...` in the
order of attachment. -/
theorem assignCandidates_exact (d : String) :
    ∀ (cs : List Candidate) (vm : VoteManager) (inner0 : UMap Nat),
      (∃ x ∈ vm.districts, x.id = d) → (∀ c ∈ cs, c ∈ vm.candidates) →
      vm.candidateIndices.find d = some inner0 →
      (∀ c ∈ cs, inner0.find c.id = none) → (cs.map (fun c => c.id)).Nodup →
      ∃ vm2, assignCandidates d vm cs = (.ok (), vm2) ∧
        vm2.districts = vm.districts ∧ vm2.candidates = vm.candidates ∧
        vm2.districtTrees = vm.districtTrees ∧ vm2.voteHistory = vm.voteHistory ∧
        (∀ d2, d2 ≠ d → vm2.candidateIndices.find d2 = vm.candidateIndices.find d2) ∧
        vm2.candidateIndices.find d = some (inner0 ++ slotList inner0.size cs) := by
  intro cs
  induction cs with
  | nil =>
    intro vm inner0 _ _ hfind _ _
    exact ⟨vm, rfl, rfl, rfl, rfl, rfl, fun _ _ => rfl, by simpa [slotList] using hfind⟩
  | cons c rest ih =>
    intro vm inner0 hd hcs hfind hnew hnd
    rw [List.map_cons, List.nodup_cons] at hnd
    have hstep := assignCandidateToDistrict_ok vm d c hd (hcs c (List.mem_cons_self _ _))
    rw [hfind, Option.getD_some,
      UMap.assign_absent inner0 c.id _ (hnew c (List.mem_cons_self _ _))] at hstep
    obtain ⟨vm1, hvm1⟩ : ∃ vm1, vm1 = (vm.assignCandidateToDistrict d c.id).2 := ⟨_, rfl⟩
    have hres : vm.assignCandidateToDistrict d c.id = (.ok (), vm1) := by rw [hvm1, hstep]
    rw [hstep] at hvm1
    obtain ⟨vm2, h1, h2, h3, h4, h5, h6, h7⟩ :=
      ih vm1 (inner0 ++ [(c.id, inner0.size + 1)])
        (by rw [hvm1]; exact hd)
        (by rw [hvm1]; exact fun x hx => hcs x (List.mem_cons_of_mem _ hx))
        (by rw [hvm1]; simp [UMap.find_assign])
        (by
          intro x hx
          have hne : ¬ c.id = x.id := by
            intro heq
            exact hnd.1 (List.mem_map.mpr ⟨x, hx, heq.symm⟩)
          rw [UMap.find_append, hnew x (List.mem_cons_of_mem _ hx)]
          simp [UMap.find, hne])
        hnd.2
    refine ⟨vm2, ?_, by rw [h2, hvm1], by rw [h3, hvm1], by rw [h4, hvm1], by rw [h5, hvm1],
      ?_, ?_⟩
    · simp only [assignCandidates, hres]
      exact h1
    · intro d2 hd2
      rw [h6 d2 hd2, hvm1]
      simp [UMap.find_assign, hd2]
    · rw [h7]
      simp [slotList, UMap.size]

open VoteManager in
/-- Attaching candidates with pairwise distinct ids to a catalog district without any
assignment (its index map is empty or not there yet): they get the slots `1, 2, ...` in the
order of attachment. -/
theorem assignCandidates_from_empty (d : String) (c : Candidate) (rest : List Candidate)
    (vm : VoteManager) (hd : ∃ x ∈ vm.districts, x.id = d)
    (hcs : ∀ y ∈ c :: rest, y ∈ vm.candidates)
    (hempty : (vm.candidateIndices.find d).getD [] = [])
    (hnd : ((c :: rest).map (fun y => y.id)).Nodup) :
    ∃ vm2, assignCandidates d vm (c :: rest) = (.ok (), vm2) ∧
      vm2.districts = vm.districts ∧ vm2.candidates = vm.candidates ∧
      vm2.districtTrees = vm.districtTrees ∧ vm2.voteHistory = vm.voteHistory ∧
      (∀ d2, d2 ≠ d → vm2.candidateIndices.find d2 = vm.candidateIndices.find d2) ∧
      vm2.candidateIndices.find d = some (slotList 0 (c :: rest)) := by
  have hstep := assignCandidateToDistrict_ok vm d c hd (hcs c (List.mem_cons_self _ _))
  rw [hempty] at hstep
  obtain ⟨vm1, hvm1⟩ : ∃ vm1, vm1 = (vm.assignCandidateToDistrict d c.id).2 := ⟨_, rfl⟩
  have hres : vm.assignCandidateToDistrict d c.id = (.ok (), vm1) := by rw [hvm1, hstep]
  rw [hstep] at hvm1
  rw [List.map_cons, List.nodup_cons] at hnd
  obtain ⟨vm2, h1, h2, h3, h4, h5, h6, h7⟩ :=
    assignCandidates_exact d rest vm1 [(c.id, 1)]
      (by rw [hvm1]; exact hd)
      (by rw [hvm1]; exact fun x hx => hcs x (List.mem_cons_of_mem _ hx))
      (by rw [hvm1]; simp [UMap.find_assign, UMap.assign, UMap.size])
      (by
        intro x hx
        have hne : ¬ c.id = x.id := by
          intro heq
          exact hnd.1 (List.mem_map.mpr ⟨x, hx, heq.symm⟩)
        simp [UMap.find, hne])
      hnd.2
  refine ⟨vm2, ?_, by rw [h2, hvm1], by rw [h3, hvm1], by rw [h4, hvm1], by rw [h5, hvm1],
    ?_, ?_⟩
  · simp only [assignCandidates, hres]
    exact h1
  · intro d2 hd2
    rw [h6 d2 hd2, hvm1]
    simp [UMap.find_assign, hd2]
  · rw [h7]
    simp [slotList, UMap.size]

end ElectionSystem

namespace ElectionSystem

/-- Every id of `candidateCatalog` is `"C"` followed by a number above the start. -/
theorem candidateCatalog_ids :
    ∀ (names parties : List String) (i : Nat), ∀ c ∈ candidateCatalog names parties i,
      ∃ j, i ≤ j ∧ c.id = "C" ++ toString (j + 1) := by
  intro names
  induction names with
  | nil => intro parties i c hc; simp [candidateCatalog] at hc
  | cons name rest ih =>
    intro parties i c hc
    cases parties with
    | nil => simp [candidateCatalog] at hc
    | cons party parties =>
      simp only [candidateCatalog, List.mem_cons] at hc
      rcases hc with hc | hc
      · exact ⟨i, le_refl _, by rw [hc]⟩
      · obtain ⟨j, hj, hid⟩ := ih parties (i + 1) c hc
        exact ⟨j, by omega, hid⟩

/-- The ids of `candidateCatalog` are pairwise distinct. -/
theorem candidateCatalog_nodup :
    ∀ (names parties : List String) (i : Nat),
      ((candidateCatalog names parties i).map (fun c => c.id)).Nodup := by
  intro names
  induction names with
  | nil => intro parties i; simp [candidateCatalog]
  | cons name rest ih =>
    intro parties i
    cases parties with
    | nil => simp [candidateCatalog]
    | cons party parties =>
      simp only [candidateCatalog, List.map_cons, List.nodup_cons]
      refine ⟨?_, ih parties (i + 1)⟩
      intro hmem
      rw [List.mem_map] at hmem
      obtain ⟨c, hc, hid⟩ := hmem
      obtain ⟨j, hj, hcj⟩ := candidateCatalog_ids rest parties (i + 1) c hc
      rw [hcj] at hid
      have := id_injective "C" (j + 1) (i + 1) hid
      omega

/-- Entry number `i` (from 0) of `districtCatalog` carries name number `i`, the id
`"D"` with the number `start + i + 1`, and the capacity. -/
theorem districtCatalog_getElem (k : Nat) :
    ∀ (names : List String) (i0 i : Nat) (n : String), names[i]? = some n →
      (districtCatalog k names i0)[i]? =
        some { name := n, id := "D" ++ toString (i0 + i + 1), candidateCount := k } := by
  intro names
  induction names with
  | nil => intro i0 i n h; simp at h
  | cons name rest ih =>
    intro i0 i n h
    cases i with
    | zero =>
      simp only [List.getElem?_cons_zero, Option.some.injEq] at h
      simp [districtCatalog, h]
    | succ i =>
      simp only [List.getElem?_cons_succ] at h
      simp only [districtCatalog, List.getElem?_cons_succ]
      rw [ih (i0 + 1) i n h]
      have : i0 + 1 + i + 1 = i0 + (i + 1) + 1 := by omega
      rw [this]

theorem districtCatalog_length (k : Nat) :
    ∀ (names : List String) (i0 : Nat), (districtCatalog k names i0).length = names.length := by
  intro names
  induction names with
  | nil => intro i0; rfl
  | cons name rest ih => intro i0; simp [districtCatalog, ih]

/-- Entry number `j` (from 0) of `candidateCatalog` carries name and party number `j` and the
id `"C"` with the number `start + j + 1`. -/
theorem candidateCatalog_getElem :
    ∀ (names parties : List String) (i0 j : Nat) (n q : String),
      names[j]? = some n → parties[j]? = some q →
      (candidateCatalog names parties i0)[j]? =
        some { name := n, party := q, id := "C" ++ toString (i0 + j + 1) } := by
  intro names
  induction names with
  | nil => intro parties i0 j n q h; simp at h
  | cons name rest ih =>
    intro parties i0 j n q h1 h2
    cases parties with
    | nil => simp at h2
    | cons party parties =>
      cases j with
      | zero =>
        simp only [List.getElem?_cons_zero, Option.some.injEq] at h1 h2
        simp [candidateCatalog, h1, h2]
      | succ j =>
        simp only [List.getElem?_cons_succ] at h1 h2
        simp only [candidateCatalog, List.getElem?_cons_succ]
        rw [ih parties (i0 + 1) j n q h1 h2]
        have : i0 + 1 + j + 1 = i0 + (j + 1) + 1 := by omega
        rw [this]

open VoteManager in
/-- The third loop of `setupElection` over districts with pairwise distinct ids and empty
index maps, the candidates having pairwise distinct ids: in each of these districts the
candidates hold the slots `1, 2, ...` in catalog order. -/
theorem assignDistricts_exact :
    ∀ (ds : List District) (vm : VoteManager),
      (ds.map (fun d => d.id)).Nodup → (∀ d ∈ ds, d ∈ vm.districts) →
      (∀ d ∈ ds, vm.candidateIndices.find d.id = some []) →
      (vm.candidates.map (fun c => c.id)).Nodup →
      ∃ vm2, assignDistricts vm ds = (.ok (), vm2) ∧
        vm2.districts = vm.districts ∧ vm2.candidates = vm.candidates ∧
        vm2.districtTrees = vm.districtTrees ∧ vm2.voteHistory = vm.voteHistory ∧
        (∀ id, id ∉ ds.map (fun d => d.id) →
          vm2.candidateIndices.find id = vm.candidateIndices.find id) ∧
        ∀ d ∈ ds, vm2.candidateIndices.find d.id = some (slotList 0 vm.candidates) := by
  intro ds
  induction ds with
  | nil =>
    intro vm _ _ _ _
    exact ⟨vm, rfl, rfl, rfl, rfl, rfl, fun _ _ => rfl, by simp⟩
  | cons d rest ih =>
    intro vm hnd hmem hempty hcn
    rw [List.map_cons, List.nodup_cons] at hnd
    obtain ⟨vm1, e1, a1, a2, a3, a4, a5, a6⟩ :=
      assignCandidates_exact d.id vm.candidates vm []
        ⟨d, hmem d (List.mem_cons_self _ _), rfl⟩ (fun _ h => h)
        (hempty d (List.mem_cons_self _ _)) (by intro c _; rfl) hcn
    have hne : ∀ x ∈ rest, x.id ≠ d.id := by
      intro x hx heq
      exact hnd.1 (List.mem_map.mpr ⟨x, hx, heq⟩)
    obtain ⟨vm2, e2, b1, b2, b3, b4, b5, b6⟩ := ih vm1 hnd.2
      (by rw [a1]; exact fun x hx => hmem x (List.mem_cons_of_mem _ hx))
      (by
        intro x hx
        rw [a5 x.id (hne x hx)]
        exact hempty x (List.mem_cons_of_mem _ hx))
      (by rw [a2]; exact hcn)
    refine ⟨vm2, ?_, by rw [b1, a1], by rw [b2, a2], by rw [b3, a3], by rw [b4, a4], ?_, ?_⟩
    · simp only [assignDistricts, VoteManager.getCandidates, e1]
      exact e2
    · intro id hid
      rw [List.map_cons, List.mem_cons, not_or] at hid
      rw [b5 id hid.2, a5 id hid.1]
    · intro x hx
      rcases List.mem_cons.mp hx with h | h
      · rw [h, b5 d.id hnd.1, a6]
        simp [UMap.size]
      · rw [b6 x h, a2]

/-- `setupElection` on a freshly constructed coordinator, in full: the two catalogs, a fresh
table of the right size for every district, and in every district the slots `1, 2, ...` for
the candidates in catalog order. -/
theorem setupElection_exact (name date : String)
    (districtNames candidateNames partyNames : List String)
    (hlen : candidateNames.length = partyNames.length) (hk : 1 ≤ candidateNames.length) :
    ∃ vm, (construct name date).setupElection districtNames candidateNames partyNames =
        (.ok (), { voteManager := vm, electionName := name, electionDate := date,
                   isActive := false }) ∧
      vm.districts = districtCatalog candidateNames.length districtNames 0 ∧
      vm.candidates = candidateCatalog candidateNames partyNames 0 ∧
      vm.voteHistory = [] ∧
      ∀ d ∈ vm.districts,
        vm.districtTrees.find d.id =
          some { tree := List.replicate (candidateNames.length + 1) 0,
                 size := candidateNames.length } ∧
        vm.candidateIndices.find d.id = some (VoteManager.slotList 0 vm.candidates) := by
  obtain ⟨vm1, e1, d1, c1, v1, f1⟩ := setupDistricts_spec candidateNames.length hk
    districtNames VoteManager.empty 0 (by intro d hd; simp [VoteManager.empty] at hd)
  obtain ⟨c2, d2, t2, i2, v2⟩ := setupCandidates_spec candidateNames partyNames vm1 0
  have hd1 : vm1.districts = districtCatalog candidateNames.length districtNames 0 := by
    rw [d1]; simp [VoteManager.empty]
  have hc2 : (setupCandidates vm1 candidateNames partyNames 0).candidates =
      candidateCatalog candidateNames partyNames 0 := by
    rw [c2, c1]; simp [VoteManager.empty]
  obtain ⟨vm3, e3, d3, c3, t3, v3, _, g3⟩ := assignDistricts_exact
    (setupCandidates vm1 candidateNames partyNames 0).districts
    (setupCandidates vm1 candidateNames partyNames 0)
    (by rw [d2, hd1]; exact districtCatalog_nodup _ _ _)
    (fun _ h => h)
    (by
      intro d hd
      rw [d2] at hd
      rw [i2]
      exact (f1 d hd).2)
    (by rw [hc2]; exact candidateCatalog_nodup _ _ _)
  refine ⟨vm3, ?_, by rw [d3, d2, hd1], by rw [c3, hc2], by rw [v3, v2, v1]; rfl, ?_⟩
  · have hne : ¬ candidateNames.length ≠ partyNames.length := fun h => h hlen
    simp only [setupElection, construct, if_neg hne, e1, VoteManager.getDistricts, e3]
  · intro d hd
    rw [d3] at hd
    refine ⟨?_, ?_⟩
    · rw [t3, t2]
      rw [d2] at hd
      exact (f1 d hd).1
    · rw [g3 d hd, c3]

end ElectionSystem

/-! ## Lemmas: the cells that the loops touch -/

namespace FenwickTree

/-- The loop of `update` writes exactly the cells of its trace, in order. -/
theorem updateLoop_eq_trace (size : Nat) (delta : Int) :
    ∀ (budget : Nat) (tree : List Int) (i : Nat),
      updateLoop size delta budget tree i =
        (updateTrace size budget i).map (applyWrites delta tree) := by
  intro budget
  induction budget with
  | zero =>
    intro tree i
    unfold updateLoop updateTrace
    by_cases hle : i ≤ size
    · simp [hle]
    · simp [hle, applyWrites]
  | succ b ih =>
    intro tree i
    rw [updateLoop, updateTrace]
    by_cases hle : i ≤ size
    · simp only [hle, if_true]
      rw [ih, Option.map_map]
      rfl
    · simp [hle, applyWrites]

/-- The loop of `query` adds up exactly the cells of its trace, in order. -/
theorem queryLoop_eq_trace (tree : List Int) :
    ∀ (budget i : Nat) (sum : Int),
      queryLoop tree budget i sum = (queryTrace budget i).map (sumReads tree sum) := by
  intro budget
  induction budget with
  | zero =>
    intro i sum
    unfold queryLoop queryTrace
    by_cases hpos : i > 0
    · simp [hpos]
    · simp [hpos, sumReads]
  | succ b ih =>
    intro i sum
    rw [queryLoop, queryTrace]
    by_cases hpos : i > 0
    · simp only [hpos, if_true]
      rw [ih, Option.map_map]
      rfl
    · simp [hpos, sumReads]

/-- One step up at least doubles the lowest set bit. -/
theorem lsb_double_up : ∀ i : Nat, 0 < i → 2 * lsb i ≤ lsb (i + lsb i) := by
  intro i
  induction i using Nat.strong_induction_on with
  | _ i ih =>
    intro hi
    rcases Nat.even_or_odd' i with ⟨q, rfl | rfl⟩
    · have hq : 0 < q := by omega
      have h := ih q (by omega) hq
      have e : 2 * q + lsb (2 * q) = 2 * (q + lsb q) := by rw [lsb_even]; ring
      rw [e, lsb_even, lsb_even]
      omega
    · have e : 2 * q + 1 + lsb (2 * q + 1) = 2 * (q + 1) := by rw [lsb_odd]; ring
      rw [e, lsb_even, lsb_odd]
      have := lsb_pos (q + 1) (by omega)
      omega

/-- One step down that does not reach 0 at least doubles the lowest set bit. -/
theorem lsb_double_down : ∀ i : Nat, 0 < i - lsb i → 2 * lsb i ≤ lsb (i - lsb i) := by
  intro i
  induction i using Nat.strong_induction_on with
  | _ i ih =>
    intro hi
    rcases Nat.even_or_odd' i with ⟨q, rfl | rfl⟩
    · have e : 2 * q - lsb (2 * q) = 2 * (q - lsb q) := by rw [lsb_even]; omega
      rw [e] at hi ⊢
      have hq : 0 < q - lsb q := by omega
      have h := ih q (by omega) hq
      rw [lsb_even, lsb_even]
      omega
    · have e : 2 * q + 1 - lsb (2 * q + 1) = 2 * q := by rw [lsb_odd]; omega
      rw [e] at hi ⊢
      rw [lsb_even, lsb_odd]
      have := lsb_pos q (by omega)
      omega

/-- The trace of `update` from `i` within the table: it exists, is not empty, and the lowest
set bit of `i`, doubled once for every further write, stays within the size. -/
theorem updateTrace_bound (size : Nat) :
    ∀ (budget i : Nat), 0 < i → i ≤ size → size + 1 - i ≤ budget →
      ∃ ws, updateTrace size budget i = some ws ∧ 1 ≤ ws.length ∧
        lsb i * 2 ^ (ws.length - 1) ≤ size := by
  intro budget
  induction budget with
  | zero => intro i _ h2 hb; omega
  | succ b ih =>
    intro i h1 h2 hb
    have hp := lsb_pos i h1
    have hl := lsb_le i
    by_cases hnext : i + lsb i ≤ size
    · obtain ⟨ws, e, hlen, hbound⟩ := ih (i + lsb i) (by omega) hnext (by omega)
      refine ⟨i :: ws, by rw [updateTrace]; simp [h2, e], by simp, ?_⟩
      have hd := lsb_double_up i h1
      have hpow : 2 ^ ((i :: ws).length - 1) = 2 * 2 ^ (ws.length - 1) := by
        have : (i :: ws).length - 1 = (ws.length - 1) + 1 := by simp; omega
        rw [this, pow_succ]
        ring
      rw [hpow]
      calc lsb i * (2 * 2 ^ (ws.length - 1)) = (2 * lsb i) * 2 ^ (ws.length - 1) := by ring
        _ ≤ lsb (i + lsb i) * 2 ^ (ws.length - 1) := Nat.mul_le_mul_right _ hd
        _ ≤ size := hbound
    · have e : updateTrace size b (i + lsb i) = some [] := by
        cases b with
        | zero => unfold updateTrace; simp [hnext]
        | succ b => rw [updateTrace]; simp [hnext]
      refine ⟨[i], by rw [updateTrace]; simp [h2, e], by simp, ?_⟩
      simp
      omega

/-- The trace of `query` from `i`: it exists, is not empty, and the lowest set bit of `i`,
doubled once for every further read, stays within `i`. -/
theorem queryTrace_bound :
    ∀ (budget i : Nat), 0 < i → i ≤ budget →
      ∃ rs, queryTrace budget i = some rs ∧ 1 ≤ rs.length ∧
        lsb i * 2 ^ (rs.length - 1) ≤ i := by
  intro budget
  induction budget with
  | zero => intro i h1 hb; omega
  | succ b ih =>
    intro i h1 hb
    have hp := lsb_pos i h1
    have hl := lsb_le i
    by_cases hnext : 0 < i - lsb i
    · obtain ⟨rs, e, hlen, hbound⟩ := ih (i - lsb i) hnext (by omega)
      refine ⟨i :: rs, by rw [queryTrace]; simp [h1, e], by simp, ?_⟩
      have hd := lsb_double_down i hnext
      have hpow : 2 ^ ((i :: rs).length - 1) = 2 * 2 ^ (rs.length - 1) := by
        have : (i :: rs).length - 1 = (rs.length - 1) + 1 := by simp; omega
        rw [this, pow_succ]
        ring
      rw [hpow]
      calc lsb i * (2 * 2 ^ (rs.length - 1)) = (2 * lsb i) * 2 ^ (rs.length - 1) := by ring
        _ ≤ lsb (i - lsb i) * 2 ^ (rs.length - 1) := Nat.mul_le_mul_right _ hd
        _ ≤ i - lsb i := hbound
        _ ≤ i := Nat.sub_le _ _
    · have hz : i - lsb i = 0 := by omega
      have e : queryTrace b (i - lsb i) = some [] := by
        rw [hz]
        cases b with
        | zero => unfold queryTrace; simp
        | succ b => rw [queryTrace]; simp
      refine ⟨[i], by rw [queryTrace]; simp [h1, e], by simp, ?_⟩
      simp
      omega

/-- A count `c ≥ 1` with `p * 2 ^ (c - 1) ≤ n` for some `p ≥ 1` is at most
`floor(log2 n) + 1`. -/
theorem count_le_log (p c n : Nat) (hp : 0 < p) (h : p * 2 ^ (c - 1) ≤ n) :
    c ≤ Nat.log 2 n + 1 := by
  have h1 : 2 ^ (c - 1) ≤ n := by
    calc 2 ^ (c - 1) = 1 * 2 ^ (c - 1) := by ring
      _ ≤ p * 2 ^ (c - 1) := Nat.mul_le_mul_right _ hp
      _ ≤ n := h
  have := Nat.le_log_of_pow_le (by omega : 1 < 2) h1
  omega

end FenwickTree

/-! ## Lemmas: the ranked list -/

namespace VoteManager

theorem sortTurning_contract : StdSortContract sortTurning := by
  intro l
  haveI : IsTotal (String × Int) (fun a b => a.2 ≥ b.2) := ⟨fun a b => le_total b.2 a.2⟩
  haveI : IsTrans (String × Int) (fun a b => a.2 ≥ b.2) :=
    ⟨fun a b c h1 h2 => le_trans h2 h1⟩
  refine ⟨(List.perm_insertionSort _ l.reverse).trans (List.reverse_perm l), ?_⟩
  have hs := List.sorted_insertionSort (fun a b : String × Int => a.2 ≥ b.2) l.reverse
  exact List.Pairwise.imp (fun h => not_lt.mpr h) hs

end VoteManager

namespace ElectionSystem

/-- The contract of `std::sort` does not settle the order of candidates with equal counts:
with both candidates at five votes, one sort that meets it lists them in catalog order and
another one in the opposite order. -/
theorem tiedManager_rankings :
    tiedManager.rankedResults VoteManager.sortKeeping "D1" = .ok [("C1", 5), ("C2", 5)] ∧
      tiedManager.rankedResults VoteManager.sortTurning "D1" = .ok [("C2", 5), ("C1", 5)] := by
  decide

end ElectionSystem

/-! ## Lemmas: ranges of the traces, cell-wise effect of the writes -/

namespace FenwickTree

/-- The indices of the trace of `update` started at `i` lie in `i..size` and increase
strictly. -/
theorem updateTrace_range (size : Nat) :
    ∀ (budget i : Nat) (ws : List Nat), 0 < i → updateTrace size budget i = some ws →
      (∀ j ∈ ws, i ≤ j ∧ j ≤ size) ∧ ws.Pairwise (fun a b => a < b) := by
  intro budget
  induction budget with
  | zero =>
    intro i ws _ h
    unfold updateTrace at h
    by_cases hle : i ≤ size
    · simp [hle] at h
    · simp only [hle, if_false, Option.some.injEq] at h
      subst h
      simp
  | succ b ih =>
    intro i ws hi h
    rw [updateTrace] at h
    by_cases hle : i ≤ size
    · simp only [hle, if_true, Option.map_eq_some'] at h
      obtain ⟨rest, hrest, rfl⟩ := h
      have hp := lsb_pos i hi
      obtain ⟨a1, a2⟩ := ih (i + lsb i) rest (by omega) hrest
      refine ⟨?_, ?_⟩
      · intro j hj
        rcases List.mem_cons.mp hj with rfl | hj
        · exact ⟨le_refl _, hle⟩
        · have := a1 j hj
          omega
      · refine List.Pairwise.cons ?_ a2
        intro j hj
        have := a1 j hj
        omega
    · simp only [hle, if_false, Option.some.injEq] at h
      subst h
      simp

/-- The indices of the trace of `query` started at `i` lie in `1..i` and decrease strictly. -/
theorem queryTrace_range :
    ∀ (budget i : Nat) (rs : List Nat), queryTrace budget i = some rs →
      (∀ j ∈ rs, 1 ≤ j ∧ j ≤ i) ∧ rs.Pairwise (fun a b => a > b) := by
  intro budget
  induction budget with
  | zero =>
    intro i rs h
    unfold queryTrace at h
    by_cases hpos : i > 0
    · simp [hpos] at h
    · simp only [hpos, if_false, Option.some.injEq] at h
      subst h
      simp
  | succ b ih =>
    intro i rs h
    rw [queryTrace] at h
    by_cases hpos : i > 0
    · simp only [hpos, if_true, Option.map_eq_some'] at h
      obtain ⟨rest, hrest, rfl⟩ := h
      have hp := lsb_pos i hpos
      obtain ⟨a1, a2⟩ := ih (i - lsb i) rest hrest
      refine ⟨?_, ?_⟩
      · intro j hj
        rcases List.mem_cons.mp hj with rfl | hj
        · exact ⟨hpos, le_refl _⟩
        · have := a1 j hj
          omega
      · refine List.Pairwise.cons ?_ a2
        intro j hj
        have := a1 j hj
        omega
    · simp only [hpos, if_false, Option.some.injEq] at h
      subst h
      simp

/-- Cell `m` after the writes of a list of indices: `delta` was added once for every
occurrence of `m` in the list. -/
theorem applyWrites_getElem (delta : Int) :
    ∀ (idxs : List Nat) (tree : List Int) (m : Nat),
      (applyWrites delta tree idxs)[m]? =
        tree[m]?.map (fun x => x + delta * (idxs.count m : Int)) := by
  intro idxs
  induction idxs with
  | nil =>
    intro tree m
    cases h : tree[m]? <;> simp [applyWrites, h]
  | cons w rest ih =>
    intro tree m
    have hstep : applyWrites delta tree (w :: rest) =
        applyWrites delta (tree.set w (tree.getD w 0 + delta)) rest := rfl
    rw [hstep, ih]
    by_cases hwm : w = m
    · subst hwm
      by_cases hlt : w < tree.length
      · simp [List.getElem?_set, hlt, List.getD_eq_getElem?_getD, List.getElem?_eq_getElem hlt]
        ring
      · have hnone : tree[w]? = none := List.getElem?_eq_none (by omega)
        simp [List.getElem?_set, hlt, hnone]
    · have hne : (w == m) = false := by simpa using hwm
      rw [List.getElem?_set_ne hwm]
      cases h : tree[m]? with
      | none => simp
      | some x => simp [List.count_cons, hne]

/-- The writes of two traces commute, cell for cell. -/
theorem applyWrites_comm (a b : Int) (tree : List Int) (ws1 ws2 : List Nat) :
    applyWrites b (applyWrites a tree ws1) ws2 = applyWrites a (applyWrites b tree ws2) ws1 := by
  apply List.ext_getElem?
  intro m
  rw [applyWrites_getElem, applyWrites_getElem, applyWrites_getElem, applyWrites_getElem]
  cases tree[m]? with
  | none => rfl
  | some x =>
    simp only [Option.map_some']
    congr 1
    ring

/-- Writing `delta` and then `-delta` along the same trace restores every cell. -/
theorem applyWrites_cancel (a : Int) (tree : List Int) (ws : List Nat) :
    applyWrites (-a) (applyWrites a tree ws) ws = tree := by
  apply List.ext_getElem?
  intro m
  rw [applyWrites_getElem, applyWrites_getElem]
  cases tree[m]? with
  | none => rfl
  | some x =>
    simp only [Option.map_some']
    congr 1
    ring

/-- A valid `update` is the writing of its trace, which depends on the size and the index
only. -/
theorem update_eq_trace (t : FenwickTree) (i : Nat) (delta : Int) (h1 : 1 ≤ i)
    (h2 : i ≤ t.size) :
    ∃ ws, updateTrace t.size (t.size + 1) i = some ws ∧
      t.update i delta = (.ok (), { t with tree := applyWrites delta t.tree ws }) := by
  obtain ⟨ws, e, _, _⟩ := updateTrace_bound t.size (t.size + 1) i (by omega) h2 (by omega)
  refine ⟨ws, e, ?_⟩
  have hin : ¬ (i = 0 ∨ i > t.size) := by omega
  simp only [update, if_neg hin, updateLoop_eq_trace, e, Option.map_some']

/-- A valid `query` is the sum of its trace. -/
theorem query_eq_trace (t : FenwickTree) (i : Nat) (h1 : 1 ≤ i) (h2 : i ≤ t.size) :
    ∃ rs, queryTrace i i = some rs ∧ t.query i = .ok (sumReads t.tree 0 rs) := by
  obtain ⟨rs, e, _, _⟩ := queryTrace_bound i i (by omega) (le_refl _)
  refine ⟨rs, e, ?_⟩
  have h0 : ¬ i = 0 := by omega
  have hgt : ¬ i > t.size := by omega
  simp only [query, if_neg h0, if_neg hgt, queryLoop_eq_trace, e, Option.map_some']

end FenwickTree

/-! ## Lemmas: the registry after one setup, and the audit sums -/

namespace VoteManager

/-- The slots of `slotList n cs` lie in `n + 1 .. n + cs.length`. -/
theorem slotList_find_bounds :
    ∀ (cs : List Candidate) (n : Nat) (k : String) (s : Nat),
      UMap.find (slotList n cs) k = some s → n + 1 ≤ s ∧ s ≤ n + cs.length := by
  intro cs
  induction cs with
  | nil => intro n k s h; simp [slotList, UMap.find] at h
  | cons c rest ih =>
    intro n k s h
    simp only [slotList, UMap.find] at h
    by_cases hc : c.id = k
    · simp only [hc, if_true, Option.some.injEq] at h
      simp only [List.length_cons]
      omega
    · simp only [hc, if_false] at h
      have := ih (n + 1) k s h
      simp only [List.length_cons]
      omega

/-- Two keys of `slotList n cs` with the same slot are the same key. -/
theorem slotList_find_inj :
    ∀ (cs : List Candidate) (n : Nat) (k1 k2 : String) (s : Nat),
      UMap.find (slotList n cs) k1 = some s → UMap.find (slotList n cs) k2 = some s →
      k1 = k2 := by
  intro cs
  induction cs with
  | nil => intro n k1 k2 s h; simp [slotList, UMap.find] at h
  | cons c rest ih =>
    intro n k1 k2 s h1 h2
    simp only [slotList, UMap.find] at h1 h2
    by_cases hc1 : c.id = k1
    · by_cases hc2 : c.id = k2
      · rw [← hc1, ← hc2]
      · simp only [hc1, if_true, Option.some.injEq] at h1
        simp only [hc2, if_false] at h2
        have := slotList_find_bounds rest (n + 1) k2 s h2
        omega
    · by_cases hc2 : c.id = k2
      · simp only [hc2, if_true, Option.some.injEq] at h2
        simp only [hc1, if_false] at h1
        have := slotList_find_bounds rest (n + 1) k1 s h1
        omega
      · simp only [hc1, if_false] at h1
        simp only [hc2, if_false] at h2
        exact ih (n + 1) k1 k2 s h1 h2

/-- A key of `slotList n cs` is the id of a candidate of `cs`. -/
theorem slotList_find_mem (cs : List Candidate) (n : Nat) (k : String) (s : Nat)
    (h : UMap.find (slotList n cs) k = some s) : ∃ c ∈ cs, c.id = k := by
  by_contra hno
  have hnone := slotList_find_none cs n k (by
    intro c hc heq
    exact hno ⟨c, hc, heq⟩)
  rw [hnone] at h
  exact absurd h (by simp)

theorem auditSum_append (h : List VoteUpdate) (r : VoteUpdate) (d c : String) :
    auditSum (h ++ [r]) d c =
      auditSum h d c + (if r.districtId = d ∧ r.candidateId = c then r.voteCount else 0) := by
  unfold auditSum
  rw [List.filter_append, List.map_append, List.sum_append]
  by_cases hp : r.districtId = d ∧ r.candidateId = c
  · simp [List.filter, hp]
  · simp [List.filter, hp]

theorem auditDistrictSum_append (h : List VoteUpdate) (r : VoteUpdate) (d : String) :
    auditDistrictSum (h ++ [r]) d =
      auditDistrictSum h d + (if r.districtId = d then r.voteCount else 0) := by
  unfold auditDistrictSum
  rw [List.filter_append, List.map_append, List.sum_append]
  by_cases hp : r.districtId = d
  · simp [List.filter, hp]
  · simp [List.filter, hp]

/-- In an arranged registry every assigned slot lies within its table. -/
theorem arranged_slotInRange (vm : VoteManager) (ha : vm.Arranged) (d c : String) :
    vm.SlotInRange d c := by
  unfold SlotInRange
  by_cases hd : ∃ d0 ∈ vm.districts, d0.id = d
  · obtain ⟨d0, hd0, rfl⟩ := hd
    obtain ⟨tree, ht, _, hsz, hi⟩ := ha.2.2.1 d0 hd0
    simp only [ht, hi]
    cases hs : UMap.find (slotList 0 vm.candidates) c with
    | none => trivial
    | some s =>
      have := slotList_find_bounds vm.candidates 0 c s hs
      simp only
      omega
  · have hnone := ha.2.2.2 d (by
      intro d0 hd0 heq
      exact hd ⟨d0, hd0, heq⟩)
    simp only [hnone]

/-- `addVotes` on an arranged registry: either it fails with a `runtime_error` and changes
nothing, or the district is in the catalog, the candidate holds a slot within the table, the
table update succeeds and one record is appended. -/
theorem addVotes_arranged (vm : VoteManager) (ha : vm.Arranged) (d c : String) (v : Int)
    (unit ts : String) :
    (∃ msg, vm.addVotes d c v unit ts = (.error (.runtime_error msg), vm)) ∨
    (∃ tree tree2 s, (∃ d0 ∈ vm.districts, d0.id = d) ∧
      vm.districtTrees.find d = some tree ∧ tree.WF ∧ tree.size = vm.candidates.length ∧
      vm.candidateIndices.find d = some (slotList 0 vm.candidates) ∧
      UMap.find (slotList 0 vm.candidates) c = some s ∧ 1 ≤ s ∧ s ≤ tree.size ∧
      tree.update s v = (.ok (), tree2) ∧ tree2.WF ∧ tree2.size = tree.size ∧
      vm.addVotes d c v unit ts = (.ok (), { vm with
        districtTrees := vm.districtTrees.modify d (fun _ => tree2)
        voteHistory := vm.voteHistory ++
          [{ districtId := d, candidateId := c, voteCount := v,
             precinctId := unit, timestamp := ts }] })) := by
  by_cases hd : ∃ d0 ∈ vm.districts, d0.id = d
  · obtain ⟨d0, hd0, hid⟩ := hd
    obtain ⟨tree, ht, hwf, hsz, hi⟩ := ha.2.2.1 d0 hd0
    rw [hid] at ht hi
    cases hs : UMap.find (slotList 0 vm.candidates) c with
    | none =>
      left
      refine ⟨"Candidate not found in district: " ++ c ++ " in " ++ d, ?_⟩
      simp only [addVotes, ht, hi, hs]
    | some s =>
      right
      have hb := slotList_find_bounds vm.candidates 0 c s hs
      obtain ⟨tree2, hu, hwf2, hsz2, hadd⟩ := addVotes_ok vm d c v unit ts tree
        (slotList 0 vm.candidates) s ht hwf hi hs (by omega) (by omega)
      exact ⟨tree, tree2, s, ⟨d0, hd0, hid⟩, ht, hwf, hsz, hi, rfl, by omega, by omega, hu,
        hwf2, hsz2, hadd⟩
  · left
    have hnone := ha.2.2.2 d (by
      intro d0 hd0 heq
      exact hd ⟨d0, hd0, heq⟩)
    refine ⟨"District not found: " ++ d, ?_⟩
    simp only [addVotes, hnone]

/-- A successful `addVotes` keeps the registry arranged and its counts equal to the audit
sums. -/
theorem addVotes_keeps (vm : VoteManager) (ha : vm.Arranged) (hta : vm.Tallied)
    (d c : String) (v : Int) (unit ts : String) (tree tree2 : FenwickTree) (s : Nat)
    (ht : vm.districtTrees.find d = some tree) (hwf : tree.WF)
    (hsz : tree.size = vm.candidates.length)
    (hi : vm.candidateIndices.find d = some (slotList 0 vm.candidates))
    (hs : UMap.find (slotList 0 vm.candidates) c = some s) (hs1 : 1 ≤ s) (hs2 : s ≤ tree.size)
    (hu : tree.update s v = (.ok (), tree2)) (hwf2 : tree2.WF) (hsz2 : tree2.size = tree.size) :
    Arranged { vm with
        districtTrees := vm.districtTrees.modify d (fun _ => tree2)
        voteHistory := vm.voteHistory ++
          [{ districtId := d, candidateId := c, voteCount := v,
             precinctId := unit, timestamp := ts }] } ∧
      Tallied { vm with
        districtTrees := vm.districtTrees.modify d (fun _ => tree2)
        voteHistory := vm.voteHistory ++
          [{ districtId := d, candidateId := c, voteCount := v,
             precinctId := unit, timestamp := ts }] } := by
  obtain ⟨a1, a2, a3, a4⟩ := ha
  obtain ⟨t1, t2⟩ := hta
  refine ⟨⟨a1, a2, ?_, ?_⟩, ?_, ?_⟩
  · intro x hx
    obtain ⟨tx, htx, hwx, hsx, hix⟩ := a3 x hx
    by_cases hxd : x.id = d
    · refine ⟨tree2, ?_, hwf2, ?_, hix⟩
      · show UMap.find (vm.districtTrees.modify d (fun _ => tree2)) x.id = some tree2
        rw [UMap.find_modify, if_pos hxd, ht]
        rfl
      · rw [hxd, ht] at htx
        have : tree = tx := Option.some.inj htx
        rw [hsz2, this]
        exact hsx
    · refine ⟨tx, ?_, hwx, hsx, hix⟩
      show UMap.find (vm.districtTrees.modify d (fun _ => tree2)) x.id = some tx
      rw [UMap.find_modify, if_neg hxd]
      exact htx
  · intro id hid
    show UMap.find (vm.districtTrees.modify d (fun _ => tree2)) id = none
    rw [UMap.find_modify]
    by_cases hxd : id = d
    · rw [if_pos hxd, ← hxd, a4 id hid]
      rfl
    · rw [if_neg hxd]
      exact a4 id hid
  · intro d2 c2
    show getCandidateVotes _ d2 c2 = .ok (auditSum (vm.voteHistory ++ _) d2 c2)
    rw [auditSum_append]
    have hold := t1 d2 c2
    unfold getCandidateVotes at hold ⊢
    simp only [UMap.find_modify]
    by_cases hxd : d2 = d
    · subst hxd
      rw [ht, hi] at hold
      simp only [if_true, ht, Option.map_some', hi]
      cases hs2c : UMap.find (slotList 0 vm.candidates) c2 with
      | none =>
        simp only [hs2c] at hold
        have hne : ¬ c = c2 := by
          intro heq
          rw [heq, hs2c] at hs
          exact absurd hs (by simp)
        simp only [true_and, hne, if_false, add_zero]
        exact hold
      | some s2 =>
        simp only [hs2c] at hold
        have hb := slotList_find_bounds vm.candidates 0 c2 s2 hs2c
        obtain ⟨t3, hu3, _, _, hval⟩ := FenwickTree.update_getValue tree hwf s v hs1 hs2
        rw [hu] at hu3
        have ht3 : tree2 = t3 := (Prod.mk.inj hu3).2
        subst ht3
        obtain ⟨v0, hv0, hv1⟩ := hval s2 (by omega) (by omega)
        rw [hv0] at hold
        have hv : v0 = auditSum vm.voteHistory d2 c2 := Except.ok.inj hold
        show tree2.getValue s2 = _
        rw [hv1, hv]
        by_cases hss : s = s2
        · have hcc : c = c2 := slotList_find_inj vm.candidates 0 c c2 s2 (hss ▸ hs) hs2c
          simp [hss, hcc]
        · have hcc : ¬ c = c2 := by
            intro heq
            rw [heq, hs2c] at hs
            exact hss (Option.some.inj hs).symm
          simp [hss, hcc]
    · have hne : ¬ d = d2 := fun h => hxd h.symm
      simp only [hxd, if_false, hne, false_and, add_zero]
      exact hold
  · intro d2
    show getDistrictTotalVotes _ d2 = .ok (auditDistrictSum (vm.voteHistory ++ _) d2)
    rw [auditDistrictSum_append]
    have hold := t2 d2
    unfold getDistrictTotalVotes at hold ⊢
    simp only [UMap.find_modify]
    by_cases hxd : d2 = d
    · subst hxd
      rw [ht] at hold
      simp only [if_true, ht, Option.map_some', FenwickTree.getSize] at hold ⊢
      obtain ⟨t3, hu3, _, _, hval⟩ := FenwickTree.update_query tree hwf s v hs1 hs2
      rw [hu] at hu3
      have ht3 : tree2 = t3 := (Prod.mk.inj hu3).2
      subst ht3
      obtain ⟨v0, hv0, hv1⟩ := hval tree.size (le_refl _)
      rw [hv0] at hold
      have hv : v0 = auditDistrictSum vm.voteHistory d2 := Except.ok.inj hold
      rw [hsz2, hv1, hv, if_pos hs2]
    · have hne : ¬ d = d2 := fun h => hxd h.symm
      simp only [hxd, if_false, hne, add_zero]
      exact hold

/-- `resetVotes` keeps the registry arranged and leaves counts and audit sums at zero. -/
theorem resetVotes_keeps (vm : VoteManager) (ha : vm.Arranged) :
    vm.resetVotes.Arranged ∧ vm.resetVotes.Tallied := by
  have hr := arranged_slotInRange vm ha
  obtain ⟨a1, a2, a3, a4⟩ := ha
  refine ⟨⟨a1, a2, ?_, ?_⟩, ?_, ?_⟩
  · intro x hx
    obtain ⟨tx, htx, hwx, hsx, hix⟩ := a3 x hx
    refine ⟨tx.reset, ?_, ?_, hsx, hix⟩
    · show UMap.find (vm.districtTrees.map (fun p => (p.1, p.2.reset))) x.id = some tx.reset
      rw [UMap.find_map_values, htx]
      rfl
    · unfold FenwickTree.WF at hwx ⊢
      simp only [FenwickTree.reset, List.length_map]
      exact hwx
  · intro id hid
    show UMap.find (vm.districtTrees.map (fun p => (p.1, p.2.reset))) id = none
    rw [UMap.find_map_values, a4 id hid]
    rfl
  · intro d c
    rw [getCandidateVotes_resetVotes vm d c (hr d c)]
    rfl
  · intro d
    rw [getDistrictTotalVotes_resetVotes vm d]
    rfl

end VoteManager

namespace ElectionSystem

open VoteManager

/-- The first loop of `setupElection` gives no table to an id outside the new catalog. -/
theorem setupDistricts_other_ids (k : Nat) (hk : 1 ≤ k) :
    ∀ (names : List String) (vm : VoteManager) (i : Nat) (id : String),
      (∀ d ∈ districtCatalog k names i, d.id ≠ id) →
      (setupDistricts k vm names i).2.districtTrees.find id = vm.districtTrees.find id := by
  intro names
  induction names with
  | nil => intro vm i id _; rfl
  | cons name rest ih =>
    intro vm i id hid
    have hadd := addDistrict_ok vm
      { name := name, id := "D" ++ toString (i + 1), candidateCount := k } hk
    have hne : id ≠ "D" ++ toString (i + 1) := by
      intro heq
      exact hid { name := name, id := "D" ++ toString (i + 1), candidateCount := k }
        (by simp [districtCatalog]) heq.symm
    simp only [setupDistricts, hadd]
    rw [ih _ (i + 1) id (by
      intro d hd
      exact hid d (by simp only [districtCatalog, List.mem_cons]; exact Or.inr hd))]
    simp only [UMap.find_assign, if_neg hne]

/-- After a successful `setupElection` on a fresh coordinator the registry is arranged, the
history is empty and every count is the (empty) audit sum. -/
theorem setupElection_arranged (name date : String)
    (districtNames candidateNames partyNames : List String) (es0 : ElectionSystem)
    (hsetup : (construct name date).setupElection districtNames candidateNames partyNames =
      (.ok (), es0)) :
    es0.voteManager.Arranged ∧ es0.voteManager.Tallied := by
  have hlen : candidateNames.length = partyNames.length := by
    by_contra hne
    simp only [setupElection, if_pos hne] at hsetup
    exact absurd (Prod.mk.inj hsetup).1 (by simp)
  by_cases hk : 1 ≤ candidateNames.length
  · obtain ⟨vm, e, hd, hc, hh, hall⟩ :=
      setupElection_exact name date districtNames candidateNames partyNames hlen hk
    have hother : ∀ id, (∀ d ∈ vm.districts, d.id ≠ id) → vm.districtTrees.find id = none := by
      intro id hid
      obtain ⟨vm1, e1, d1, c1, v1, f1⟩ := setupDistricts_spec candidateNames.length hk
        districtNames VoteManager.empty 0 (by intro d hd; simp [VoteManager.empty] at hd)
      obtain ⟨c2, d2, t2, i2, v2⟩ := setupCandidates_spec candidateNames partyNames vm1 0
      have hd1 : vm1.districts = districtCatalog candidateNames.length districtNames 0 := by
        rw [d1]; simp [VoteManager.empty]
      have hc2 : (setupCandidates vm1 candidateNames partyNames 0).candidates =
          candidateCatalog candidateNames partyNames 0 := by
        rw [c2, c1]; simp [VoteManager.empty]
      obtain ⟨vm3, e3, d3, c3, t3, v3, _, g3⟩ := assignDistricts_exact
        (setupCandidates vm1 candidateNames partyNames 0).districts
        (setupCandidates vm1 candidateNames partyNames 0)
        (by rw [d2, hd1]; exact districtCatalog_nodup _ _ _)
        (fun _ h => h)
        (by
          intro d hd
          rw [d2] at hd
          rw [i2]
          exact (f1 d hd).2)
        (by rw [hc2]; exact candidateCatalog_nodup _ _ _)
      have hne : ¬ candidateNames.length ≠ partyNames.length := fun h => h hlen
      have e' : (construct name date).setupElection districtNames candidateNames partyNames =
          (.ok (), { voteManager := vm3, electionName := name, electionDate := date,
                     isActive := false }) := by
        simp only [setupElection, construct, if_neg hne, e1, VoteManager.getDistricts, e3]
      rw [e] at e'
      have hvm : vm = vm3 := by
        have := (Prod.mk.inj e').2
        exact congrArg ElectionSystem.voteManager this
      rw [hvm, t3, t2]
      have h1 := setupDistricts_other_ids candidateNames.length hk districtNames
        VoteManager.empty 0 id (by
          intro d hd'
          rw [hvm, d3, d2, hd1] at hid
          exact hid d hd')
      rw [e1] at h1
      rw [h1]
      rfl
    rw [e] at hsetup
    have hes : es0.voteManager = vm := by
      have := (Prod.mk.inj hsetup).2
      rw [← this]
    rw [hes]
    have harr : vm.Arranged := by
      refine ⟨by rw [hd]; exact districtCatalog_nodup _ _ _,
        by rw [hc]; exact candidateCatalog_nodup _ _ _, ?_, hother⟩
      intro d hdm
      obtain ⟨h1, h2⟩ := hall d hdm
      refine ⟨_, h1, ?_, ?_, h2⟩
      · simp [FenwickTree.WF]
      · rw [hc, candidateCatalog_length _ _ _ hlen]
    refine ⟨harr, ?_, ?_⟩
    · intro d c
      rw [hh]
      show _ = Except.ok 0
      unfold getCandidateVotes
      by_cases hdc : ∃ d0 ∈ vm.districts, d0.id = d
      · obtain ⟨d0, hd0, rfl⟩ := hdc
        obtain ⟨h1, h2⟩ := hall d0 hd0
        rw [h1, h2]
        cases hs : UMap.find (slotList 0 vm.candidates) c with
        | none => simp only [hs]
        | some s =>
          simp only [hs]
          have hb := slotList_find_bounds vm.candidates 0 c s hs
          have hcl : vm.candidates.length = candidateNames.length := by
            rw [hc, candidateCatalog_length _ _ _ hlen]
          have := FenwickTree.getValue_of_query
            { tree := List.replicate (candidateNames.length + 1) 0,
              size := candidateNames.length } s 0 0 (by omega) (by simp only; omega)
            (FenwickTree.query_zero _ _ _ (by omega))
            (FenwickTree.query_zero _ _ _ (by omega))
          simpa using this
      · rw [hother d (fun d0 hd0 heq => hdc ⟨d0, hd0, heq⟩)]
    · intro d
      rw [hh]
      show _ = Except.ok 0
      unfold getDistrictTotalVotes
      by_cases hdc : ∃ d0 ∈ vm.districts, d0.id = d
      · obtain ⟨d0, hd0, rfl⟩ := hdc
        obtain ⟨h1, _⟩ := hall d0 hd0
        rw [h1]
        exact FenwickTree.query_zero _ _ _ (le_refl _)
      · rw [hother d (fun d0 hd0 heq => hdc ⟨d0, hd0, heq⟩)]
  · have hc0 : candidateNames = [] := List.length_eq_zero.mp (by omega)
    have hp0 : partyNames = [] := List.length_eq_zero.mp (by omega)
    subst hc0 hp0
    cases districtNames with
    | nil =>
      have : es0.voteManager = VoteManager.empty := by
        have h2 := (Prod.mk.inj hsetup).2
        rw [← h2]
        rfl
      rw [this]
      refine ⟨⟨by simp [VoteManager.empty], by simp [VoteManager.empty], ?_, ?_⟩, ?_, ?_⟩
      · intro d hd
        simp [VoteManager.empty] at hd
      · intro id _
        rfl
      · intro d c
        rfl
      · intro d
        rfl
    | cons first rest =>
      have h1 := (Prod.mk.inj hsetup).1
      exact absurd h1 (by
        simp [setupElection, setupDistricts, addDistrict, FenwickTree.construct])

/-- One call after the setup keeps the registry arranged, its counts equal to the audit sums,
and both catalogs. -/
theorem step_arranged (es : ElectionSystem) (op : Op)
    (ha : es.voteManager.Arranged) (hta : es.voteManager.Tallied) :
    (es.step op).voteManager.Arranged ∧ (es.step op).voteManager.Tallied ∧
      (es.step op).voteManager.districts = es.voteManager.districts ∧
      (es.step op).voteManager.candidates = es.voteManager.candidates := by
  cases op with
  | setElectionStatus active => exact ⟨ha, hta, rfl, rfl⟩
  | processVoteUpdate dn cn v unit ts =>
    rcases processVoteUpdate_total es dn cn v unit ts with ⟨d, c, vm2, _, _, _, hadd, e⟩ | e
    · have hs : es.step (.processVoteUpdate dn cn v unit ts) =
          { es with voteManager := vm2 } := by
        simp only [step, e]
      rw [hs]
      rcases addVotes_arranged es.voteManager ha d.id c.id v unit ts with
        ⟨msg, herr⟩ | ⟨tree, tree2, s, _, ht, hwf, hsz, hi, hsl, hs1, hs2, hu, hwf2, hsz2, hok⟩
      · rw [herr] at hadd
        exact absurd (Prod.mk.inj hadd).1 (by simp)
      · rw [hok] at hadd
        have hvm := (Prod.mk.inj hadd).2
        obtain ⟨k1, k2⟩ := addVotes_keeps es.voteManager ha hta d.id c.id v unit ts tree tree2 s
          ht hwf hsz hi hsl hs1 hs2 hu hwf2 hsz2
        rw [hvm] at k1 k2
        refine ⟨k1, k2, ?_, ?_⟩
        · show vm2.districts = _
          rw [← hvm]
        · show vm2.candidates = _
          rw [← hvm]
    · have hs : es.step (.processVoteUpdate dn cn v unit ts) = es := by
        simp only [step, e]
      rw [hs]
      exact ⟨ha, hta, rfl, rfl⟩
  | resetElection =>
    obtain ⟨k1, k2⟩ := resetVotes_keeps es.voteManager ha
    exact ⟨k1, k2, rfl, rfl⟩

/-- Every sequence of calls after the setup keeps the registry arranged, its counts equal to
the audit sums, and both catalogs. -/
theorem run_arranged :
    ∀ (ops : List Op) (es : ElectionSystem), es.voteManager.Arranged → es.voteManager.Tallied →
      (es.run ops).voteManager.Arranged ∧ (es.run ops).voteManager.Tallied ∧
        (es.run ops).voteManager.districts = es.voteManager.districts ∧
        (es.run ops).voteManager.candidates = es.voteManager.candidates := by
  intro ops
  induction ops with
  | nil => intro es ha hta; exact ⟨ha, hta, rfl, rfl⟩
  | cons op ops ih =>
    intro es ha hta
    obtain ⟨h1, h2, h3, h4⟩ := step_arranged es op ha hta
    obtain ⟨g1, g2, g3, g4⟩ := ih (es.step op) h1 h2
    exact ⟨g1, g2, by rw [← h3]; exact g3, by rw [← h4]; exact g4⟩

end ElectionSystem

namespace VoteManager

/-- When every count is the audit sum, the total of a candidate is returned and is the sum
of the audit sums over the catalog districts. -/
theorem tallied_total (vm : VoteManager) (hta : vm.Tallied) (c : String) :
    vm.getCandidateTotalVotes c =
      .ok (0 + (vm.districts.map (fun d => auditSum vm.voteHistory d.id c)).sum) := by
  unfold getCandidateTotalVotes
  rw [totalLoop_eq, mapM_ok _ (fun d => auditSum vm.voteHistory d.id c) _
    (fun d _ => hta.1 d.id c)]
  rfl

/-- A scan over counts that are all returned returns a leader id. -/
theorem leaderLoop_ok (votesOf : String → Except Exn Int) (f : Candidate → Int)
    (cands : List Candidate) (leaderId : String) (maxVotes : Int)
    (h : ∀ c ∈ cands, votesOf c.id = .ok (f c)) :
    ∃ l, leaderLoop votesOf cands leaderId maxVotes = .ok l := by
  rcases leaderLoop_spec votesOf f cands leaderId maxVotes h with ⟨_, e⟩ | ⟨_, L, _, _, e, _⟩
  · exact ⟨_, e⟩
  · exact ⟨_, e⟩

end VoteManager

/-! ## Lemmas: name resolution takes the first match -/

/-- A search that an entry in front satisfies ends at that entry or before it. -/
theorem find_in_front {α : Type} (p : α → Bool) :
    ∀ (pre : List α) (a1 : α) (rest : List α) (x : α), p a1 = true →
      (pre ++ a1 :: rest).find? p = some x → x ∈ pre ++ [a1] := by
  intro pre
  induction pre with
  | nil =>
    intro a1 rest x h1 hf
    simp only [List.nil_append, List.find?_cons, h1, Option.some.injEq] at hf
    simp [hf]
  | cons y pre ih =>
    intro a1 rest x h1 hf
    simp only [List.cons_append, List.find?_cons] at hf
    cases hy : p y with
    | true =>
      simp only [hy, Option.some.injEq] at hf
      simp [hf]
    | false =>
      simp only [hy] at hf
      have := ih a1 rest x h1 hf
      simp only [List.cons_append, List.mem_cons]
      exact Or.inr this

/-- In a list with pairwise distinct keys, the entry that a search by name returns is never
an entry that stands behind another entry of the same name. -/
theorem first_match_not_later {α : Type} (nm key : α → String) (l pre mid post : List α)
    (a1 a2 x : α) (n : String) (hnd : (l.map key).Nodup)
    (hl : l = pre ++ a1 :: (mid ++ a2 :: post)) (hname : nm a1 = nm a2)
    (hf : l.find? (fun y => nm y == n) = some x) : key x ≠ key a2 := by
  intro hkey
  have hx : x ∈ l := List.mem_of_find?_eq_some hf
  have ha2 : a2 ∈ l := by rw [hl]; simp
  have hxa : x = a2 := List.inj_on_of_nodup_map hnd hx ha2 hkey
  have hpx : nm x = n := by simpa using List.find?_some hf
  have hp1 : (fun y => nm y == n) a1 = true := by
    simp only [beq_iff_eq]
    rw [hname, ← hxa]
    exact hpx
  rw [hl] at hf
  have hfront := find_in_front (fun y => nm y == n) pre a1 (mid ++ a2 :: post) x hp1 hf
  have hnl : l.Nodup := List.Nodup.of_map key hnd
  have hsplit : l = (pre ++ [a1]) ++ (mid ++ a2 :: post) := by rw [hl]; simp
  rw [hsplit] at hnl
  have hdis := (List.nodup_append.mp hnl).2.2
  exact hdis hfront (by rw [hxa]; simp)

namespace VoteManager

/-- The loop of `getCandidateTotalVotes` gives the same total on two registries that return
the same counts. -/
theorem totalLoop_congr (vm vm2 : VoteManager) (c : String) :
    ∀ (ds : List District) (total : Int),
      (∀ d ∈ ds, vm2.getCandidateVotes d.id c = vm.getCandidateVotes d.id c) →
      totalLoop vm2 c ds total = totalLoop vm c ds total := by
  intro ds
  induction ds with
  | nil => intro total _; rfl
  | cons d ds ih =>
    intro total h
    simp only [totalLoop, h d (List.mem_cons_self _ _)]
    cases vm.getCandidateVotes d.id c with
    | error e => rfl
    | ok votes => exact ih _ (fun x hx => h x (List.mem_cons_of_mem _ hx))

end VoteManager

namespace ElectionSystem

open VoteManager

/-- `processVoteUpdate` on a coordinator whose registry is arranged and tallied: either it
returns `false` and changes nothing, or both names resolve, `true` is returned, one record
for the resolved ids is appended, and the registry stays arranged and tallied. -/
theorem processVoteUpdate_arranged (es : ElectionSystem) (ha : es.voteManager.Arranged)
    (hta : es.voteManager.Tallied) (dn cn : String) (v : Int) (unit ts : String) :
    es.processVoteUpdate dn cn v unit ts = (.ok false, es) ∨
    ∃ d c vm2,
      es.voteManager.districts.find? (fun x => x.name == dn) = some d ∧
      es.voteManager.candidates.find? (fun x => x.name == cn) = some c ∧
      es.processVoteUpdate dn cn v unit ts = (.ok true, { es with voteManager := vm2 }) ∧
      vm2.districts = es.voteManager.districts ∧ vm2.candidates = es.voteManager.candidates ∧
      vm2.voteHistory = es.voteManager.voteHistory ++
        [{ districtId := d.id, candidateId := c.id, voteCount := v, precinctId := unit,
           timestamp := ts }] ∧
      vm2.Arranged ∧ vm2.Tallied := by
  rcases processVoteUpdate_total es dn cn v unit ts with ⟨d, c, vm2, _, hd, hc, hadd, e⟩ | e
  · right
    rcases addVotes_arranged es.voteManager ha d.id c.id v unit ts with
      ⟨msg, herr⟩ | ⟨tree, tree2, s, _, ht, hwf, hsz, hi, hsl, hs1, hs2, hu, hwf2, hsz2, hok⟩
    · rw [herr] at hadd
      exact absurd (Prod.mk.inj hadd).1 (by simp)
    · rw [hok] at hadd
      have hvm := (Prod.mk.inj hadd).2
      obtain ⟨k1, k2⟩ := addVotes_keeps es.voteManager ha hta d.id c.id v unit ts tree tree2 s
        ht hwf hsz hi hsl hs1 hs2 hu hwf2 hsz2
      rw [hvm] at k1 k2
      refine ⟨d, c, vm2, hd, hc, e, ?_, ?_, ?_, k1, k2⟩
      · rw [← hvm]
      · rw [← hvm]
      · rw [← hvm]
  · exact Or.inl e

/-- `twinSystem` is what `setupElection` makes of a freshly constructed coordinator. -/
theorem twinSystem_is_setup :
    (construct "Twin Election" "2024-01-01").setupElection ["Twin", "Twin"]
      ["Ann", "Ann"] ["Red", "Blue"] = (.ok (), twinSystem) := by
  decide

end ElectionSystem

/-! ## Lemmas: slots under sequences of registry calls -/

namespace UMap

theorem find_none_not_mem {V : Type} (m : UMap V) (k : String) (h : find m k = none) :
    k ∉ m.map Prod.fst := by
  induction m with
  | nil => simp
  | cons p m ih =>
    obtain ⟨a, w⟩ := p
    by_cases hak : a = k
    · simp [find, hak] at h
    · simp only [find, hak, if_false] at h
      simp only [List.map_cons, List.mem_cons, not_or]
      exact ⟨fun heq => hak heq.symm, ih h⟩

end UMap

namespace VoteManager

/-- A slot found in a dense index map is at most the number of its keys. -/
theorem dense_slot_le (inner : UMap Nat) (c : String) (s : Nat)
    (hd : inner.map Prod.snd = List.range' 1 inner.length) (hs : UMap.find inner c = some s) :
    1 ≤ s ∧ s ≤ inner.length := by
  have hmem : s ∈ inner.map Prod.snd := by
    clear hd
    induction inner with
    | nil => simp [UMap.find] at hs
    | cons p m ih =>
      obtain ⟨a, w⟩ := p
      by_cases hak : a = c
      · simp only [UMap.find, hak, if_true, Option.some.injEq] at hs
        simp [hs]
      · simp only [UMap.find, hak, if_false] at hs
        simp only [List.map_cons, List.mem_cons]
        exact Or.inr (ih hs)
  rw [hd, List.mem_range'_1] at hmem
  omega

/-- `addVotes` never touches the index maps or the catalogs. -/
theorem addVotes_frame (vm : VoteManager) (d c : String) (v : Int) (unit ts : String) :
    (vm.addVotes d c v unit ts).2.candidateIndices = vm.candidateIndices ∧
      (vm.addVotes d c v unit ts).2.districts = vm.districts ∧
      (vm.addVotes d c v unit ts).2.candidates = vm.candidates := by
  cases ht : vm.districtTrees.find d with
  | none => simp only [addVotes, ht, and_self]
  | some tree =>
    cases hi : vm.candidateIndices.find d with
    | none => simp only [addVotes, ht, hi, and_self]
    | some indices =>
      cases hs : indices.find c with
      | none => simp only [addVotes, ht, hi, hs, and_self]
      | some s =>
        rcases hu : tree.update s v with ⟨r, t2⟩
        cases r with
        | error e => simp only [addVotes, ht, hi, hs, hu, and_self]
        | ok u => simp only [addVotes, ht, hi, hs, hu, and_self]

/-- One permitted call keeps the index maps dense, keeps them to catalog ids, and keeps every
slot that was assigned. -/
theorem call_keeps (vm : VoteManager) (op : Call) (hd : vm.Dense) (hk : vm.IndexedInCatalog)
    (hp : permitted vm op = true) :
    (call vm op).Dense ∧ (call vm op).IndexedInCatalog ∧
      ∀ d c s, slotOf vm d c = some s → slotOf (call vm op) d c = some s := by
  cases op with
  | addDistrict district =>
    have hfresh : ∀ x ∈ vm.districts, x.id ≠ district.id := by
      intro x hx
      have := List.all_eq_true.mp hp x hx
      simpa using this
    cases hc : FenwickTree.construct district.candidateCount with
    | error e =>
      have hcall : call vm (.addDistrict district) =
          { vm with districts := vm.districts ++ [district] } := by
        simp only [call, addDistrict, hc]
      rw [hcall]
      refine ⟨hd, ?_, fun _ _ _ h => h⟩
      intro d hall
      exact hk d (fun x hx => hall x (List.mem_append_left _ hx))
    | ok t =>
      have hcall : call vm (.addDistrict district) =
          { vm with
            districts := vm.districts ++ [district]
            districtTrees := vm.districtTrees.assign district.id t
            candidateIndices := vm.candidateIndices.assign district.id [] } := by
        simp only [call, addDistrict, hc]
      rw [hcall]
      refine ⟨?_, ?_, ?_⟩
      · intro d inner hfind
        simp only [UMap.find_assign] at hfind
        by_cases hdd : d = district.id
        · simp only [hdd, if_true, Option.some.injEq] at hfind
          subst hfind
          simp
        · simp only [hdd, if_false] at hfind
          exact hd d inner hfind
      · intro d hall
        have hne : d ≠ district.id := fun heq =>
          hall district (List.mem_append_right _ (List.mem_singleton.mpr rfl)) heq.symm
        show UMap.find (vm.candidateIndices.assign district.id []) d = none
        rw [UMap.find_assign, if_neg hne]
        exact hk d (fun x hx => hall x (List.mem_append_left _ hx))
      · intro d c s hs
        have hne : d ≠ district.id := by
          intro heq
          have hnone := hk district.id hfresh
          unfold slotOf at hs
          rw [heq, hnone] at hs
          exact absurd hs (by simp)
        unfold slotOf at hs ⊢
        simp only [UMap.find_assign, if_neg hne]
        exact hs
  | addCandidate candidate => exact ⟨hd, hk, fun _ _ _ h => h⟩
  | assignCandidateToDistrict d2 c2 =>
    cases hfd : vm.districts.find? (fun x => x.id == d2) with
    | none =>
      have hcall : call vm (.assignCandidateToDistrict d2 c2) = vm := by
        simp only [call, assignCandidateToDistrict, hfd]
      rw [hcall]
      exact ⟨hd, hk, fun _ _ _ h => h⟩
    | some x =>
      cases hfc : vm.candidates.find? (fun y => y.id == c2) with
      | none =>
        have hcall : call vm (.assignCandidateToDistrict d2 c2) = vm := by
          simp only [call, assignCandidateToDistrict, hfd, hfc]
        rw [hcall]
        exact ⟨hd, hk, fun _ _ _ h => h⟩
      | some y =>
        have hcall : call vm (.assignCandidateToDistrict d2 c2) =
            { vm with
              candidateIndices := vm.candidateIndices.assign d2
                (((vm.candidateIndices.find d2).getD []).assign c2
                  (((vm.candidateIndices.find d2).getD []).size + 1)) } := by
          simp only [call, assignCandidateToDistrict, hfd, hfc]
        rw [hcall]
        have hxmem : x ∈ vm.districts := List.mem_of_find?_eq_some hfd
        have hxid : x.id = d2 := by simpa using List.find?_some hfd
        have hp2 : (slotOf vm d2 c2).isNone = true := hp
        have habs : UMap.find ((vm.candidateIndices.find d2).getD []) c2 = none := by
          unfold slotOf at hp2
          cases hfi : vm.candidateIndices.find d2 with
          | none => rfl
          | some inner0 =>
            rw [hfi] at hp2
            simp only [Option.getD_some]
            cases hfc2 : UMap.find inner0 c2 with
            | none => rfl
            | some s0 =>
              simp only [hfc2] at hp2
              exact absurd hp2 (by simp)
        have hdense : ((vm.candidateIndices.find d2).getD []).map Prod.snd =
              List.range' 1 ((vm.candidateIndices.find d2).getD []).length ∧
            (((vm.candidateIndices.find d2).getD []).map Prod.fst).Nodup := by
          cases hfi : vm.candidateIndices.find d2 with
          | none => simp
          | some inner0 => exact hd d2 inner0 hfi
        rw [UMap.assign_absent _ _ _ habs]
        refine ⟨?_, ?_, ?_⟩
        · intro d inner hfind
          simp only [UMap.find_assign] at hfind
          by_cases hdd : d = d2
          · simp only [hdd, if_true, Option.some.injEq] at hfind
            subst hfind
            refine ⟨?_, ?_⟩
            · simp only [List.map_append, List.map_cons, List.map_nil, List.length_append,
                List.length_singleton, UMap.size, hdense.1, List.range'_concat, one_mul]
              simp [Nat.add_comm]
            · simp only [List.map_append, List.map_cons, List.map_nil]
              rw [List.nodup_append]
              refine ⟨hdense.2, by simp, ?_⟩
              intro k hk1 hk2
              rw [List.mem_singleton] at hk2
              rw [hk2] at hk1
              exact UMap.find_none_not_mem _ _ habs hk1
          · simp only [hdd, if_false] at hfind
            exact hd d inner hfind
        · intro d hall
          have hne : d ≠ d2 := fun heq => hall x hxmem (hxid.trans heq.symm)
          show UMap.find (vm.candidateIndices.assign d2 _) d = none
          rw [UMap.find_assign, if_neg hne]
          exact hk d hall
        · intro d c s hs
          unfold slotOf at hs ⊢
          simp only [UMap.find_assign]
          by_cases hdd : d = d2
          · subst hdd
            simp only [if_true]
            cases hfi : vm.candidateIndices.find d with
            | none =>
              rw [hfi] at hs
              exact absurd hs (by simp)
            | some inner0 =>
              rw [hfi] at hs
              simp only at hs
              simp only [Option.getD_some]
              rw [UMap.find_append, hs]
              rfl
          · simp only [hdd, if_false]
            exact hs
  | addVotes d2 c2 v unit ts =>
    obtain ⟨f1, f2, _⟩ := addVotes_frame vm d2 c2 v unit ts
    refine ⟨?_, ?_, ?_⟩
    · intro d inner hfind
      have : (call vm (.addVotes d2 c2 v unit ts)).candidateIndices = vm.candidateIndices := f1
      rw [this] at hfind
      exact hd d inner hfind
    · intro d hall
      have h1 : (call vm (.addVotes d2 c2 v unit ts)).candidateIndices = vm.candidateIndices := f1
      have h2 : (call vm (.addVotes d2 c2 v unit ts)).districts = vm.districts := f2
      rw [h1]
      rw [h2] at hall
      exact hk d hall
    · intro d c s hs
      have h1 : (call vm (.addVotes d2 c2 v unit ts)).candidateIndices = vm.candidateIndices := f1
      unfold slotOf at hs ⊢
      rw [h1]
      exact hs
  | resetVotes => exact ⟨hd, hk, fun _ _ _ h => h⟩

/-- A sequence of permitted calls keeps the index maps dense and every assigned slot. -/
theorem calls_keep :
    ∀ (cs : List Call) (vm : VoteManager), vm.Dense → vm.IndexedInCatalog →
      admissible vm cs = true →
      (calls vm cs).Dense ∧ (calls vm cs).IndexedInCatalog ∧
        ∀ d c s, slotOf vm d c = some s → slotOf (calls vm cs) d c = some s := by
  intro cs
  induction cs with
  | nil => intro vm hd hk _; exact ⟨hd, hk, fun _ _ _ h => h⟩
  | cons op rest ih =>
    intro vm hd hk hadm
    simp only [admissible, Bool.and_eq_true] at hadm
    obtain ⟨h1, h2, h3⟩ := call_keeps vm op hd hk hadm.1
    obtain ⟨g1, g2, g3⟩ := ih (call vm op) h1 h2 hadm.2
    exact ⟨g1, g2, fun d c s h => g3 d c s (h3 d c s h)⟩

/-- An admissible sequence is admissible up to any point and from there on. -/
theorem admissible_append :
    ∀ (cs1 cs2 : List Call) (vm : VoteManager), admissible vm (cs1 ++ cs2) = true →
      admissible vm cs1 = true ∧ admissible (calls vm cs1) cs2 = true := by
  intro cs1
  induction cs1 with
  | nil => intro cs2 vm h; exact ⟨rfl, h⟩
  | cons op rest ih =>
    intro cs2 vm h
    simp only [List.cons_append, admissible, Bool.and_eq_true] at h
    obtain ⟨g1, g2⟩ := ih cs2 (call vm op) h.2
    refine ⟨?_, g2⟩
    simp only [admissible, Bool.and_eq_true]
    exact ⟨h.1, g1⟩

end VoteManager

/-! ## Lemmas: `int64_t` arithmetic against exact arithmetic -/

theorem wrap64_range (x : Int) :
    -9223372036854775808 ≤ wrap64 x ∧ wrap64 x < 9223372036854775808 := by
  unfold wrap64; omega

theorem wrap64_of_range (x : Int) (h1 : -9223372036854775808 ≤ x)
    (h2 : x < 9223372036854775808) : wrap64 x = x := by
  unfold wrap64; omega

theorem wrap64_idem (x : Int) : wrap64 (wrap64 x) = wrap64 x := by
  unfold wrap64; omega

theorem wrap64_zero : wrap64 0 = 0 := by decide

theorem wrap64_add_left (x y : Int) : wrap64 (wrap64 x + y) = wrap64 (x + y) := by
  unfold wrap64; omega

theorem wrap64_add_right (x y : Int) : wrap64 (x + wrap64 y) = wrap64 (x + y) := by
  unfold wrap64; omega

theorem wrap64_sub (x y : Int) : wrap64 (wrap64 x - wrap64 y) = wrap64 (x - y) := by
  unfold wrap64; omega

theorem wrap64_congr_add (x y d : Int) (h : wrap64 x = wrap64 y) :
    wrap64 (x + d) = wrap64 (y + d) := by
  unfold wrap64 at *; omega

theorem wrap64_congr_add_both (x y c d : Int) (h : wrap64 x = wrap64 y)
    (h2 : wrap64 c = wrap64 d) : wrap64 (x + c) = wrap64 (y + d) := by
  unfold wrap64 at *; omega

/-- The sum of wrapped values is the sum of the values, modulo `2^64`. -/
theorem wrap64_sum_map (l : List Int) : wrap64 ((l.map wrap64).sum) = wrap64 l.sum := by
  induction l with
  | nil => rfl
  | cons a l ih =>
    simp only [List.map_cons, List.sum_cons]
    rw [wrap64_add_left, ← wrap64_add_right, ih, wrap64_add_right]

namespace FenwickTree

theorem table_sim_refl (t : FenwickTree) : Sim t t := ⟨rfl, rfl⟩

theorem sim_wf (t t2 : FenwickTree) (h : Sim t t2) (hwf : t2.WF) : t.WF := by
  unfold WF at *
  have hl := congrArg List.length h.2
  simp only [List.length_map] at hl
  rw [hl, hwf, h.1]

theorem cong_getD (a b : List Int) (h : a.map wrap64 = b.map wrap64) (i : Nat) :
    wrap64 (a.getD i 0) = wrap64 (b.getD i 0) := by
  have h1 := List.getD_map a 0 (n := i) wrap64
  have h2 := List.getD_map b 0 (n := i) wrap64
  rw [← h1, ← h2, h]

/-- The loop of `update64` and the loop of `update` keep cells that agree modulo `2^64` in
agreement, and end together. -/
theorem updateLoop64_sim (size : Nat) (delta : Int) :
    ∀ (budget : Nat) (a b : List Int) (i : Nat), a.map wrap64 = b.map wrap64 →
      (updateLoop64 size delta budget a i).map (List.map wrap64) =
        (updateLoop size delta budget b i).map (List.map wrap64) := by
  intro budget
  induction budget with
  | zero =>
    intro a b i h
    unfold updateLoop64 updateLoop
    by_cases hle : i ≤ size
    · simp [hle]
    · simp [hle, h]
  | succ n ih =>
    intro a b i h
    rw [updateLoop64, updateLoop]
    by_cases hle : i ≤ size
    · simp only [hle, if_true]
      apply ih
      rw [List.map_set, List.map_set, h, wrap64_idem,
        wrap64_congr_add _ _ delta (cong_getD a b h i)]
    · simp [hle, h]

/-- The loop of `query64` returns the wrapped result of the loop of `query`. -/
theorem queryLoop64_sim (a b : List Int) (h : a.map wrap64 = b.map wrap64) :
    ∀ (budget i : Nat) (s s2 : Int), wrap64 s = s → s = wrap64 s2 →
      queryLoop64 a budget i s = (queryLoop b budget i s2).map wrap64 := by
  intro budget
  induction budget with
  | zero =>
    intro i s s2 _ hs
    unfold queryLoop64 queryLoop
    by_cases hpos : i > 0
    · simp [hpos]
    · simp [hpos, hs]
  | succ n ih =>
    intro i s s2 _ hs
    rw [queryLoop64, queryLoop]
    by_cases hpos : i > 0
    · simp only [hpos, if_true]
      apply ih
      · exact wrap64_idem _
      · rw [hs, wrap64_add_left]
        exact wrap64_congr_add_both _ _ _ _ rfl (cong_getD a b h i)
    · simp [hpos, hs]

/-- `query64` returns the wrapped result of `query` on a table whose cells agree with its own
modulo `2^64`, and fails as `query` does. -/
theorem query64_sim (t t2 : FenwickTree) (h : Sim t t2) (i : Nat) :
    t.query64 i = Except.map wrap64 (t2.query i) := by
  unfold query64 query
  by_cases h0 : i = 0
  · simp only [h0, if_true]
    rfl
  · simp only [h0, if_false, h.1]
    by_cases hgt : i > t2.size
    · simp only [hgt, if_true]
      rfl
    · simp only [hgt, if_false]
      rw [queryLoop64_sim t.tree t2.tree h.2 i i 0 0 wrap64_zero wrap64_zero.symm]
      cases queryLoop t2.tree i i 0 with
      | none => rfl
      | some r => rfl

theorem rangeQuery64_sim (t t2 : FenwickTree) (h : Sim t t2) (l r : Nat) :
    t.rangeQuery64 l r = Except.map wrap64 (t2.rangeQuery l r) := by
  unfold rangeQuery64 rangeQuery
  by_cases hlr : l > r
  · simp only [hlr, if_true]
    rfl
  · simp only [hlr, if_false, h.1]
    by_cases hb : l = 0 ∨ r > t2.size
    · simp only [hb, if_true]
      rfl
    · simp only [hb, if_false]
      rw [query64_sim t t2 h r, query64_sim t t2 h (l - 1)]
      cases t2.query r with
      | error e => rfl
      | ok a =>
        cases t2.query (l - 1) with
        | error e => rfl
        | ok b =>
          show Except.ok (wrap64 (wrap64 a - wrap64 b)) = Except.ok (wrap64 (a - b))
          rw [wrap64_sub]

theorem getValue64_sim (t t2 : FenwickTree) (h : Sim t t2) (i : Nat) :
    t.getValue64 i = Except.map wrap64 (t2.getValue i) := by
  unfold getValue64 getValue
  rw [h.1]
  by_cases hb : i = 0 ∨ i > t2.size
  · simp only [hb, if_true]
    rfl
  · simp only [hb, if_false]
    exact rangeQuery64_sim t t2 h i i

/-- `update64` and `update` succeed or fail together and keep the tables in agreement modulo
`2^64`. -/
theorem update64_sim (t t2 : FenwickTree) (h : Sim t t2) (i : Nat) (delta : Int) :
    (t.update64 i delta).1 = (t2.update i delta).1 ∧
      Sim (t.update64 i delta).2 (t2.update i delta).2 := by
  unfold update64 update
  rw [h.1]
  by_cases hb : i = 0 ∨ i > t2.size
  · rw [if_pos hb, if_pos hb]
    exact ⟨rfl, h⟩
  · rw [if_neg hb, if_neg hb]
    have hl := updateLoop64_sim t2.size delta (t2.size + 1) t.tree t2.tree i h.2
    cases h2 : updateLoop t2.size delta (t2.size + 1) t2.tree i with
    | none =>
      rw [h2] at hl
      cases h1 : updateLoop64 t2.size delta (t2.size + 1) t.tree i with
      | none => exact ⟨rfl, h⟩
      | some x => rw [h1] at hl; simp at hl
    | some y =>
      rw [h2] at hl
      cases h1 : updateLoop64 t2.size delta (t2.size + 1) t.tree i with
      | none => rw [h1] at hl; simp at hl
      | some x =>
        rw [h1] at hl
        simp only [Option.map_some', Option.some.injEq] at hl
        exact ⟨rfl, rfl, hl⟩

/-- A run of `update64` calls and the run of the same `update` calls succeed or fail
together, with tables that agree modulo `2^64`. -/
theorem applyUpdates64_sim :
    ∀ (us : List (Nat × Int)) (t t2 : FenwickTree), Sim t t2 →
      (∀ r2, applyUpdates t2 us = .ok r2 → ∃ r, applyUpdates64 t us = .ok r ∧ Sim r r2) ∧
      (∀ e, applyUpdates t2 us = .error e → applyUpdates64 t us = .error e) := by
  intro us
  induction us with
  | nil =>
    intro t t2 h
    refine ⟨?_, ?_⟩
    · intro r2 hr
      simp only [applyUpdates, Except.ok.injEq] at hr
      exact ⟨t, rfl, hr ▸ h⟩
    · intro e he
      simp [applyUpdates] at he
  | cons u rest ih =>
    intro t t2 h
    obtain ⟨i, delta⟩ := u
    obtain ⟨h1, h2⟩ := update64_sim t t2 h i delta
    rcases hu2 : t2.update i delta with ⟨res2, s2⟩
    rcases hu : t.update64 i delta with ⟨res, s⟩
    rw [hu, hu2] at h1 h2
    simp only at h1 h2
    subst h1
    cases res with
    | error e =>
      refine ⟨?_, ?_⟩
      · intro r2 hr
        simp [applyUpdates, hu2] at hr
      · intro e2 he
        simp only [applyUpdates, hu2, Except.error.injEq] at he
        simp only [applyUpdates64, hu, he]
    | ok v =>
      obtain ⟨g1, g2⟩ := ih s s2 h2
      refine ⟨?_, ?_⟩
      · intro r2 hr
        simp only [applyUpdates, hu2] at hr
        obtain ⟨r, e, hs⟩ := g1 r2 hr
        exact ⟨r, by simp only [applyUpdates64, hu, e], hs⟩
      · intro e2 he
        simp only [applyUpdates, hu2] at he
        simp only [applyUpdates64, hu]
        exact g2 e2 he

/-- As long as `n + 1` is a `size_t`, `construct64` builds what `construct` builds. -/
theorem construct64_eq (n : Nat) (h : n + 1 < 18446744073709551616) :
    construct64 n = construct n := by
  unfold construct64 construct
  rw [Nat.mod_eq_of_lt h]

/-- `update64` changes neither the size nor the number of cells. -/
theorem update64_shape (t : FenwickTree) (i : Nat) (delta : Int) :
    (t.update64 i delta).2.size = t.size ∧
      (t.update64 i delta).2.tree.length = t.tree.length := by
  obtain ⟨_, hs, ht⟩ := update64_sim t t (table_sim_refl t) i delta
  obtain ⟨e1, e2⟩ := update_shape t i delta
  have hl := congrArg List.length ht
  simp only [List.length_map] at hl
  exact ⟨hs.trans e1, hl.trans e2⟩

/-- A valid `update64(s, delta)` on a well-formed table succeeds and moves every point value
by `delta` at `s` and by nothing elsewhere, in `int64_t` arithmetic. -/
theorem update64_getValue64 (t : FenwickTree) (hwf : WF t) (s : Nat) (delta : Int)
    (hs : 1 ≤ s) (hs2 : s ≤ t.size) :
    ∃ t2, t.update64 s delta = (.ok (), t2) ∧ WF t2 ∧ t2.size = t.size ∧
      ∀ i, 1 ≤ i → i ≤ t.size → ∃ v, getValue64 t i = .ok v ∧
        getValue64 t2 i = .ok (wrap64 (v + (if s = i then delta else 0))) := by
  obtain ⟨te, he, hwfe, hsze, hval⟩ := update_getValue t hwf s delta hs hs2
  obtain ⟨h1, h2⟩ := update64_sim t t (table_sim_refl t) s delta
  rw [he] at h1 h2
  simp only at h1 h2
  refine ⟨(t.update64 s delta).2, Prod.ext h1 rfl, sim_wf _ _ h2 hwfe, h2.1.trans hsze, ?_⟩
  intro i hi1 hi2
  obtain ⟨v, hv, hv2⟩ := hval i hi1 hi2
  refine ⟨wrap64 v, ?_, ?_⟩
  · rw [getValue64_sim t t (table_sim_refl t) i, hv]
    rfl
  · rw [getValue64_sim _ te h2 i, hv2, wrap64_add_left]
    rfl

/-- A valid `update64(s, delta)` on a well-formed table moves every prefix sum from `s` on by
`delta`, in `int64_t` arithmetic. -/
theorem update64_query64 (t : FenwickTree) (hwf : WF t) (s : Nat) (delta : Int)
    (hs : 1 ≤ s) (hs2 : s ≤ t.size) :
    ∃ t2, t.update64 s delta = (.ok (), t2) ∧ WF t2 ∧ t2.size = t.size ∧
      ∀ i, i ≤ t.size → ∃ v, query64 t i = .ok v ∧
        query64 t2 i = .ok (wrap64 (v + (if s ≤ i then delta else 0))) := by
  obtain ⟨te, he, hwfe, hsze, hval⟩ := update_query t hwf s delta hs hs2
  obtain ⟨h1, h2⟩ := update64_sim t t (table_sim_refl t) s delta
  rw [he] at h1 h2
  simp only at h1 h2
  refine ⟨(t.update64 s delta).2, Prod.ext h1 rfl, sim_wf _ _ h2 hwfe, h2.1.trans hsze, ?_⟩
  intro i hi
  obtain ⟨v, hv, hv2⟩ := hval i hi
  refine ⟨wrap64 v, ?_, ?_⟩
  · rw [query64_sim t t (table_sim_refl t) i, hv]
    rfl
  · rw [query64_sim _ te h2 i, hv2, wrap64_add_left]
    rfl

end FenwickTree

namespace FenwickTree

theorem reset_sim (t t2 : FenwickTree) (h : Sim t t2) : Sim t.reset t2.reset := by
  refine ⟨h.1, ?_⟩
  have hl := congrArg List.length h.2
  simp only [List.length_map] at hl
  have e : ∀ l : List Int, l.map (fun _ => (0 : Int)) = List.replicate l.length 0 := by
    intro l
    induction l with
    | nil => rfl
    | cons a l ih => simp [List.replicate_succ, ih]
  show (t.tree.map (fun _ => (0 : Int))).map wrap64 = (t2.tree.map (fun _ => (0 : Int))).map wrap64
  rw [e, e, hl]

end FenwickTree

namespace UMap

/-- Lookups in two maps with the same keys and tables that agree modulo `2^64`. -/
theorem find_sim (m m2 : UMap FenwickTree)
    (h : List.Forall₂ (fun p q => p.1 = q.1 ∧ FenwickTree.Sim p.2 q.2) m m2) (k : String) :
    (find m k = none ∧ find m2 k = none) ∨
      ∃ t t2, find m k = some t ∧ find m2 k = some t2 ∧ FenwickTree.Sim t t2 := by
  induction h with
  | nil => exact Or.inl ⟨rfl, rfl⟩
  | @cons p q l l2 hpq _ ih =>
    obtain ⟨a, t⟩ := p
    obtain ⟨b, t2⟩ := q
    obtain ⟨hab, hs⟩ := hpq
    simp only at hab hs
    subst hab
    by_cases hak : a = k
    · right
      exact ⟨t, t2, by simp [find, hak], by simp [find, hak], hs⟩
    · simp only [find, hak, if_false]
      exact ih

theorem modify_sim (m m2 : UMap FenwickTree)
    (h : List.Forall₂ (fun p q => p.1 = q.1 ∧ FenwickTree.Sim p.2 q.2) m m2) (k : String)
    (a b : FenwickTree) (hab : FenwickTree.Sim a b) :
    List.Forall₂ (fun p q => p.1 = q.1 ∧ FenwickTree.Sim p.2 q.2)
      (modify m k (fun _ => a)) (modify m2 k (fun _ => b)) := by
  induction h with
  | nil => exact List.Forall₂.nil
  | @cons p q l l2 hpq hrest ih =>
    obtain ⟨x, t⟩ := p
    obtain ⟨y, t2⟩ := q
    obtain ⟨hxy, hs⟩ := hpq
    simp only at hxy hs
    subst hxy
    by_cases hxk : x = k
    · simp only [modify, hxk, if_true]
      exact List.Forall₂.cons ⟨rfl, hab⟩ hrest
    · simp only [modify, hxk, if_false]
      exact List.Forall₂.cons ⟨rfl, hs⟩ ih

theorem map_reset_sim (m m2 : UMap FenwickTree)
    (h : List.Forall₂ (fun p q => p.1 = q.1 ∧ FenwickTree.Sim p.2 q.2) m m2) :
    List.Forall₂ (fun p q => p.1 = q.1 ∧ FenwickTree.Sim p.2 q.2)
      (m.map (fun p => (p.1, p.2.reset))) (m2.map (fun p => (p.1, p.2.reset))) := by
  induction h with
  | nil => exact List.Forall₂.nil
  | @cons p q l l2 hpq _ ih =>
    exact List.Forall₂.cons ⟨hpq.1, FenwickTree.reset_sim _ _ hpq.2⟩ ih

end UMap

namespace VoteManager

theorem registry_sim_refl (vm : VoteManager) : Sim vm vm :=
  ⟨List.forall₂_same.mpr (fun p _ => ⟨rfl, FenwickTree.table_sim_refl p.2⟩), rfl, rfl, rfl, rfl⟩

/-- `addVotes64` and `addVotes` succeed or fail together and keep the registries in
agreement modulo `2^64`. -/
theorem addVotes64_sim (vm vm2 : VoteManager) (h : Sim vm vm2) (d c : String) (v : Int)
    (unit ts : String) :
    (vm.addVotes64 d c v unit ts).1 = (vm2.addVotes d c v unit ts).1 ∧
      Sim (vm.addVotes64 d c v unit ts).2 (vm2.addVotes d c v unit ts).2 := by
  obtain ⟨h1, h2, h3, h4, h5⟩ := h
  rcases UMap.find_sim _ _ h1 d with ⟨e1, e2⟩ | ⟨t, t2, e1, e2, hs⟩
  · have r1 : vm.addVotes64 d c v unit ts =
        (.error (.runtime_error ("District not found: " ++ d)), vm) := by
      simp only [addVotes64, e1]
    have r2 : vm2.addVotes d c v unit ts =
        (.error (.runtime_error ("District not found: " ++ d)), vm2) := by
      simp only [addVotes, e2]
    rw [r1, r2]
    exact ⟨rfl, h1, h2, h3, h4, h5⟩
  · cases hi : vm2.candidateIndices.find d with
    | none =>
      have hi1 : vm.candidateIndices.find d = none := by rw [h2]; exact hi
      have r1 : vm.addVotes64 d c v unit ts =
          (.error (.runtime_error ("No candidates assigned to district: " ++ d)), vm) := by
        simp only [addVotes64, e1, hi1]
      have r2 : vm2.addVotes d c v unit ts =
          (.error (.runtime_error ("No candidates assigned to district: " ++ d)), vm2) := by
        simp only [addVotes, e2, hi]
      rw [r1, r2]
      exact ⟨rfl, h1, h2, h3, h4, h5⟩
    | some indices =>
      have hi1 : vm.candidateIndices.find d = some indices := by rw [h2]; exact hi
      cases hsl : indices.find c with
      | none =>
        have r1 : vm.addVotes64 d c v unit ts =
            (.error (.runtime_error
              ("Candidate not found in district: " ++ c ++ " in " ++ d)), vm) := by
          simp only [addVotes64, e1, hi1, hsl]
        have r2 : vm2.addVotes d c v unit ts =
            (.error (.runtime_error
              ("Candidate not found in district: " ++ c ++ " in " ++ d)), vm2) := by
          simp only [addVotes, e2, hi, hsl]
        rw [r1, r2]
        exact ⟨rfl, h1, h2, h3, h4, h5⟩
      | some s =>
        obtain ⟨u1, u2⟩ := FenwickTree.update64_sim t t2 hs s v
        rcases hu2 : t2.update s v with ⟨res2, s2⟩
        rcases hu : t.update64 s v with ⟨res, s1⟩
        rw [hu, hu2] at u1 u2
        simp only at u1 u2
        subst u1
        cases res with
        | error e =>
          have r1 : vm.addVotes64 d c v unit ts =
              (.error e, { vm with
                districtTrees := vm.districtTrees.modify d (fun _ => s1) }) := by
            simp only [addVotes64, e1, hi1, hsl, hu]
          have r2 : vm2.addVotes d c v unit ts =
              (.error e, { vm2 with
                districtTrees := vm2.districtTrees.modify d (fun _ => s2) }) := by
            simp only [addVotes, e2, hi, hsl, hu2]
          rw [r1, r2]
          exact ⟨rfl, UMap.modify_sim _ _ h1 d s1 s2 u2, h2, h3, h4, h5⟩
        | ok w =>
          have r1 : vm.addVotes64 d c v unit ts =
              (.ok (), { vm with
                districtTrees := vm.districtTrees.modify d (fun _ => s1)
                voteHistory := vm.voteHistory ++
                  [{ districtId := d, candidateId := c, voteCount := v,
                     precinctId := unit, timestamp := ts }] }) := by
            simp only [addVotes64, e1, hi1, hsl, hu]
          have r2 : vm2.addVotes d c v unit ts =
              (.ok (), { vm2 with
                districtTrees := vm2.districtTrees.modify d (fun _ => s2)
                voteHistory := vm2.voteHistory ++
                  [{ districtId := d, candidateId := c, voteCount := v,
                     precinctId := unit, timestamp := ts }] }) := by
            simp only [addVotes, e2, hi, hsl, hu2]
          rw [r1, r2]
          refine ⟨rfl, UMap.modify_sim _ _ h1 d s1 s2 u2, h2, h3, h4, ?_⟩
          show vm.voteHistory ++ _ = vm2.voteHistory ++ _
          rw [h5]

/-- `getCandidateVotes64` returns the wrapped result of `getCandidateVotes`. -/
theorem getCandidateVotes64_sim (vm vm2 : VoteManager) (h : Sim vm vm2) (d c : String) :
    vm.getCandidateVotes64 d c = Except.map wrap64 (vm2.getCandidateVotes d c) := by
  obtain ⟨h1, h2, _, _, _⟩ := h
  rcases UMap.find_sim _ _ h1 d with ⟨e1, e2⟩ | ⟨t, t2, e1, e2, hs⟩
  · simp only [getCandidateVotes64, getCandidateVotes, e1, e2]
    rfl
  · cases hi : vm2.candidateIndices.find d with
    | none =>
      simp only [getCandidateVotes64, getCandidateVotes, e1, e2, h2, hi]
      rfl
    | some indices =>
      cases hsl : indices.find c with
      | none =>
        simp only [getCandidateVotes64, getCandidateVotes, e1, e2, h2, hi, hsl]
        rfl
      | some s =>
        simp only [getCandidateVotes64, getCandidateVotes, e1, e2, h2, hi, hsl]
        exact FenwickTree.getValue64_sim t t2 hs s

/-- `getDistrictTotalVotes64` returns the wrapped result of `getDistrictTotalVotes`. -/
theorem getDistrictTotalVotes64_sim (vm vm2 : VoteManager) (h : Sim vm vm2) (d : String) :
    vm.getDistrictTotalVotes64 d = Except.map wrap64 (vm2.getDistrictTotalVotes d) := by
  obtain ⟨h1, _, _, _, _⟩ := h
  rcases UMap.find_sim _ _ h1 d with ⟨e1, e2⟩ | ⟨t, t2, e1, e2, hs⟩
  · simp only [getDistrictTotalVotes64, getDistrictTotalVotes, e1, e2]
    rfl
  · simp only [getDistrictTotalVotes64, getDistrictTotalVotes, e1, e2, FenwickTree.getSize,
      hs.1]
    exact FenwickTree.query64_sim t t2 hs t2.size

theorem resetVotes_sim (vm vm2 : VoteManager) (h : Sim vm vm2) :
    Sim vm.resetVotes vm2.resetVotes := by
  obtain ⟨h1, h2, h3, h4, _⟩ := h
  exact ⟨UMap.map_reset_sim _ _ h1, h2, h3, h4, rfl⟩

/-- The loop of `getCandidateTotalVotes64`: the wrapped sum of the counts, started from an
`int64_t`. -/
theorem totalLoop64_eq (vm : VoteManager) (c : String) :
    ∀ (ds : List District) (total : Int), wrap64 total = total →
      totalLoop64 vm c ds total =
        Except.map (fun vs => wrap64 (total + vs.sum))
          (ds.mapM (fun d => vm.getCandidateVotes64 d.id c)) := by
  intro ds
  induction ds with
  | nil =>
    intro total ht
    simp only [totalLoop64, List.mapM_nil]
    show Except.ok total = Except.ok (wrap64 (total + 0))
    rw [add_zero, ht]
  | cons d ds ih =>
    intro total _
    simp only [totalLoop64, List.mapM_cons]
    cases h : vm.getCandidateVotes64 d.id c with
    | error e => rfl
    | ok votes =>
      simp only [bind, Except.bind]
      rw [ih _ (wrap64_idem _)]
      cases ds.mapM (fun d => vm.getCandidateVotes64 d.id c) with
      | error e => rfl
      | ok vs =>
        show Except.ok _ = Except.ok _
        simp only [pure, Except.pure, Except.map, List.sum_cons]
        rw [wrap64_add_left, add_assoc]

end VoteManager

namespace ElectionSystem

theorem coordinator_sim_refl (es : ElectionSystem) : Sim es es :=
  ⟨VoteManager.registry_sim_refl es.voteManager, rfl, rfl, rfl⟩

/-- `processVoteUpdate64` and `processVoteUpdate` give the same answer and keep the
coordinators in agreement modulo `2^64`. -/
theorem processVoteUpdate64_sim (es es2 : ElectionSystem) (h : Sim es es2) (dn cn : String)
    (v : Int) (unit ts : String) :
    (es.processVoteUpdate64 dn cn v unit ts).1 = (es2.processVoteUpdate dn cn v unit ts).1 ∧
      Sim (es.processVoteUpdate64 dn cn v unit ts).2 (es2.processVoteUpdate dn cn v unit ts).2 := by
  obtain ⟨hvm, hn, hd, ha⟩ := h
  have hds : es.voteManager.districts = es2.voteManager.districts := hvm.2.2.1
  have hcs : es.voteManager.candidates = es2.voteManager.candidates := hvm.2.2.2.1
  by_cases hact : (!es2.isActive) = true
  · have hact1 : (!es.isActive) = true := by rw [ha]; exact hact
    have r1 : es.processVoteUpdate64 dn cn v unit ts = (.ok false, es) := by
      simp only [processVoteUpdate64, hact1, if_true]
    have r2 : es2.processVoteUpdate dn cn v unit ts = (.ok false, es2) := by
      simp only [processVoteUpdate, hact, if_true]
    rw [r1, r2]
    exact ⟨rfl, hvm, hn, hd, ha⟩
  · have hact1 : ¬ (!es.isActive) = true := by rw [ha]; exact hact
    cases hfd : es2.voteManager.districts.find? (fun d => d.name == dn) with
    | none =>
      have hfd1 : es.voteManager.districts.find? (fun d => d.name == dn) = none := by
        rw [hds]; exact hfd
      have r1 : es.processVoteUpdate64 dn cn v unit ts = (.ok false, es) := by
        simp only [processVoteUpdate64, hact1, if_false, Bool.false_eq_true, VoteManager.getDistricts, hfd1]
      have r2 : es2.processVoteUpdate dn cn v unit ts = (.ok false, es2) := by
        simp only [processVoteUpdate, hact, if_false, Bool.false_eq_true, VoteManager.getDistricts, hfd]
      rw [r1, r2]
      exact ⟨rfl, hvm, hn, hd, ha⟩
    | some district =>
      have hfd1 : es.voteManager.districts.find? (fun d => d.name == dn) = some district := by
        rw [hds]; exact hfd
      cases hfc : es2.voteManager.candidates.find? (fun c => c.name == cn) with
      | none =>
        have hfc1 : es.voteManager.candidates.find? (fun c => c.name == cn) = none := by
          rw [hcs]; exact hfc
        have r1 : es.processVoteUpdate64 dn cn v unit ts = (.ok false, es) := by
          simp only [processVoteUpdate64, hact1, if_false, Bool.false_eq_true, VoteManager.getDistricts, hfd1,
            VoteManager.getCandidates, hfc1]
        have r2 : es2.processVoteUpdate dn cn v unit ts = (.ok false, es2) := by
          simp only [processVoteUpdate, hact, if_false, Bool.false_eq_true, VoteManager.getDistricts, hfd,
            VoteManager.getCandidates, hfc]
        rw [r1, r2]
        exact ⟨rfl, hvm, hn, hd, ha⟩
      | some candidate =>
        have hfc1 : es.voteManager.candidates.find? (fun c => c.name == cn) =
            some candidate := by
          rw [hcs]; exact hfc
        obtain ⟨a1, a2⟩ := VoteManager.addVotes64_sim es.voteManager es2.voteManager hvm
          district.id candidate.id v unit ts
        rcases hu2 : es2.voteManager.addVotes district.id candidate.id v unit ts with
          ⟨res2, s2⟩
        rcases hu : es.voteManager.addVotes64 district.id candidate.id v unit ts with
          ⟨res, s1⟩
        rw [hu, hu2] at a1 a2
        simp only at a1 a2
        subst a1
        cases res with
        | ok w =>
          have r1 : es.processVoteUpdate64 dn cn v unit ts =
              (.ok true, { es with voteManager := s1 }) := by
            simp only [processVoteUpdate64, hact1, if_false, Bool.false_eq_true,
              VoteManager.getDistricts, hfd1, VoteManager.getCandidates, hfc1, hu]
          have r2 : es2.processVoteUpdate dn cn v unit ts =
              (.ok true, { es2 with voteManager := s2 }) := by
            simp only [processVoteUpdate, hact, if_false, Bool.false_eq_true,
              VoteManager.getDistricts, hfd, VoteManager.getCandidates, hfc, hu2]
          rw [r1, r2]
          exact ⟨rfl, a2, hn, hd, ha⟩
        | error e =>
          cases e with
          | loop_budget =>
            have r1 : es.processVoteUpdate64 dn cn v unit ts =
                (.error .loop_budget, { es with voteManager := s1 }) := by
              simp only [processVoteUpdate64, hact1, if_false, Bool.false_eq_true,
                VoteManager.getDistricts, hfd1, VoteManager.getCandidates, hfc1, hu]
            have r2 : es2.processVoteUpdate dn cn v unit ts =
                (.error .loop_budget, { es2 with voteManager := s2 }) := by
              simp only [processVoteUpdate, hact, if_false, Bool.false_eq_true,
                VoteManager.getDistricts, hfd, VoteManager.getCandidates, hfc, hu2]
            rw [r1, r2]
            exact ⟨rfl, a2, hn, hd, ha⟩
          | invalid_argument m =>
            have r1 : es.processVoteUpdate64 dn cn v unit ts =
                (.ok false, { es with voteManager := s1 }) := by
              simp only [processVoteUpdate64, hact1, if_false, Bool.false_eq_true,
                VoteManager.getDistricts, hfd1, VoteManager.getCandidates, hfc1, hu]
            have r2 : es2.processVoteUpdate dn cn v unit ts =
                (.ok false, { es2 with voteManager := s2 }) := by
              simp only [processVoteUpdate, hact, if_false, Bool.false_eq_true,
                VoteManager.getDistricts, hfd, VoteManager.getCandidates, hfc, hu2]
            rw [r1, r2]
            exact ⟨rfl, a2, hn, hd, ha⟩
          | out_of_range m =>
            have r1 : es.processVoteUpdate64 dn cn v unit ts =
                (.ok false, { es with voteManager := s1 }) := by
              simp only [processVoteUpdate64, hact1, if_false, Bool.false_eq_true,
                VoteManager.getDistricts, hfd1, VoteManager.getCandidates, hfc1, hu]
            have r2 : es2.processVoteUpdate dn cn v unit ts =
                (.ok false, { es2 with voteManager := s2 }) := by
              simp only [processVoteUpdate, hact, if_false, Bool.false_eq_true,
                VoteManager.getDistricts, hfd, VoteManager.getCandidates, hfc, hu2]
            rw [r1, r2]
            exact ⟨rfl, a2, hn, hd, ha⟩
          | runtime_error m =>
            have r1 : es.processVoteUpdate64 dn cn v unit ts =
                (.ok false, { es with voteManager := s1 }) := by
              simp only [processVoteUpdate64, hact1, if_false, Bool.false_eq_true,
                VoteManager.getDistricts, hfd1, VoteManager.getCandidates, hfc1, hu]
            have r2 : es2.processVoteUpdate dn cn v unit ts =
                (.ok false, { es2 with voteManager := s2 }) := by
              simp only [processVoteUpdate, hact, if_false, Bool.false_eq_true,
                VoteManager.getDistricts, hfd, VoteManager.getCandidates, hfc, hu2]
            rw [r1, r2]
            exact ⟨rfl, a2, hn, hd, ha⟩

theorem step64_sim (es es2 : ElectionSystem) (h : Sim es es2) (op : Op) :
    Sim (es.step64 op) (es2.step op) := by
  cases op with
  | setElectionStatus active => exact ⟨h.1, h.2.1, h.2.2.1, rfl⟩
  | processVoteUpdate dn cn v unit ts =>
    exact (processVoteUpdate64_sim es es2 h dn cn v unit ts).2
  | resetElection =>
    exact ⟨VoteManager.resetVotes_sim _ _ h.1, h.2.1, h.2.2.1, h.2.2.2⟩

/-- The coordinator that counts in `int64_t` and the one that counts exactly stay in
agreement modulo `2^64` over every sequence of calls. -/
theorem run64_sim :
    ∀ (ops : List Op) (es es2 : ElectionSystem), Sim es es2 → Sim (es.run64 ops) (es2.run ops) := by
  intro ops
  induction ops with
  | nil => intro es es2 h; exact h
  | cons op ops ih =>
    intro es es2 h
    exact ih _ _ (step64_sim es es2 h op)

end ElectionSystem

/-! ## Lemmas: sums and point values with exact integers -/

/-- With exact integers: on a table constructed with size `n ≥ 1`, after any sequence of
valid updates, `getValue(i)` is the sum of the deltas applied exactly at index `i`, and a
further valid update at another index leaves it unchanged. -/
theorem getValue_after_updates_exact (n : Nat) (hn : 1 ≤ n) (us : List (Nat × Int))
    (hus : ∀ u ∈ us, 1 ≤ u.1 ∧ u.1 ≤ n) (i : Nat) (hi1 : 1 ≤ i) (hi2 : i ≤ n) :
    ∃ t0 t, FenwickTree.construct n = .ok t0 ∧ FenwickTree.applyUpdates t0 us = .ok t ∧
      t.getValue i = .ok (FenwickTree.deltaSum (fun k => decide (k = i)) us) ∧
      ∀ (j : Nat) (delta : Int), 1 ≤ j → j ≤ n → j ≠ i →
        ∃ t2, t.update j delta = (.ok (), t2) ∧ t2.getValue i = t.getValue i := by
  obtain ⟨t, e, wf, sz, q⟩ := FenwickTree.applyUpdates_query us
    { tree := List.replicate (n + 1) 0, size := n } (by simp [FenwickTree.WF]) hus
  have sz2 : t.size = n := sz
  refine ⟨_, t, FenwickTree.construct_ok n hn, e, ?_, ?_⟩
  · obtain ⟨a, qa, qa2⟩ := q i hi2
    obtain ⟨b, qb, qb2⟩ := q (i - 1) (by show i - 1 ≤ n; omega)
    rw [FenwickTree.query_zero (n + 1) n i hi2] at qa
    rw [FenwickTree.query_zero (n + 1) n (i - 1) (by omega)] at qb
    injection qa with qa
    injection qb with qb
    rw [← qa, zero_add] at qa2
    rw [← qb, zero_add] at qb2
    rw [FenwickTree.getValue_of_query t i _ _ hi1 (by omega) qa2 qb2,
      FenwickTree.deltaSum_le_sub i hi1]
  · intro j delta hj1 hj2 hji
    obtain ⟨t2, e2, _, _, g⟩ := FenwickTree.update_getValue t wf j delta hj1 (by omega)
    obtain ⟨v, gv, gv2⟩ := g i hi1 (by omega)
    refine ⟨t2, e2, ?_⟩
    rw [gv2, gv, if_neg hji, add_zero]

/-- With exact integers: `addVotes(d, c, delta, unit, ts)` on a slot within the table
succeeds, raises `getCandidateVotes(d, c)` by `delta` and leaves the counts of the other
districts and of the other slots of `d` unchanged. -/
theorem addVotes_point_update_exact (vm : VoteManager) (d c : String) (delta : Int)
    (unit ts : String) (tree : FenwickTree) (indices : UMap Nat) (s : Nat)
    (ht : vm.districtTrees.find d = some tree) (hwf : tree.WF)
    (hi : vm.candidateIndices.find d = some indices) (hs : indices.find c = some s)
    (hs1 : 1 ≤ s) (hs2 : s ≤ tree.size) :
    ∃ vm2, vm.addVotes d c delta unit ts = (.ok (), vm2) ∧
      (∃ v, vm.getCandidateVotes d c = .ok v ∧ vm2.getCandidateVotes d c = .ok (v + delta)) ∧
      (∀ d2 c2, d2 ≠ d → vm2.getCandidateVotes d2 c2 = vm.getCandidateVotes d2 c2) ∧
      (∀ c2, indices.find c2 ≠ some s →
        vm2.getCandidateVotes d c2 = vm.getCandidateVotes d c2) := by
  obtain ⟨tree2, e, _, sz, g⟩ := FenwickTree.update_getValue tree hwf s delta hs1 hs2
  obtain ⟨tree3, e3, _, _, hadd⟩ :=
    VoteManager.addVotes_ok vm d c delta unit ts tree indices s ht hwf hi hs hs1 hs2
  rw [e] at e3
  injection e3 with _ e3
  subst e3
  refine ⟨_, hadd, ?_, ?_, ?_⟩
  · obtain ⟨v, gv, gv2⟩ := g s hs1 hs2
    refine ⟨v, ?_, ?_⟩
    · simp only [VoteManager.getCandidateVotes, ht, hi, hs, gv]
    · simp only [VoteManager.getCandidateVotes, UMap.find_modify, ht, hi, hs, if_true,
        Option.map_some', gv2]
  · intro d2 c2 hd
    simp only [VoteManager.getCandidateVotes, UMap.find_modify, if_neg hd]
  · intro c2 hc2
    simp only [VoteManager.getCandidateVotes, UMap.find_modify, ht, hi, if_true,
      Option.map_some']
    cases hf : indices.find c2 with
    | none => rfl
    | some s2 =>
      have hne : s ≠ s2 := by
        intro h
        apply hc2
        rw [hf, h]
      show tree2.getValue s2 = tree.getValue s2
      by_cases hr : 1 ≤ s2 ∧ s2 ≤ tree.size
      · obtain ⟨v, gv, gv2⟩ := g s2 hr.1 hr.2
        rw [gv2, gv, if_neg hne, add_zero]
      · have c1 : s2 = 0 ∨ s2 > tree.size := by omega
        have c2 : s2 = 0 ∨ s2 > tree2.size := by rw [sz]; exact c1
        simp only [FenwickTree.getValue, if_pos c1, if_pos c2]

/-- With exact integers: `rangeQuery(l, r)` is `query(r) - query(l - 1)`, and on the table
that valid updates made of `construct n` it is the sum of the deltas applied in `l..r`. -/
theorem rangeQuery_after_updates_exact (n : Nat) (hn : 1 ≤ n) (us : List (Nat × Int))
    (hus : ∀ u ∈ us, 1 ≤ u.1 ∧ u.1 ≤ n) (l r : Nat) (h1 : 1 ≤ l) (h2 : l ≤ r)
    (h3 : r ≤ n) :
    (∀ t : FenwickTree, t.size = n →
      ∃ a b, t.query r = .ok a ∧ t.query (l - 1) = .ok b ∧ t.rangeQuery l r = .ok (a - b)) ∧
    ∃ t0 t, FenwickTree.construct n = .ok t0 ∧ FenwickTree.applyUpdates t0 us = .ok t ∧
      t.rangeQuery l r = .ok (FenwickTree.deltaSum (fun k => decide (l ≤ k ∧ k ≤ r)) us) := by
  refine ⟨?_, ?_⟩
  · intro t ht
    obtain ⟨a, qa⟩ := FenwickTree.query_ok t r (by omega)
    obtain ⟨b, qb⟩ := FenwickTree.query_ok t (l - 1) (by omega)
    exact ⟨a, b, qa, qb,
      FenwickTree.rangeQuery_of_query t l r a b h1 h2 (by omega) qa qb⟩
  · obtain ⟨t, e, _, sz, q⟩ := FenwickTree.applyUpdates_query us
      { tree := List.replicate (n + 1) 0, size := n } (by simp [FenwickTree.WF]) hus
    have sz2 : t.size = n := sz
    refine ⟨_, t, FenwickTree.construct_ok n hn, e, ?_⟩
    obtain ⟨a, qa, qa2⟩ := q r h3
    obtain ⟨b, qb, qb2⟩ := q (l - 1) (by show l - 1 ≤ n; omega)
    rw [FenwickTree.query_zero (n + 1) n r h3] at qa
    rw [FenwickTree.query_zero (n + 1) n (l - 1) (by omega)] at qb
    injection qa with qa
    injection qb with qb
    rw [← qa, zero_add] at qa2
    rw [← qb, zero_add] at qb2
    rw [FenwickTree.rangeQuery_of_query t l r _ _ h1 h2 (by omega) qa2 qb2,
      FenwickTree.deltaSum_range_sub l r h1 h2]

/-! ## Lemmas: a sort that keeps ties, keys of an index map -/

namespace VoteManager

end VoteManager

namespace UMap

/-- The keys under which a map holds a value are the first components of its entries. -/
theorem find_some_iff_mem {V : Type} (m : UMap V) (k : String) :
    (∃ v, find m k = some v) ↔ k ∈ m.map Prod.fst := by
  induction m with
  | nil => simp [find]
  | cons p m ih =>
    obtain ⟨a, w⟩ := p
    by_cases hak : a = k
    · simp [find, hak]
    · simp only [find, hak, if_false, List.map_cons, List.mem_cons]
      rw [ih]
      constructor
      · intro h; exact Or.inr h
      · intro h
        rcases h with h | h
        · exact absurd h.symm hak
        · exact h

end UMap

/-! ## The claims -/

/-- C1: on a table constructed with size `n ≥ 1`, after any sequence of updates at indices
`1 ≤ i_k ≤ n` (every one of which succeeds), `query(i)` succeeds for every `0 ≤ i ≤ n` and
returns the sum of the deltas applied at indices `≤ i`; `query(n)` is the sum of all deltas. -/
theorem C1_query_after_updates (n : Nat) (hn : 1 ≤ n) (us : List (Nat × Int))
    (hus : ∀ u ∈ us, 1 ≤ u.1 ∧ u.1 ≤ n) :
    ∃ t0 t, FenwickTree.construct n = .ok t0 ∧ FenwickTree.applyUpdates t0 us = .ok t ∧
      (∀ i, i ≤ n →
        t.query i = .ok (FenwickTree.deltaSum (fun k => decide (k ≤ i)) us)) ∧
      t.query n = .ok ((us.map (fun u => u.2)).sum) := by
  have hq : ∀ i, i ≤ n → ∃ t, FenwickTree.applyUpdates
      { tree := List.replicate (n + 1) 0, size := n } us = .ok t ∧
      t.query i = .ok (FenwickTree.deltaSum (fun k => decide (k ≤ i)) us) := by
    intro i hi
    obtain ⟨t, e, _, _, q⟩ := FenwickTree.applyUpdates_query us
      { tree := List.replicate (n + 1) 0, size := n } (by simp [FenwickTree.WF]) hus
    obtain ⟨v, hv, hv2⟩ := q i hi
    rw [FenwickTree.query_zero (n + 1) n i hi] at hv
    injection hv with hv
    refine ⟨t, e, ?_⟩
    rw [hv2, ← hv, zero_add]
  obtain ⟨t, e, qn⟩ := hq n (le_refl n)
  refine ⟨_, t, FenwickTree.construct_ok n hn, e, ?_, ?_⟩
  · intro i hi
    obtain ⟨t1, e1, q1⟩ := hq i hi
    rw [e] at e1
    injection e1 with e1
    rw [e1]
    exact q1
  · rw [qn, FenwickTree.deltaSum_all]
    intro u hu
    simpa using (hus u hu).2

theorem C1_query_after_updates_witness :
    ∃ t0 t, FenwickTree.construct 4 = .ok t0 ∧
      FenwickTree.applyUpdates t0 [(1, 5), (3, 2), (1, -1), (4, 7)] = .ok t ∧
      (∀ i, i ≤ 4 → t.query i = .ok (FenwickTree.deltaSum (fun k => decide (k ≤ i))
        [(1, 5), (3, 2), (1, -1), (4, 7)])) ∧
      t.query 4 = .ok (([(1, 5), (3, 2), (1, -1), (4, 7)] : List (Nat × Int)).map
        (fun u => u.2)).sum :=
  C1_query_after_updates 4 (by decide) [(1, 5), (3, 2), (1, -1), (4, 7)] (by decide)

/-- C2, as the code has it: on a table constructed with size `n ≥ 1` and its `n + 1` cells
(`n + 1` a `size_t`), after any sequence of valid updates, `getValue(i)` succeeds for every `1 ≤ i ≤ n` and returns the sum of the deltas
applied exactly at index `i` brought into the range of `int64_t` by wraparound, hence that sum
itself whenever it lies in `-2^63 .. 2^63 - 1`; a further valid update at another index
`j ≠ i` succeeds and leaves `getValue(i)` unchanged. -/
theorem C2_getValue_wraps (n : Nat) (hn : 1 ≤ n)
    (hcells : n + 1 < 18446744073709551616) (us : List (Nat × Int))
    (hus : ∀ u ∈ us, 1 ≤ u.1 ∧ u.1 ≤ n) (i : Nat) (hi1 : 1 ≤ i) (hi2 : i ≤ n) :
    ∃ t0 t, FenwickTree.construct64 n = .ok t0 ∧ FenwickTree.applyUpdates64 t0 us = .ok t ∧
      t.getValue64 i = .ok (wrap64 (FenwickTree.deltaSum (fun k => decide (k = i)) us)) ∧
      (-9223372036854775808 ≤ FenwickTree.deltaSum (fun k => decide (k = i)) us →
        FenwickTree.deltaSum (fun k => decide (k = i)) us < 9223372036854775808 →
        t.getValue64 i = .ok (FenwickTree.deltaSum (fun k => decide (k = i)) us)) ∧
      ∀ (j : Nat) (delta : Int), 1 ≤ j → j ≤ n → j ≠ i →
        ∃ t2, t.update64 j delta = (.ok (), t2) ∧ t2.getValue64 i = t.getValue64 i := by
  obtain ⟨t0, te, hc, he, hv, hfr⟩ := getValue_after_updates_exact n hn us hus i hi1 hi2
  obtain ⟨g1, _⟩ := FenwickTree.applyUpdates64_sim us t0 t0 (FenwickTree.table_sim_refl t0)
  obtain ⟨t, ht, hs⟩ := g1 te he
  have hval : t.getValue64 i =
      .ok (wrap64 (FenwickTree.deltaSum (fun k => decide (k = i)) us)) := by
    rw [FenwickTree.getValue64_sim t te hs i, hv]
    rfl
  refine ⟨t0, t, (FenwickTree.construct64_eq n hcells).trans hc, ht, hval, ?_, ?_⟩
  · intro h1 h2
    rw [hval, wrap64_of_range _ h1 h2]
  · intro j delta hj1 hj2 hji
    obtain ⟨te2, hu, hg⟩ := hfr j delta hj1 hj2 hji
    obtain ⟨u1, u2⟩ := FenwickTree.update64_sim t te hs j delta
    rw [hu] at u1 u2
    refine ⟨(t.update64 j delta).2, Prod.ext u1 rfl, ?_⟩
    rw [FenwickTree.getValue64_sim _ te2 u2 i, hg, ← FenwickTree.getValue64_sim t te hs i]

/-- C2 fails as stated: on a fresh table of size 2, after `update(1, 2^63 - 1)` and
`update(1, 1)` the deltas applied at index 1 sum to `2^63`, and `getValue(1)` returns
`-2^63`. -/
theorem C2_getValue_counterexample :
    FenwickTree.construct64 2 = .ok { tree := [0, 0, 0], size := 2 } ∧
      FenwickTree.applyUpdates64 { tree := [0, 0, 0], size := 2 }
          [(1, 9223372036854775807), (1, 1)] =
        .ok { tree := [0, (-9223372036854775808), (-9223372036854775808)], size := 2 } ∧
      FenwickTree.getValue64
          { tree := [0, (-9223372036854775808), (-9223372036854775808)], size := 2 } 1 =
        .ok ((-9223372036854775808)) ∧
      FenwickTree.deltaSum (fun k => decide (k = 1)) [(1, 9223372036854775807), (1, 1)] =
        9223372036854775808 := by
  decide

theorem C2_getValue_wraps_witness :
    ∃ t0 t, FenwickTree.construct64 4 = .ok t0 ∧
      FenwickTree.applyUpdates64 t0 [(1, 5), (3, 2), (1, -1), (4, 7)] = .ok t ∧
      t.getValue64 1 = .ok (wrap64 (FenwickTree.deltaSum (fun k => decide (k = 1))
        [(1, 5), (3, 2), (1, -1), (4, 7)])) ∧
      (-9223372036854775808 ≤ FenwickTree.deltaSum (fun k => decide (k = 1))
          [(1, 5), (3, 2), (1, -1), (4, 7)] →
        FenwickTree.deltaSum (fun k => decide (k = 1)) [(1, 5), (3, 2), (1, -1), (4, 7)] <
          9223372036854775808 →
        t.getValue64 1 = .ok (FenwickTree.deltaSum (fun k => decide (k = 1))
          [(1, 5), (3, 2), (1, -1), (4, 7)])) ∧
      ∀ (j : Nat) (delta : Int), 1 ≤ j → j ≤ 4 → j ≠ 1 →
        ∃ t2, t.update64 j delta = (.ok (), t2) ∧ t2.getValue64 1 = t.getValue64 1 :=
  C2_getValue_wraps 4 (by decide) (by decide) [(1, 5), (3, 2), (1, -1), (4, 7)] (by decide) 1
    (by decide) (by decide)

/-- C3, as the code has it: when district `d` has a (well-formed) table and candidate `c`
holds slot `s` in `d` with `1 ≤ s ≤ size`, `addVotes(d, c, delta, unit, ts)` succeeds,
`getCandidateVotes(d, c)` afterwards is its previous value plus `delta` brought into the range
of `int64_t` by wraparound, hence the previous value plus `delta` itself whenever that lies in
`-2^63 .. 2^63 - 1`, and `getCandidateVotes(d2, c2)` is unchanged for every `d2 ≠ d` and for
every `c2` whose slot in `d` is not `s`. -/
theorem C3_addVotes_point_update_wraps (vm : VoteManager) (d c : String) (delta : Int)
    (unit ts : String) (tree : FenwickTree) (indices : UMap Nat) (s : Nat)
    (ht : vm.districtTrees.find d = some tree) (hwf : tree.WF)
    (hi : vm.candidateIndices.find d = some indices) (hs : indices.find c = some s)
    (hs1 : 1 ≤ s) (hs2 : s ≤ tree.size) :
    ∃ vm2, vm.addVotes64 d c delta unit ts = (.ok (), vm2) ∧
      (∃ v, vm.getCandidateVotes64 d c = .ok v ∧
        vm2.getCandidateVotes64 d c = .ok (wrap64 (v + delta)) ∧
        (-9223372036854775808 ≤ v + delta → v + delta < 9223372036854775808 →
          vm2.getCandidateVotes64 d c = .ok (v + delta))) ∧
      (∀ d2 c2, d2 ≠ d → vm2.getCandidateVotes64 d2 c2 = vm.getCandidateVotes64 d2 c2) ∧
      (∀ c2, indices.find c2 ≠ some s →
        vm2.getCandidateVotes64 d c2 = vm.getCandidateVotes64 d c2) := by
  obtain ⟨vme, hadd, ⟨v, hv, hv2⟩, hf1, hf2⟩ :=
    addVotes_point_update_exact vm d c delta unit ts tree indices s ht hwf hi hs hs1 hs2
  obtain ⟨a1, a2⟩ := VoteManager.addVotes64_sim vm vm (VoteManager.registry_sim_refl vm) d c delta
    unit ts
  rw [hadd] at a1 a2
  have hnew : (vm.addVotes64 d c delta unit ts).2.getCandidateVotes64 d c =
      .ok (wrap64 (wrap64 v + delta)) := by
    rw [VoteManager.getCandidateVotes64_sim _ vme a2 d c, hv2, wrap64_add_left]
    rfl
  refine ⟨(vm.addVotes64 d c delta unit ts).2, Prod.ext a1 rfl, ⟨wrap64 v, ?_, hnew, ?_⟩,
    ?_, ?_⟩
  · rw [VoteManager.getCandidateVotes64_sim vm vm (VoteManager.registry_sim_refl vm) d c, hv]
    rfl
  · intro k1 k2
    rw [hnew, wrap64_of_range _ k1 k2]
  · intro d2 c2 hd
    rw [VoteManager.getCandidateVotes64_sim _ vme a2 d2 c2, hf1 d2 c2 hd,
      ← VoteManager.getCandidateVotes64_sim vm vm (VoteManager.registry_sim_refl vm) d2 c2]
  · intro c2 hc2
    rw [VoteManager.getCandidateVotes64_sim _ vme a2 d c2, hf2 c2 hc2,
      ← VoteManager.getCandidateVotes64_sim vm vm (VoteManager.registry_sim_refl vm) d c2]

/-- C3 fails as stated: in `saturatedManager` the first candidate has `2^63 - 1` votes in the
first district; `addVotes` with one more vote succeeds, and the count afterwards is `-2^63`,
not `2^63`. -/
theorem C3_addVotes_counterexample :
    ElectionSystem.saturatedManager.getCandidateVotes64 "D1" "C1" = .ok 9223372036854775807 ∧
      (ElectionSystem.saturatedManager.addVotes64 "D1" "C1" 1 "P002"
        "Mon Jan  1 10:01:00 2024").1 = .ok () ∧
      (ElectionSystem.saturatedManager.addVotes64 "D1" "C1" 1 "P002"
        "Mon Jan  1 10:01:00 2024").2.getCandidateVotes64 "D1" "C1" = .ok (-9223372036854775808) := by
  decide

theorem C3_addVotes_point_update_wraps_witness :
    ∃ vm2, ElectionSystem.demoManager.addVotes64 "D1" "C2" 5 "P005" "Mon Jan  1 10:04:00 2024"
        = (.ok (), vm2) ∧
      (∃ v, ElectionSystem.demoManager.getCandidateVotes64 "D1" "C2" = .ok v ∧
        vm2.getCandidateVotes64 "D1" "C2" = .ok (wrap64 (v + 5)) ∧
        (-9223372036854775808 ≤ v + 5 → v + 5 < 9223372036854775808 → vm2.getCandidateVotes64 "D1" "C2" = .ok (v + 5))) ∧
      (∀ d2 c2, d2 ≠ "D1" →
        vm2.getCandidateVotes64 d2 c2 = ElectionSystem.demoManager.getCandidateVotes64 d2 c2) ∧
      (∀ c2, UMap.find [("C1", 1), ("C2", 2)] c2 ≠ some 2 →
        vm2.getCandidateVotes64 "D1" c2 =
          ElectionSystem.demoManager.getCandidateVotes64 "D1" c2) :=
  C3_addVotes_point_update_wraps ElectionSystem.demoManager "D1" "C2" 5 "P005"
    "Mon Jan  1 10:04:00 2024" { tree := [0, 100, 175], size := 2 } [("C1", 1), ("C2", 2)] 2
    (by decide) (by decide) (by decide) (by decide) (by decide) (by decide)

/-- C4: a successful `addVotes(d, c, delta, unit, ts)` turns the vote history `h` into
`h ++ [(d, c, delta, unit, ts)]`; a failing `addVotes`, `addDistrict` (failing or not),
`addCandidate` and `assignCandidateToDistrict` (failing or not) leave the history as it is.
The queries do not change the registry at all. -/
theorem C4_history_append_only (vm : VoteManager) :
    (∀ d c delta unit ts vm2, vm.addVotes d c delta unit ts = (.ok (), vm2) →
      vm2.voteHistory = vm.voteHistory ++
        [{ districtId := d, candidateId := c, voteCount := delta, precinctId := unit,
           timestamp := ts }]) ∧
    (∀ d c delta unit ts e vm2, vm.addVotes d c delta unit ts = (.error e, vm2) →
      vm2.voteHistory = vm.voteHistory) ∧
    (∀ district, (vm.addDistrict district).2.voteHistory = vm.voteHistory) ∧
    (∀ candidate, (vm.addCandidate candidate).voteHistory = vm.voteHistory) ∧
    (∀ d c, (vm.assignCandidateToDistrict d c).2.voteHistory = vm.voteHistory) := by
  refine ⟨?_, ?_, ?_, ?_, ?_⟩
  · intro d c delta unit ts vm2 h
    unfold VoteManager.addVotes at h
    repeat' split at h
    all_goals simp only [Prod.mk.injEq, reduceCtorEq, false_and] at h
    obtain ⟨_, h⟩ := h
    rw [← h]
  · intro d c delta unit ts e vm2 h
    unfold VoteManager.addVotes at h
    repeat' split at h
    all_goals simp only [Prod.mk.injEq, reduceCtorEq, false_and] at h
    all_goals obtain ⟨_, h⟩ := h
    all_goals rw [← h]
  · intro district
    unfold VoteManager.addDistrict
    split <;> rfl
  · intro candidate
    rfl
  · intro d c
    unfold VoteManager.assignCandidateToDistrict
    repeat' split
    all_goals rfl

theorem C4_history_append_only_witness :
    (ElectionSystem.demoManager.addVotes "D1" "C2" 5 "P005" "Mon Jan  1 10:04:00 2024").2.voteHistory
      = ElectionSystem.demoManager.voteHistory ++
        [{ districtId := "D1", candidateId := "C2", voteCount := 5, precinctId := "P005",
           timestamp := "Mon Jan  1 10:04:00 2024" }] :=
  (C4_history_append_only ElectionSystem.demoManager).1 "D1" "C2" 5 "P005"
    "Mon Jan  1 10:04:00 2024" _ (by decide)

/-- C5, as the code has it: `getCandidateTotalVotes(c)` adds up, over the district catalog in
order, the counts `getCandidateVotes(district.id, c)` in `int64_t` (and fails with the first
district whose count fails); when every district's count is returned, it returns the sum of
the returned counts brought into the range of `int64_t` by wraparound, hence that sum itself
whenever it lies in `-2^63 .. 2^63 - 1`. -/
theorem C5_candidate_total_wraps (vm : VoteManager) (c : String) :
    vm.getCandidateTotalVotes64 c =
        Except.map (fun vs => wrap64 vs.sum)
          (vm.districts.mapM (fun d => vm.getCandidateVotes64 d.id c)) ∧
      ∀ f : District → Int, (∀ d ∈ vm.districts, vm.getCandidateVotes64 d.id c = .ok (f d)) →
        vm.getCandidateTotalVotes64 c = .ok (wrap64 ((vm.districts.map f).sum)) ∧
        (-9223372036854775808 ≤ (vm.districts.map f).sum → (vm.districts.map f).sum < 9223372036854775808 →
          vm.getCandidateTotalVotes64 c = .ok ((vm.districts.map f).sum)) := by
  have h : vm.getCandidateTotalVotes64 c =
      Except.map (fun vs => wrap64 vs.sum)
        (vm.districts.mapM (fun d => vm.getCandidateVotes64 d.id c)) := by
    unfold VoteManager.getCandidateTotalVotes64
    rw [VoteManager.totalLoop64_eq vm c vm.districts 0 wrap64_zero]
    congr 1
    funext vs
    rw [zero_add]
  refine ⟨h, ?_⟩
  intro f hf
  have hval : vm.getCandidateTotalVotes64 c = .ok (wrap64 ((vm.districts.map f).sum)) := by
    rw [h, mapM_ok _ f _ hf]
    rfl
  refine ⟨hval, ?_⟩
  intro k1 k2
  rw [hval, wrap64_of_range _ k1 k2]

/-- C5 fails as stated: in `halvesManager` the first candidate has `2^62` votes in each of
the two districts, which add up to `2^63`, and `getCandidateTotalVotes` returns `-2^63`. -/
theorem C5_candidate_total_counterexample :
    ElectionSystem.halvesManager.getCandidateVotes64 "D1" "C1" = .ok 4611686018427387904 ∧
      ElectionSystem.halvesManager.getCandidateVotes64 "D2" "C1" = .ok 4611686018427387904 ∧
      ElectionSystem.halvesManager.districts.map (fun d => d.id) = ["D1", "D2"] ∧
      ElectionSystem.halvesManager.getCandidateTotalVotes64 "C1" = .ok (-9223372036854775808) := by
  decide

theorem C5_candidate_total_wraps_witness :
    ElectionSystem.demoManager.getCandidateTotalVotes64 "C1" =
      .ok (wrap64 ((ElectionSystem.demoManager.districts.map
        (fun d => if d.id = "D1" then (100 : Int) else 80)).sum)) :=
  ((C5_candidate_total_wraps ElectionSystem.demoManager "C1").2
    (fun d => if d.id = "D1" then 100 else 80) (by decide)).1

/-- C6, as the code has it: for a district `d` with a (well-formed) table,
`getDistrictTotalVotes(d)` is `query(size)` of that table; every `getValue(s)` for a slot in
`1..size` is returned, and the total is the sum of these values brought into the range of
`int64_t` by wraparound; when the slots of the catalog candidates in `d` are `1..size`, each
exactly once, every `getCandidateVotes(d, c)` is returned and the total is the wrapped sum of
these counts over the catalog candidates. -/
theorem C6_district_total_wraps (vm : VoteManager) (d : String) (tree : FenwickTree)
    (ht : vm.districtTrees.find d = some tree) (hwf : tree.WF) :
    vm.getDistrictTotalVotes64 d = tree.query64 tree.size ∧
      (∃ f : Nat → Int, (∀ s, 1 ≤ s → s ≤ tree.size → tree.getValue64 s = .ok (f s)) ∧
        vm.getDistrictTotalVotes64 d =
          .ok (wrap64 (((List.range' 1 tree.size).map f).sum))) ∧
      ∀ indices, vm.candidateIndices.find d = some indices →
        (vm.candidates.map (fun c => indices.find c.id)).Perm
          ((List.range' 1 tree.size).map some) →
        ∃ g : Candidate → Int,
          (∀ c ∈ vm.candidates, vm.getCandidateVotes64 d c.id = .ok (g c)) ∧
          vm.getDistrictTotalVotes64 d = .ok (wrap64 ((vm.candidates.map g).sum)) := by
  have _ := hwf
  have h1 : vm.getDistrictTotalVotes64 d = tree.query64 tree.size := by
    simp only [VoteManager.getDistrictTotalVotes64, ht, FenwickTree.getSize]
  let q : Nat → Int := tree.queryValue
  have hq : ∀ i, i ≤ tree.size → tree.query i = .ok (q i) := by
    intro i hi
    obtain ⟨v, hv⟩ := FenwickTree.query_ok tree i hi
    show tree.query i = .ok (tree.queryValue i)
    rw [FenwickTree.queryValue, hv]
  have hq0 : q 0 = 0 := by
    show tree.queryValue 0 = 0
    simp [FenwickTree.queryValue, FenwickTree.query]
  have hg : ∀ s, 1 ≤ s → s ≤ tree.size →
      tree.getValue64 s = .ok (wrap64 (q s - q (s - 1))) := by
    intro s hs1 hs2
    rw [FenwickTree.getValue64_sim tree tree (FenwickTree.table_sim_refl tree) s,
      FenwickTree.getValue_of_query tree s _ _ hs1 hs2 (hq s hs2) (hq (s - 1) (by omega))]
    rfl
  have htot : vm.getDistrictTotalVotes64 d =
      .ok (wrap64 (((List.range' 1 tree.size).map (fun s => q s - q (s - 1))).sum)) := by
    rw [h1, FenwickTree.query64_sim tree tree (FenwickTree.table_sim_refl tree) tree.size,
      hq tree.size (le_refl _), sum_range_diff q tree.size, hq0, sub_zero]
    rfl
  refine ⟨h1, ⟨fun s => wrap64 (q s - q (s - 1)), hg, ?_⟩, ?_⟩
  · rw [htot, ← wrap64_sum_map, List.map_map]
    rfl
  · intro indices hi hperm
    refine ⟨fun c => wrap64 ((fun o : Option Nat => q (o.getD 0) - q (o.getD 0 - 1))
      (indices.find c.id)), ?_, ?_⟩
    · intro c hc
      have hmem : indices.find c.id ∈ (List.range' 1 tree.size).map some :=
        hperm.mem_iff.mp (List.mem_map_of_mem _ hc)
      rw [List.mem_map] at hmem
      obtain ⟨s, hs, hfs⟩ := hmem
      rw [List.mem_range'_1] at hs
      simp only [VoteManager.getCandidateVotes64, ht, hi, ← hfs, Option.getD_some]
      exact hg s hs.1 (by omega)
    · have hp := (hperm.map (fun o : Option Nat => q (o.getD 0) - q (o.getD 0 - 1))).sum_eq
      rw [List.map_map, List.map_map] at hp
      have hsum : ((List.range' 1 tree.size).map (fun s => q s - q (s - 1))).sum =
          (vm.candidates.map ((fun o : Option Nat => q (o.getD 0) - q (o.getD 0 - 1)) ∘
            (fun c => indices.find c.id))).sum := hp.symm
      rw [htot, hsum, ← wrap64_sum_map, List.map_map]
      rfl

/-- C6 fails as stated: in `skewedManager` the table of the first district holds the cells
`[0, 2^63 - 1, -2]`; `getDistrictTotalVotes` returns `-2`, while `getValue(1)` and
`getValue(2)`, and the counts of the two candidates, are `2^63 - 1` each, which add up to
`2^64 - 2`. -/
theorem C6_district_total_counterexample :
    ElectionSystem.skewedManager.districtTrees.find "D1" =
        some { tree := [0, 9223372036854775807, -2], size := 2 } ∧
      ElectionSystem.skewedManager.getDistrictTotalVotes64 "D1" = .ok (-2) ∧
      FenwickTree.getValue64 { tree := [0, 9223372036854775807, -2], size := 2 } 1 = .ok 9223372036854775807 ∧
      FenwickTree.getValue64 { tree := [0, 9223372036854775807, -2], size := 2 } 2 = .ok 9223372036854775807 ∧
      ElectionSystem.skewedManager.getCandidateVotes64 "D1" "C1" = .ok 9223372036854775807 ∧
      ElectionSystem.skewedManager.getCandidateVotes64 "D1" "C2" = .ok 9223372036854775807 := by
  decide

theorem C6_district_total_wraps_witness :
    ElectionSystem.demoManager.getDistrictTotalVotes64 "D1" =
        FenwickTree.query64 { tree := [0, 100, 175], size := 2 } 2 ∧
      (∃ f : Nat → Int,
        (∀ s, 1 ≤ s → s ≤ 2 →
          FenwickTree.getValue64 { tree := [0, 100, 175], size := 2 } s = .ok (f s)) ∧
        ElectionSystem.demoManager.getDistrictTotalVotes64 "D1" =
          .ok (wrap64 (((List.range' 1 2).map f).sum))) ∧
      ∀ indices, ElectionSystem.demoManager.candidateIndices.find "D1" = some indices →
        (ElectionSystem.demoManager.candidates.map (fun c => indices.find c.id)).Perm
          ((List.range' 1 2).map some) →
        ∃ g : Candidate → Int,
          (∀ c ∈ ElectionSystem.demoManager.candidates,
            ElectionSystem.demoManager.getCandidateVotes64 "D1" c.id = .ok (g c)) ∧
          ElectionSystem.demoManager.getDistrictTotalVotes64 "D1" =
            .ok (wrap64 ((ElectionSystem.demoManager.candidates.map g).sum)) :=
  C6_district_total_wraps ElectionSystem.demoManager "D1" { tree := [0, 100, 175], size := 2 }
    (by decide) (by decide)

/-- C9: for a known district `d`: when the candidate catalog is non-empty and every candidate
has zero votes in `d`, `getDistrictLeader(d)` returns the id of the first candidate of the
catalog; when the catalog is empty it returns the empty string. -/
theorem C9_district_leader_zero_votes (vm : VoteManager) (d : String) (tree : FenwickTree)
    (indices : UMap Nat)
    (ht : vm.districtTrees.find d = some tree) (hi : vm.candidateIndices.find d = some indices) :
    (∀ first rest, vm.candidates = first :: rest →
      (∀ c ∈ vm.candidates, vm.getCandidateVotes d c.id = .ok 0) →
      vm.getDistrictLeader d = .ok first.id) ∧
    (vm.candidates = [] → vm.getDistrictLeader d = .ok "") := by
  have h : vm.getDistrictLeader d =
      VoteManager.leaderLoop (fun c => vm.getCandidateVotes d c) vm.candidates "" (-1) := by
    simp only [VoteManager.getDistrictLeader, ht, hi]
  refine ⟨?_, ?_⟩
  · intro first rest hcat hzero
    obtain ⟨pre, L, post, hsplit, hres, _, hpre⟩ :=
      VoteManager.leaderLoop_nonneg (fun c => vm.getCandidateVotes d c) (fun _ => 0)
        vm.candidates (by rw [hcat]; simp) hzero (by intro _ _; exact le_refl _)
    cases pre with
    | nil =>
      rw [hcat] at hsplit
      injection hsplit with h1 _
      rw [h, hres, h1]
    | cons x xs =>
      exact absurd (hpre x (List.mem_cons_self _ _)) (lt_irrefl _)
  · intro hcat
    rw [h, hcat]
    rfl

theorem C9_district_leader_zero_votes_witness :
    ElectionSystem.demoSystem.voteManager.getDistrictLeader "D2" = .ok "C1" :=
  (C9_district_leader_zero_votes ElectionSystem.demoSystem.voteManager "D2"
    { tree := [0, 0, 0], size := 2 } [("C1", 1), ("C2", 2)] (by decide) (by decide)).1
    { name := "Candidate 1", party := "Party A", id := "C1" }
    [{ name := "Candidate 2", party := "Party B", id := "C2" }] (by decide) (by decide)

/-- C10, as the code has it: in every state reached from a freshly constructed coordinator
by one successful `setupElection` with at least one candidate and any sequence of
`setElectionStatus`, `processVoteUpdate` and `resetElection` calls, `processVoteUpdate`
returns a boolean, which is `true` exactly when the election is active, the district name is
the name of some catalog district and the candidate name is the name of some catalog
candidate; and when it is `true`, the two names resolve to the first catalog entries bearing
them, exactly one record (resolved district id, resolved candidate id, `v`, unit, timestamp)
is appended to the history and `getCandidateVotes` of the resolved pair becomes its previous
value plus `v` brought into the range of `int64_t` by wraparound, hence the previous value
plus `v` itself whenever that lies in `-2^63 .. 2^63 - 1`. -/
theorem C10_processVoteUpdate_wraps (name date : String)
    (districtNames candidateNames partyNames : List String) (es0 : ElectionSystem)
    (hsetup : (ElectionSystem.construct name date).setupElection districtNames candidateNames
      partyNames = (.ok (), es0))
    (hk : 1 ≤ candidateNames.length) (ops : List ElectionSystem.Op)
    (dn cn : String) (v : Int) (unit ts : String) :
    ∃ b es2, (es0.run64 ops).processVoteUpdate64 dn cn v unit ts = (.ok b, es2) ∧
      (b = true ↔ ((es0.run64 ops).isActive = true ∧
        (∃ d ∈ (es0.run64 ops).voteManager.districts, d.name = dn) ∧
        (∃ c ∈ (es0.run64 ops).voteManager.candidates, c.name = cn))) ∧
      (b = true → ∃ d c,
        (es0.run64 ops).voteManager.districts.find? (fun x => x.name == dn) = some d ∧
        (es0.run64 ops).voteManager.candidates.find? (fun x => x.name == cn) = some c ∧
        es2.voteManager.voteHistory = (es0.run64 ops).voteManager.voteHistory ++
          [{ districtId := d.id, candidateId := c.id, voteCount := v, precinctId := unit,
             timestamp := ts }] ∧
        ∃ old, (es0.run64 ops).voteManager.getCandidateVotes64 d.id c.id = .ok old ∧
          es2.voteManager.getCandidateVotes64 d.id c.id = .ok (wrap64 (old + v)) ∧
          (-9223372036854775808 ≤ old + v → old + v < 9223372036854775808 →
            es2.voteManager.getCandidateVotes64 d.id c.id = .ok (old + v))) := by
  have hlen : candidateNames.length = partyNames.length := by
    by_contra hne
    simp [ElectionSystem.setupElection, hne] at hsetup
  obtain ⟨vm, e, _, _, _, hconf⟩ :=
    ElectionSystem.setupElection_spec name date districtNames candidateNames partyNames hlen hk
  rw [e] at hsetup
  injection hsetup with _ hes
  have hc0 : es0.voteManager.Configured candidateNames.length := by rw [← hes]; exact hconf
  obtain ⟨hc, _, _⟩ := ElectionSystem.run_configured candidateNames.length ops es0 hc0
  have hsim := ElectionSystem.run64_sim ops es0 es0 (ElectionSystem.coordinator_sim_refl es0)
  obtain ⟨⟨_, _, hds, hcs, hhs⟩, _, _, hact64⟩ := hsim
  obtain ⟨p1, p2⟩ := ElectionSystem.processVoteUpdate64_sim (es0.run64 ops) (es0.run ops)
    (ElectionSystem.run64_sim ops es0 es0 (ElectionSystem.coordinator_sim_refl es0)) dn cn v unit ts
  rcases ElectionSystem.processVoteUpdate_cases (es0.run ops) candidateNames.length hc dn cn v
      unit ts with ⟨e1, hnot⟩ | ⟨d, c, vm2, hact, hd, hcand, _, e1, _, _, _, hhist, old, ho1, ho2⟩
  · rw [e1] at p1
    refine ⟨false, ((es0.run64 ops).processVoteUpdate64 dn cn v unit ts).2, Prod.ext p1 rfl,
      ?_, ?_⟩
    · constructor
      · intro h; cases h
      · intro h
        rw [hact64, hds, hcs] at h
        exact absurd h hnot
    · intro h; cases h
  · rw [e1] at p1 p2
    have hcount : ((es0.run64 ops).processVoteUpdate64 dn cn v unit ts).2.voteManager.getCandidateVotes64
        d.id c.id = .ok (wrap64 (wrap64 old + v)) := by
      rw [VoteManager.getCandidateVotes64_sim _ vm2 p2.1 d.id c.id, ho2, wrap64_add_left]
      rfl
    refine ⟨true, ((es0.run64 ops).processVoteUpdate64 dn cn v unit ts).2, Prod.ext p1 rfl,
      ?_, ?_⟩
    · constructor
      · intro _
        rw [hact64, hds, hcs]
        refine ⟨hact, ⟨d, List.mem_of_find?_eq_some hd, ?_⟩,
          ⟨c, List.mem_of_find?_eq_some hcand, ?_⟩⟩
        · simpa using List.find?_some hd
        · simpa using List.find?_some hcand
      · intro _; rfl
    · intro _
      refine ⟨d, c, by rw [hds]; exact hd, by rw [hcs]; exact hcand, ?_, wrap64 old, ?_,
        hcount, ?_⟩
      · rw [p2.1.2.2.2.2, hhs]
        exact hhist
      · rw [VoteManager.getCandidateVotes64_sim _ _
          (ElectionSystem.run64_sim ops es0 es0 (ElectionSystem.coordinator_sim_refl es0)).1 d.id c.id, ho1]
        rfl
      · intro k1 k2
        rw [hcount, wrap64_of_range _ k1 k2]

/-- C10 fails as stated: in the coordinator that `demoSystem` becomes when the election is
started and `2^63 - 1` votes are processed for the first candidate in the first district,
`processVoteUpdate` with one more vote returns `true`, and the count of the pair goes from
`2^63 - 1` to `-2^63`. -/
theorem C10_processVoteUpdate_counterexample :
    (ElectionSystem.demoSystem.run64
        [.setElectionStatus true,
         .processVoteUpdate "District A" "Candidate 1" 9223372036854775807 "P001"
           "Mon Jan  1 10:00:00 2024"]).voteManager.getCandidateVotes64 "D1" "C1" =
        .ok 9223372036854775807 ∧
      ((ElectionSystem.demoSystem.run64
        [.setElectionStatus true,
         .processVoteUpdate "District A" "Candidate 1" 9223372036854775807 "P001"
           "Mon Jan  1 10:00:00 2024"]).processVoteUpdate64 "District A" "Candidate 1" 1 "P002"
        "Mon Jan  1 10:01:00 2024").1 = .ok true ∧
      ((ElectionSystem.demoSystem.run64
        [.setElectionStatus true,
         .processVoteUpdate "District A" "Candidate 1" 9223372036854775807 "P001"
           "Mon Jan  1 10:00:00 2024"]).processVoteUpdate64 "District A" "Candidate 1" 1 "P002"
        "Mon Jan  1 10:01:00 2024").2.voteManager.getCandidateVotes64 "D1" "C1" =
        .ok (-9223372036854775808) := by
  decide

theorem C10_processVoteUpdate_wraps_witness :
    ∃ b es2, (ElectionSystem.demoSystem.run64 [.setElectionStatus true]).processVoteUpdate64
        "District A" "Candidate 2" 75 "P002" "Mon Jan  1 10:01:00 2024" = (.ok b, es2) ∧
      (b = true ↔ ((ElectionSystem.demoSystem.run64 [.setElectionStatus true]).isActive = true ∧
        (∃ d ∈ (ElectionSystem.demoSystem.run64 [.setElectionStatus true]).voteManager.districts,
          d.name = "District A") ∧
        (∃ c ∈ (ElectionSystem.demoSystem.run64 [.setElectionStatus true]).voteManager.candidates,
          c.name = "Candidate 2"))) ∧
      (b = true → ∃ d c,
        (ElectionSystem.demoSystem.run64 [.setElectionStatus true]).voteManager.districts.find?
          (fun x => x.name == "District A") = some d ∧
        (ElectionSystem.demoSystem.run64 [.setElectionStatus true]).voteManager.candidates.find?
          (fun x => x.name == "Candidate 2") = some c ∧
        es2.voteManager.voteHistory =
          (ElectionSystem.demoSystem.run64 [.setElectionStatus true]).voteManager.voteHistory ++
          [{ districtId := d.id, candidateId := c.id, voteCount := 75, precinctId := "P002",
             timestamp := "Mon Jan  1 10:01:00 2024" }] ∧
        ∃ old, (ElectionSystem.demoSystem.run64
            [.setElectionStatus true]).voteManager.getCandidateVotes64 d.id c.id = .ok old ∧
          es2.voteManager.getCandidateVotes64 d.id c.id = .ok (wrap64 (old + 75)) ∧
          (-9223372036854775808 ≤ old + 75 → old + 75 < 9223372036854775808 →
            es2.voteManager.getCandidateVotes64 d.id c.id = .ok (old + 75))) :=
  C10_processVoteUpdate_wraps "Test Election" "2024-01-01"
    ["District A", "District B"] ["Candidate 1", "Candidate 2"] ["Party A", "Party B"]
    ElectionSystem.demoSystem (by decide) (by decide) [.setElectionStatus true]
    "District A" "Candidate 2" 75 "P002" "Mon Jan  1 10:01:00 2024"

/-- C11: on a coordinator whose active flag is false, `processVoteUpdate` returns `false` for
all arguments and leaves the coordinator, hence the registry with its history and tallies,
exactly as it was. -/
theorem C11_inactive_rejects (es : ElectionSystem) (hin : es.isActive = false)
    (dn cn : String) (v : Int) (unit ts : String) :
    es.processVoteUpdate dn cn v unit ts = (.ok false, es) ∧
      (es.processVoteUpdate dn cn v unit ts).2.voteManager = es.voteManager := by
  have h : es.processVoteUpdate dn cn v unit ts = (.ok false, es) := by
    simp [ElectionSystem.processVoteUpdate, hin]
  exact ⟨h, by rw [h]⟩

theorem C11_inactive_rejects_witness :
    (ElectionSystem.construct "Edge Case Test" "2024-01-01").processVoteUpdate "District A"
        "Candidate 1" 100 "P001" "Mon Jan  1 10:00:00 2024" =
        (.ok false, ElectionSystem.construct "Edge Case Test" "2024-01-01") ∧
      ((ElectionSystem.construct "Edge Case Test" "2024-01-01").processVoteUpdate "District A"
        "Candidate 1" 100 "P001" "Mon Jan  1 10:00:00 2024").2.voteManager =
        (ElectionSystem.construct "Edge Case Test" "2024-01-01").voteManager :=
  C11_inactive_rejects (ElectionSystem.construct "Edge Case Test" "2024-01-01") rfl
    "District A" "Candidate 1" 100 "P001" "Mon Jan  1 10:00:00 2024"

/-- C12: on an active coordinator, when the district name is the name of no catalog district
or the candidate name is the name of no catalog candidate (names compared as they are, case
included), `processVoteUpdate` returns `false` and leaves the coordinator as it was: the
history has the same length and every count is the same. -/
theorem C12_unknown_name_rejects (es : ElectionSystem) (hact : es.isActive = true)
    (dn cn : String) (v : Int) (unit ts : String)
    (hmiss : (∀ d ∈ es.voteManager.districts, d.name ≠ dn) ∨
      (∀ c ∈ es.voteManager.candidates, c.name ≠ cn)) :
    es.processVoteUpdate dn cn v unit ts = (.ok false, es) ∧
      (es.processVoteUpdate dn cn v unit ts).2.voteManager.voteHistory.length =
        es.voteManager.voteHistory.length ∧
      ∀ d c, (es.processVoteUpdate dn cn v unit ts).2.voteManager.getCandidateVotes d c =
        es.voteManager.getCandidateVotes d c := by
  have _ := hact
  have h : es.processVoteUpdate dn cn v unit ts = (.ok false, es) := by
    rcases ElectionSystem.processVoteUpdate_total es dn cn v unit ts with
      ⟨d, c, vm2, _, hd, hc, _, _⟩ | h
    · exfalso
      rcases hmiss with hm | hm
      · exact hm d (List.mem_of_find?_eq_some hd) (by simpa using List.find?_some hd)
      · exact hm c (List.mem_of_find?_eq_some hc) (by simpa using List.find?_some hc)
    · exact h
  refine ⟨h, by rw [h], ?_⟩
  intro d c
  rw [h]

theorem C12_unknown_name_rejects_witness :
    (ElectionSystem.demoSystem.setElectionStatus true).processVoteUpdate "Invalid District"
        "Candidate 1" 100 "P001" "Mon Jan  1 10:00:00 2024" =
        (.ok false, ElectionSystem.demoSystem.setElectionStatus true) ∧
      ((ElectionSystem.demoSystem.setElectionStatus true).processVoteUpdate "Invalid District"
        "Candidate 1" 100 "P001" "Mon Jan  1 10:00:00 2024").2.voteManager.voteHistory.length =
        (ElectionSystem.demoSystem.setElectionStatus true).voteManager.voteHistory.length ∧
      ∀ d c, ((ElectionSystem.demoSystem.setElectionStatus true).processVoteUpdate
        "Invalid District" "Candidate 1" 100 "P001"
        "Mon Jan  1 10:00:00 2024").2.voteManager.getCandidateVotes d c =
        (ElectionSystem.demoSystem.setElectionStatus true).voteManager.getCandidateVotes d c :=
  C12_unknown_name_rejects (ElectionSystem.demoSystem.setElectionStatus true) rfl
    "Invalid District" "Candidate 1" 100 "P001" "Mon Jan  1 10:00:00 2024"
    (Or.inl (by decide))

/-- C13: in every coordinator state, so in every state that any sequence of public calls
(repeated `setupElection` included) leads to, and for all arguments, `processVoteUpdate`
returns a boolean and no error: `true` is returned only when the coordinator is active, both
names resolve and `addVotes` on the resolved ids succeeded, so every failure raised by the
registry or the table gives `false`; and whenever `false` is returned the coordinator, with
its tallies and history, is exactly as it was. -/
theorem C13_processVoteUpdate_never_throws (es : ElectionSystem) (dn cn : String) (v : Int)
    (unit ts : String) :
    ∃ b es2, es.processVoteUpdate dn cn v unit ts = (.ok b, es2) ∧
      (b = false → es2 = es) ∧
      (b = true → es.isActive = true ∧ ∃ d c,
        es.voteManager.districts.find? (fun x => x.name == dn) = some d ∧
        es.voteManager.candidates.find? (fun x => x.name == cn) = some c ∧
        es.voteManager.addVotes d.id c.id v unit ts = (.ok (), es2.voteManager)) := by
  rcases ElectionSystem.processVoteUpdate_total es dn cn v unit ts with
    ⟨d, c, vm2, hact, hd, hc, hadd, h⟩ | h
  · refine ⟨true, _, h, ?_, ?_⟩
    · intro hb; cases hb
    · intro _
      exact ⟨hact, d, c, hd, hc, hadd⟩
  · refine ⟨false, es, h, fun _ => rfl, ?_⟩
    intro hb; cases hb

theorem C13_processVoteUpdate_never_throws_witness :
    ∃ b es2, ElectionSystem.twiceSetupSystem.processVoteUpdate "North" "Ann" 5 "P001"
        "Mon Jan  1 10:00:00 2024" = (.ok b, es2) ∧
      (b = false → es2 = ElectionSystem.twiceSetupSystem) ∧
      (b = true → ElectionSystem.twiceSetupSystem.isActive = true ∧ ∃ d c,
        ElectionSystem.twiceSetupSystem.voteManager.districts.find?
          (fun x => x.name == "North") = some d ∧
        ElectionSystem.twiceSetupSystem.voteManager.candidates.find?
          (fun x => x.name == "Ann") = some c ∧
        ElectionSystem.twiceSetupSystem.voteManager.addVotes d.id c.id 5 "P001"
          "Mon Jan  1 10:00:00 2024" = (.ok (), es2.voteManager)) :=
  C13_processVoteUpdate_never_throws ElectionSystem.twiceSetupSystem "North" "Ann" 5 "P001"
    "Mon Jan  1 10:00:00 2024"

/-- C14, as the code has it: after `resetVotes()` (which is all that `resetElection()` does,
the active flag staying as it is) the history is empty, the two catalogs, the slot assignments
and the size of every table are unchanged, `getDistrictTotalVotes` returns 0 for every
district, `getCandidateVotes(d, c)` returns 0 for every pair whose slot, if there is one, lies
within the table of `d`, and `getCandidateTotalVotes(c)` returns 0 when that holds for `c` in
every catalog district. -/
theorem C14_reset_zeroes_counts (es : ElectionSystem) :
    es.resetElection.voteManager = es.voteManager.resetVotes ∧
      es.resetElection.isActive = es.isActive ∧
      es.voteManager.resetVotes.voteHistory = [] ∧
      es.voteManager.resetVotes.districts = es.voteManager.districts ∧
      es.voteManager.resetVotes.candidates = es.voteManager.candidates ∧
      es.voteManager.resetVotes.candidateIndices = es.voteManager.candidateIndices ∧
      (∀ d, (es.voteManager.resetVotes.districtTrees.find d).map (fun t => t.size) =
        (es.voteManager.districtTrees.find d).map (fun t => t.size)) ∧
      (∀ d, es.voteManager.resetVotes.getDistrictTotalVotes d = .ok 0) ∧
      (∀ d c, es.voteManager.SlotInRange d c →
        es.voteManager.resetVotes.getCandidateVotes d c = .ok 0) ∧
      (∀ c, (∀ d ∈ es.voteManager.districts, es.voteManager.SlotInRange d.id c) →
        es.voteManager.resetVotes.getCandidateTotalVotes c = .ok 0) := by
  refine ⟨rfl, rfl, rfl, rfl, rfl, rfl, ?_, ?_, ?_, ?_⟩
  · intro d
    have hfind : es.voteManager.resetVotes.districtTrees.find d =
        (es.voteManager.districtTrees.find d).map FenwickTree.reset :=
      UMap.find_map_values es.voteManager.districtTrees d FenwickTree.reset
    rw [hfind]
    cases es.voteManager.districtTrees.find d <;> rfl
  · exact VoteManager.getDistrictTotalVotes_resetVotes es.voteManager
  · exact VoteManager.getCandidateVotes_resetVotes es.voteManager
  · intro c h
    unfold VoteManager.getCandidateTotalVotes
    exact VoteManager.totalLoop_zero _ c _ 0
      (fun d hd => VoteManager.getCandidateVotes_resetVotes es.voteManager d.id c (h d hd))

/-- C14 fails as stated: in a registry built by public calls in which a candidate holds slot 2
of a table of size 1, `getCandidateVotes` and `getCandidateTotalVotes` of that candidate do
not return 0 after `resetVotes()`: they fail with `out_of_range`. -/
theorem C14_reset_counterexample :
    VoteManager.overfullManager.resetVotes.getCandidateVotes "D1" "C2" ≠ .ok 0 ∧
      VoteManager.overfullManager.resetVotes.getCandidateVotes "D1" "C2" =
        .error (.out_of_range "Index out of range for Fenwick Tree getValue") ∧
      VoteManager.overfullManager.resetVotes.getCandidateTotalVotes "C2" =
        .error (.out_of_range "Index out of range for Fenwick Tree getValue") := by
  decide

theorem C14_reset_zeroes_counts_witness :
    ElectionSystem.demoManager.resetVotes.getCandidateTotalVotes "C1" = .ok 0 :=
  (C14_reset_zeroes_counts
    { ElectionSystem.demoSystem with voteManager := ElectionSystem.demoManager }
    ).2.2.2.2.2.2.2.2.2 "C1" (by decide)

/-- C15: `addVotes(d, c, delta, unit, ts)` throws the `runtime_error` "District not found"
when `d` has no table, and a `runtime_error` for the unassigned candidate when `d` has a table
but no index map ("No candidates assigned to district") or an index map without `c`
("Candidate not found in district"); in each case the registry is left as it was, so no cell
changes and no record is appended. -/
theorem C15_addVotes_lookup_failures (vm : VoteManager) (d c : String) (delta : Int)
    (unit ts : String) :
    (vm.districtTrees.find d = none →
      vm.addVotes d c delta unit ts =
        (.error (.runtime_error ("District not found: " ++ d)), vm)) ∧
    (∀ tree, vm.districtTrees.find d = some tree →
      (vm.candidateIndices.find d = none →
        vm.addVotes d c delta unit ts =
          (.error (.runtime_error ("No candidates assigned to district: " ++ d)), vm)) ∧
      (∀ indices, vm.candidateIndices.find d = some indices → indices.find c = none →
        vm.addVotes d c delta unit ts =
          (.error (.runtime_error
            ("Candidate not found in district: " ++ c ++ " in " ++ d)), vm))) := by
  refine ⟨?_, ?_⟩
  · intro ht
    simp only [VoteManager.addVotes, ht]
  · intro tree ht
    refine ⟨?_, ?_⟩
    · intro hi
      simp only [VoteManager.addVotes, ht, hi]
    · intro indices hi hs
      simp only [VoteManager.addVotes, ht, hi, hs]

theorem C15_addVotes_lookup_failures_witness :
    ElectionSystem.demoManager.addVotes "D9" "C1" 5 "P001" "Mon Jan  1 10:00:00 2024" =
        (.error (.runtime_error "District not found: D9"), ElectionSystem.demoManager) ∧
      ElectionSystem.demoManager.addVotes "D1" "C9" 5 "P001" "Mon Jan  1 10:00:00 2024" =
        (.error (.runtime_error "Candidate not found in district: C9 in D1"),
          ElectionSystem.demoManager) :=
  ⟨(C15_addVotes_lookup_failures ElectionSystem.demoManager "D9" "C1" 5 "P001"
      "Mon Jan  1 10:00:00 2024").1 (by decide),
   ((C15_addVotes_lookup_failures ElectionSystem.demoManager "D1" "C9" 5 "P001"
      "Mon Jan  1 10:00:00 2024").2 { tree := [0, 100, 175], size := 2 } (by decide)).2
      [("C1", 1), ("C2", 2)] (by decide) (by decide)⟩

/-- C16, as the code has it: `getCandidateVotes(d, c)` returns 0 when the district has no
table or no index map or the candidate has no slot in it, and otherwise is `getValue` at the
candidate's slot: a value when the slot lies within `1..size` of the table, the `out_of_range`
failure of `getValue` when it does not. So it never fails when the slot, if any, lies within
the table. -/
theorem C16_getCandidateVotes_cases (vm : VoteManager) (d c : String) :
    (vm.districtTrees.find d = none → vm.getCandidateVotes d c = .ok 0) ∧
    (vm.candidateIndices.find d = none → vm.getCandidateVotes d c = .ok 0) ∧
    (∀ indices, vm.candidateIndices.find d = some indices → indices.find c = none →
      vm.getCandidateVotes d c = .ok 0) ∧
    (∀ tree indices s, vm.districtTrees.find d = some tree →
      vm.candidateIndices.find d = some indices → indices.find c = some s →
      vm.getCandidateVotes d c = tree.getValue s ∧
      (1 ≤ s ∧ s ≤ tree.size → ∃ v, vm.getCandidateVotes d c = .ok v) ∧
      (s = 0 ∨ s > tree.size → vm.getCandidateVotes d c =
        .error (.out_of_range "Index out of range for Fenwick Tree getValue"))) ∧
    (vm.SlotInRange d c → ∃ v, vm.getCandidateVotes d c = .ok v) := by
  have hsome : ∀ tree indices s, vm.districtTrees.find d = some tree →
      vm.candidateIndices.find d = some indices → indices.find c = some s →
      vm.getCandidateVotes d c = tree.getValue s := by
    intro tree indices s ht hi hs
    simp only [VoteManager.getCandidateVotes, ht, hi, hs]
  refine ⟨?_, ?_, ?_, ?_, ?_⟩
  · intro ht
    simp only [VoteManager.getCandidateVotes, ht]
  · intro hi
    unfold VoteManager.getCandidateVotes
    cases vm.districtTrees.find d with
    | none => rfl
    | some tree => simp only [hi]
  · intro indices hi hs
    unfold VoteManager.getCandidateVotes
    cases vm.districtTrees.find d with
    | none => rfl
    | some tree => simp only [hi, hs]
  · intro tree indices s ht hi hs
    refine ⟨hsome tree indices s ht hi hs, ?_, ?_⟩
    · rintro ⟨h1, h2⟩
      rw [hsome tree indices s ht hi hs]
      exact FenwickTree.getValue_ok tree s h1 h2
    · intro hout
      rw [hsome tree indices s ht hi hs]
      simp only [FenwickTree.getValue, if_pos hout]
  · intro hin
    unfold VoteManager.SlotInRange at hin
    cases ht : vm.districtTrees.find d with
    | none => exact ⟨0, by simp only [VoteManager.getCandidateVotes, ht]⟩
    | some tree =>
      cases hi : vm.candidateIndices.find d with
      | none => exact ⟨0, by simp only [VoteManager.getCandidateVotes, ht, hi]⟩
      | some indices =>
        cases hs : indices.find c with
        | none => exact ⟨0, by simp only [VoteManager.getCandidateVotes, ht, hi, hs]⟩
        | some s =>
          simp only [ht, hi, hs] at hin
          rw [hsome tree indices s ht hi hs]
          exact FenwickTree.getValue_ok tree s hin.1 hin.2

/-- C16 fails as stated: in a registry built by public calls only in which the second
candidate holds slot 2 of a table of size 1, `getCandidateVotes` fails with `out_of_range`. -/
theorem C16_getCandidateVotes_counterexample :
    (∀ v, VoteManager.overfullManager.getCandidateVotes "D1" "C2" ≠ .ok v) ∧
      VoteManager.overfullManager.getCandidateVotes "D1" "C2" =
        .error (.out_of_range "Index out of range for Fenwick Tree getValue") := by
  have h : VoteManager.overfullManager.getCandidateVotes "D1" "C2" =
      .error (.out_of_range "Index out of range for Fenwick Tree getValue") := by decide
  refine ⟨?_, h⟩
  intro v hv
  rw [h] at hv
  cases hv

theorem C16_getCandidateVotes_cases_witness :
    ∃ v, ElectionSystem.demoManager.getCandidateVotes "D1" "C2" = .ok v :=
  (C16_getCandidateVotes_cases ElectionSystem.demoManager "D1" "C2").2.2.2.2 (by decide)

/-- C17: for every table of size `n` and every delta, `update(i, delta)` fails, and then with
`out_of_range`, exactly when `i < 1` or `i > n`; when it fails the table is as it was, and
within `1..n` it succeeds. -/
theorem C17_update_index_check (t : FenwickTree) (i : Nat) (delta : Int) :
    ((∃ e, (t.update i delta).1 = .error e) ↔ (i < 1 ∨ i > t.size)) ∧
    (i < 1 ∨ i > t.size →
      t.update i delta =
        (.error (.out_of_range "Index out of range for Fenwick Tree update"), t)) ∧
    (1 ≤ i ∧ i ≤ t.size → ∃ t2, t.update i delta = (.ok (), t2)) := by
  have hbad : i < 1 ∨ i > t.size →
      t.update i delta =
        (.error (.out_of_range "Index out of range for Fenwick Tree update"), t) := by
    intro h
    rcases FenwickTree.update_cases t i delta with ⟨_, e⟩ | ⟨hin, _⟩
    · exact e
    · omega
  have hgood : 1 ≤ i ∧ i ≤ t.size → ∃ t2, t.update i delta = (.ok (), t2) := by
    intro h
    rcases FenwickTree.update_cases t i delta with ⟨hout, _⟩ | ⟨_, tree2, e⟩
    · omega
    · exact ⟨_, e⟩
  refine ⟨⟨?_, ?_⟩, hbad, hgood⟩
  · rintro ⟨e, he⟩
    by_contra hin
    obtain ⟨t2, h2⟩ := hgood (by omega)
    rw [h2] at he
    cases he
  · intro h
    exact ⟨_, by rw [hbad h]⟩

theorem C17_update_index_check_witness :
    FenwickTree.update { tree := [0, 100, 175], size := 2 } 3 5 =
        (.error (.out_of_range "Index out of range for Fenwick Tree update"),
          { tree := [0, 100, 175], size := 2 }) ∧
      ∃ t2, FenwickTree.update { tree := [0, 100, 175], size := 2 } 2 5 = (.ok (), t2) :=
  ⟨(C17_update_index_check { tree := [0, 100, 175], size := 2 } 3 5).2.1 (by decide),
   (C17_update_index_check { tree := [0, 100, 175], size := 2 } 2 5).2.2 (by decide)⟩

/-- C18: for every table of size `n`, `rangeQuery(left, right)` fails with
`invalid_argument` when `left > right`, whatever else holds; otherwise with `out_of_range`
when `left = 0` or `right > n`; otherwise, for `1 ≤ left ≤ right ≤ n`, it succeeds. -/
theorem C18_rangeQuery_checks (t : FenwickTree) (left right : Nat) :
    (left > right → t.rangeQuery left right =
      .error (.invalid_argument "Left boundary must be <= right boundary")) ∧
    (left ≤ right → (left = 0 ∨ right > t.size) → t.rangeQuery left right =
      .error (.out_of_range "Range boundaries out of range for Fenwick Tree")) ∧
    (1 ≤ left → left ≤ right → right ≤ t.size → ∃ v, t.rangeQuery left right = .ok v) := by
  refine ⟨?_, ?_, ?_⟩
  · intro h
    simp only [FenwickTree.rangeQuery, if_pos h]
  · intro h1 h2
    have c1 : ¬ left > right := by omega
    simp only [FenwickTree.rangeQuery, if_neg c1, if_pos h2]
  · intro h1 h2 h3
    obtain ⟨a, qa⟩ := FenwickTree.query_ok t right h3
    obtain ⟨b, qb⟩ := FenwickTree.query_ok t (left - 1) (by omega)
    exact ⟨a - b, FenwickTree.rangeQuery_of_query t left right a b h1 h2 h3 qa qb⟩

theorem C18_rangeQuery_checks_witness :
    FenwickTree.rangeQuery { tree := [0, 100, 175], size := 2 } 5 3 =
        .error (.invalid_argument "Left boundary must be <= right boundary") ∧
      FenwickTree.rangeQuery { tree := [0, 100, 175], size := 2 } 0 3 =
        .error (.out_of_range "Range boundaries out of range for Fenwick Tree") ∧
      ∃ v, FenwickTree.rangeQuery { tree := [0, 100, 175], size := 2 } 1 2 = .ok v :=
  ⟨(C18_rangeQuery_checks { tree := [0, 100, 175], size := 2 } 5 3).1 (by decide),
   (C18_rangeQuery_checks { tree := [0, 100, 175], size := 2 } 0 3).2.1 (by decide)
     (by decide),
   (C18_rangeQuery_checks { tree := [0, 100, 175], size := 2 } 1 2).2.2 (by decide)
     (by decide) (by decide)⟩

/-- C19, as the code has it: for `1 ≤ l ≤ r ≤ n`, on every table of size `n` the two prefix
sums are returned and `rangeQuery(l, r)` is `query(r) - query(l - 1)` brought into the range
of `int64_t` by wraparound; on the table that valid updates made of `construct n` (with
`n + 1` a `size_t`) this value is the wrapped sum of the deltas applied at the indices in `l..r`, hence that sum itself
whenever it lies in `-2^63 .. 2^63 - 1`. -/
theorem C19_rangeQuery_wraps (n : Nat) (hn : 1 ≤ n)
    (hcells : n + 1 < 18446744073709551616) (us : List (Nat × Int))
    (hus : ∀ u ∈ us, 1 ≤ u.1 ∧ u.1 ≤ n) (l r : Nat) (h1 : 1 ≤ l) (h2 : l ≤ r)
    (h3 : r ≤ n) :
    (∀ t : FenwickTree, t.size = n →
      ∃ a b, t.query64 r = .ok a ∧ t.query64 (l - 1) = .ok b ∧
        t.rangeQuery64 l r = .ok (wrap64 (a - b))) ∧
    ∃ t0 t, FenwickTree.construct64 n = .ok t0 ∧ FenwickTree.applyUpdates64 t0 us = .ok t ∧
      t.rangeQuery64 l r =
        .ok (wrap64 (FenwickTree.deltaSum (fun k => decide (l ≤ k ∧ k ≤ r)) us)) ∧
      (-9223372036854775808 ≤ FenwickTree.deltaSum (fun k => decide (l ≤ k ∧ k ≤ r)) us →
        FenwickTree.deltaSum (fun k => decide (l ≤ k ∧ k ≤ r)) us < 9223372036854775808 →
        t.rangeQuery64 l r =
          .ok (FenwickTree.deltaSum (fun k => decide (l ≤ k ∧ k ≤ r)) us)) := by
  obtain ⟨_, t0, te, hc, he, hv⟩ := rangeQuery_after_updates_exact n hn us hus l r h1 h2 h3
  refine ⟨?_, ?_⟩
  · intro t ht
    obtain ⟨a, qa⟩ := FenwickTree.query_ok t r (by omega)
    obtain ⟨b, qb⟩ := FenwickTree.query_ok t (l - 1) (by omega)
    have hr := FenwickTree.rangeQuery_of_query t l r a b h1 h2 (by omega) qa qb
    refine ⟨wrap64 a, wrap64 b, ?_, ?_, ?_⟩
    · rw [FenwickTree.query64_sim t t (FenwickTree.table_sim_refl t) r, qa]
      rfl
    · rw [FenwickTree.query64_sim t t (FenwickTree.table_sim_refl t) (l - 1), qb]
      rfl
    · rw [FenwickTree.rangeQuery64_sim t t (FenwickTree.table_sim_refl t) l r, hr, wrap64_sub]
      rfl
  · obtain ⟨g1, _⟩ := FenwickTree.applyUpdates64_sim us t0 t0 (FenwickTree.table_sim_refl t0)
    obtain ⟨t, ht, hs⟩ := g1 te he
    have hval : t.rangeQuery64 l r =
        .ok (wrap64 (FenwickTree.deltaSum (fun k => decide (l ≤ k ∧ k ≤ r)) us)) := by
      rw [FenwickTree.rangeQuery64_sim t te hs l r, hv]
      rfl
    refine ⟨t0, t, (FenwickTree.construct64_eq n hcells).trans hc, ht, hval, ?_⟩
    intro k1 k2
    rw [hval, wrap64_of_range _ k1 k2]

/-- C19 fails as stated: on a fresh table of size 2, after `update(1, 2^63 - 1)` and
`update(1, 1)` the deltas applied in `1..1` sum to `2^63`, and `rangeQuery(1, 1)` returns
`-2^63`; and on the table with the cells `[0, 2^63 - 1, -2]`, which three updates without any
overflow leave, `query(2)` is `-2`, `query(1)` is `2^63 - 1` and `rangeQuery(2, 2)` returns
`2^63 - 1`, not their difference `-2^63 - 1`. -/
theorem C19_rangeQuery_counterexample :
    (FenwickTree.applyUpdates64 { tree := [0, 0, 0], size := 2 }
          [(1, 9223372036854775807), (1, 1)] =
        .ok { tree := [0, (-9223372036854775808), (-9223372036854775808)], size := 2 } ∧
      FenwickTree.rangeQuery64
          { tree := [0, (-9223372036854775808), (-9223372036854775808)], size := 2 } 1 1 =
        .ok ((-9223372036854775808)) ∧
      FenwickTree.deltaSum (fun k => decide (1 ≤ k ∧ k ≤ 1))
          [(1, 9223372036854775807), (1, 1)] = 9223372036854775808) ∧
    (FenwickTree.applyUpdates64 { tree := [0, 0, 0], size := 2 }
          [(1, 9223372036854775807), (2, (-9223372036854775808)), (2, -1)] =
        .ok { tree := [0, 9223372036854775807, -2], size := 2 } ∧
      FenwickTree.query64 { tree := [0, 9223372036854775807, -2], size := 2 } 2 = .ok (-2) ∧
      FenwickTree.query64 { tree := [0, 9223372036854775807, -2], size := 2 } 1 =
        .ok 9223372036854775807 ∧
      FenwickTree.rangeQuery64 { tree := [0, 9223372036854775807, -2], size := 2 } 2 2 =
        .ok 9223372036854775807) := by
  decide

theorem C19_rangeQuery_wraps_witness :
    (∀ t : FenwickTree, t.size = 4 →
      ∃ a b, t.query64 3 = .ok a ∧ t.query64 (2 - 1) = .ok b ∧
        t.rangeQuery64 2 3 = .ok (wrap64 (a - b))) ∧
    ∃ t0 t, FenwickTree.construct64 4 = .ok t0 ∧
      FenwickTree.applyUpdates64 t0 [(1, 5), (3, 2), (2, -1), (4, 7)] = .ok t ∧
      t.rangeQuery64 2 3 = .ok (wrap64 (FenwickTree.deltaSum (fun k => decide (2 ≤ k ∧ k ≤ 3))
        [(1, 5), (3, 2), (2, -1), (4, 7)])) ∧
      (-9223372036854775808 ≤ FenwickTree.deltaSum (fun k => decide (2 ≤ k ∧ k ≤ 3))
          [(1, 5), (3, 2), (2, -1), (4, 7)] →
        FenwickTree.deltaSum (fun k => decide (2 ≤ k ∧ k ≤ 3))
          [(1, 5), (3, 2), (2, -1), (4, 7)] < 9223372036854775808 →
        t.rangeQuery64 2 3 = .ok (FenwickTree.deltaSum (fun k => decide (2 ≤ k ∧ k ≤ 3))
          [(1, 5), (3, 2), (2, -1), (4, 7)])) :=
  C19_rangeQuery_wraps 4 (by decide) (by decide) [(1, 5), (3, 2), (2, -1), (4, 7)] (by decide)
    2 3 (by decide) (by decide) (by decide)

/-- C20: for every table of size `n ≥ 1` with its `n + 1` cells, in any state, `reset()`
gives the table that `construct n` builds: the size is unchanged, `query(i) = 0` for
`0 ≤ i ≤ n`, `getValue(i) = 0` for `1 ≤ i ≤ n`, and any sequence of updates applied after
the reset ends as the same sequence applied to `construct n` does. -/
theorem C20_reset_is_fresh (t : FenwickTree) (hwf : t.WF) (hn : 1 ≤ t.size) :
    FenwickTree.construct t.size = .ok t.reset ∧ t.reset.size = t.size ∧
      (∀ i, i ≤ t.size → t.reset.query i = .ok 0) ∧
      (∀ i, 1 ≤ i → i ≤ t.size → t.reset.getValue i = .ok 0) ∧
      ∀ us, ∃ t0, FenwickTree.construct t.size = .ok t0 ∧
        FenwickTree.applyUpdates t.reset us = FenwickTree.applyUpdates t0 us := by
  have hc : FenwickTree.construct t.size = .ok t.reset := by
    rw [FenwickTree.reset_eq t hwf]
    exact FenwickTree.construct_ok t.size hn
  exact ⟨hc, rfl, FenwickTree.query_reset t, FenwickTree.getValue_reset t,
    fun _ => ⟨t.reset, hc, rfl⟩⟩

theorem C20_reset_is_fresh_witness :
    FenwickTree.construct 2 = .ok (FenwickTree.reset { tree := [0, 100, 175], size := 2 }) ∧
      (FenwickTree.reset { tree := [0, 100, 175], size := 2 }).size = 2 ∧
      (∀ i, i ≤ 2 → (FenwickTree.reset { tree := [0, 100, 175], size := 2 }).query i = .ok 0) ∧
      (∀ i, 1 ≤ i → i ≤ 2 →
        (FenwickTree.reset { tree := [0, 100, 175], size := 2 }).getValue i = .ok 0) ∧
      ∀ us, ∃ t0, FenwickTree.construct 2 = .ok t0 ∧
        FenwickTree.applyUpdates (FenwickTree.reset { tree := [0, 100, 175], size := 2 }) us =
          FenwickTree.applyUpdates t0 us :=
  C20_reset_is_fresh { tree := [0, 100, 175], size := 2 } (by decide) (by decide)

/-- C21, as the code has it: `construct n` fails, and then with `invalid_argument` "size
must be greater than 0", exactly when `n = 0`; for `n ≥ 1` with `n + 1` still a `size_t`
(`n < 2^64 - 1`) it yields a table of size `n` with exactly `n + 1` cells, all zero; for
`n = 2^64 - 1` it yields a table of that size without any cell; `update` (failing or not) and
`reset` change neither the size nor the number of cells. -/
theorem C21_construct_in_size_t (n : Nat) :
    ((∃ e, FenwickTree.construct64 n = .error e) ↔ n = 0) ∧
    (n = 0 → FenwickTree.construct64 n =
      .error (.invalid_argument "Fenwick Tree size must be greater than 0")) ∧
    (1 ≤ n → n + 1 < 18446744073709551616 →
      ∃ t, FenwickTree.construct64 n = .ok t ∧ t.size = n ∧ t.tree.length = n + 1 ∧
        ∀ x ∈ t.tree, x = 0) ∧
    (n = 18446744073709551615 →
      FenwickTree.construct64 n = .ok { tree := [], size := 18446744073709551615 }) ∧
    (∀ (t : FenwickTree) (i : Nat) (delta : Int),
      (t.update64 i delta).2.size = t.size ∧
        (t.update64 i delta).2.tree.length = t.tree.length) ∧
    (∀ t : FenwickTree, t.reset.size = t.size ∧ t.reset.tree.length = t.tree.length) := by
  have hzero : n = 0 → FenwickTree.construct64 n =
      .error (.invalid_argument "Fenwick Tree size must be greater than 0") := by
    intro h
    simp only [FenwickTree.construct64, if_pos h]
  refine ⟨⟨?_, ?_⟩, hzero, ?_, ?_, FenwickTree.update64_shape, ?_⟩
  · rintro ⟨e, he⟩
    by_contra hn
    simp only [FenwickTree.construct64, if_neg hn] at he
    cases he
  · intro h
    exact ⟨_, hzero h⟩
  · intro hn hlt
    have hne : ¬ n = 0 := by omega
    refine ⟨{ tree := List.replicate ((n + 1) % 18446744073709551616) 0, size := n },
      by simp only [FenwickTree.construct64, if_neg hne], rfl, ?_, ?_⟩
    · simp only [List.length_replicate]
      exact Nat.mod_eq_of_lt hlt
    · intro x hx
      exact List.eq_of_mem_replicate hx
  · intro h
    subst h
    decide
  · intro t
    exact ⟨rfl, by simp [FenwickTree.reset]⟩

/-- C21 fails as stated: for `n = 2^64 - 1` the constructor computes `n + 1 = 0` in `size_t`
and returns a table of size `2^64 - 1` that has no cell at all. -/
theorem C21_construct_counterexample :
    FenwickTree.construct64 18446744073709551615 =
        .ok { tree := [], size := 18446744073709551615 } ∧
      ([] : List Int).length ≠ 18446744073709551615 + 1 := by
  decide

theorem C21_construct_in_size_t_witness :
    ∃ t, FenwickTree.construct64 3 = .ok t ∧ t.size = 3 ∧ t.tree.length = 3 + 1 ∧
      ∀ x ∈ t.tree, x = 0 :=
  (C21_construct_in_size_t 3).2.2.1 (by decide) (by decide)

/-- C22: `assignCandidateToDistrict(d, c)` throws the `runtime_error` "District not found"
when `d` is not in the district catalog and, `d` being there, the `runtime_error` "Candidate
not found" when `c` is not in the candidate catalog, the registry (so every slot assignment)
staying as it was; and when catalog candidates with pairwise distinct ids are attached, in
order, to a catalog district without any assignment, every call succeeds and candidate number
`j` of the list (counted from 0) holds slot `j + 1`: the first attached has slot 1. -/
theorem C22_assign_slots_in_order (vm : VoteManager) (d c : String) :
    ((∀ x ∈ vm.districts, x.id ≠ d) →
      vm.assignCandidateToDistrict d c =
        (.error (.runtime_error ("District not found: " ++ d)), vm)) ∧
    ((∃ x ∈ vm.districts, x.id = d) → (∀ y ∈ vm.candidates, y.id ≠ c) →
      vm.assignCandidateToDistrict d c =
        (.error (.runtime_error ("Candidate not found: " ++ c)), vm)) ∧
    (∀ cs : List Candidate, (∃ x ∈ vm.districts, x.id = d) → (∀ y ∈ cs, y ∈ vm.candidates) →
      (cs.map (fun y => y.id)).Nodup → (vm.candidateIndices.find d).getD [] = [] →
      ∃ vm2, ElectionSystem.assignCandidates d vm cs = (.ok (), vm2) ∧
        ∀ (j : Nat) (y : Candidate), cs[j]? = some y →
          ∃ inner, vm2.candidateIndices.find d = some inner ∧
            inner.find y.id = some (j + 1)) := by
  refine ⟨?_, ?_, ?_⟩
  · intro hd
    have h1 : vm.districts.find? (fun y => y.id == d) = none := by
      rw [List.find?_eq_none]
      intro x hx
      simpa using hd x hx
    simp only [VoteManager.assignCandidateToDistrict, h1]
  · rintro ⟨x, hx, hxd⟩ hc
    have h2 : vm.candidates.find? (fun y => y.id == c) = none := by
      rw [List.find?_eq_none]
      intro y hy
      simpa using hc y hy
    unfold VoteManager.assignCandidateToDistrict
    cases h1 : vm.districts.find? (fun y => y.id == d) with
    | none =>
      rw [List.find?_eq_none] at h1
      exact absurd (by simp [hxd]) (h1 x hx)
    | some _ => simp only [h2]
  · intro cs hd hcs hnd hempty
    cases cs with
    | nil => exact ⟨vm, rfl, by intro j y h; simp at h⟩
    | cons c0 rest =>
      obtain ⟨vm2, e, _, _, _, _, _, hfind⟩ :=
        ElectionSystem.assignCandidates_from_empty d c0 rest vm hd hcs hempty hnd
      refine ⟨vm2, e, ?_⟩
      intro j y hj
      refine ⟨_, hfind, ?_⟩
      rw [VoteManager.slotList_find (c0 :: rest) 0 hnd j y hj]
      congr 1
      omega

theorem C22_assign_slots_in_order_witness :
    ∃ vm2, ElectionSystem.assignCandidates "D1" VoteManager.unassignedManager
        [{ name := "Ann", party := "Red", id := "C1" },
         { name := "Bob", party := "Blue", id := "C2" }] = (.ok (), vm2) ∧
      ∀ (j : Nat) (y : Candidate),
        ([{ name := "Ann", party := "Red", id := "C1" },
          { name := "Bob", party := "Blue", id := "C2" }] : List Candidate)[j]? = some y →
        ∃ inner, vm2.candidateIndices.find "D1" = some inner ∧
          inner.find y.id = some (j + 1) :=
  (C22_assign_slots_in_order VoteManager.unassignedManager "D1" "C1").2.2
    [{ name := "Ann", party := "Red", id := "C1" },
     { name := "Bob", party := "Blue", id := "C2" }]
    (by decide) (by decide) (by decide) (by decide)

/-- C23, as the code has it: `assignCandidateToDistrict(d, c)` for a catalog district and a
catalog candidate that holds no slot in it always succeeds and gives the candidate the slot
"number of assigned slots plus one", the rest of the registry staying as it was; when the
number of assigned slots already equals the size of the district's table, that slot lies
beyond the table. There is no capacity failure. -/
theorem C23_assign_beyond_capacity (vm : VoteManager) (d : String) (c : Candidate)
    (inner : UMap Nat) (hd : ∃ x ∈ vm.districts, x.id = d) (hc : c ∈ vm.candidates)
    (hi : vm.candidateIndices.find d = some inner) (hnew : inner.find c.id = none) :
    ∃ vm2, vm.assignCandidateToDistrict d c.id = (.ok (), vm2) ∧
      vm2.candidateIndices.find d = some (inner ++ [(c.id, inner.size + 1)]) ∧
      (∀ d2, d2 ≠ d → vm2.candidateIndices.find d2 = vm.candidateIndices.find d2) ∧
      vm2.districts = vm.districts ∧ vm2.candidates = vm.candidates ∧
      vm2.districtTrees = vm.districtTrees ∧ vm2.voteHistory = vm.voteHistory ∧
      ∀ tree, vm.districtTrees.find d = some tree → inner.size = tree.size →
        tree.size < inner.size + 1 := by
  have hstep := VoteManager.assignCandidateToDistrict_ok vm d c hd hc
  rw [hi, Option.getD_some, UMap.assign_absent inner c.id _ hnew] at hstep
  refine ⟨_, hstep, ?_, ?_, rfl, rfl, rfl, rfl, ?_⟩
  · simp [UMap.find_assign]
  · intro d2 hd2
    simp [UMap.find_assign, hd2]
  · intro tree _ hsz
    omega

/-- C23 fails as stated: the district of `fullManager` has capacity 1 and one assigned slot,
and attaching a further candidate succeeds and assigns slot 2. -/
theorem C23_assign_counterexample :
    VoteManager.fullManager.districts =
        [{ name := "North", id := "D1", candidateCount := 1 }] ∧
      VoteManager.fullManager.candidateIndices.find "D1" = some [("C1", 1)] ∧
      (VoteManager.fullManager.assignCandidateToDistrict "D1" "C2").1 = .ok () ∧
      (VoteManager.fullManager.assignCandidateToDistrict "D1" "C2").2.candidateIndices.find
        "D1" = some [("C1", 1), ("C2", 2)] := by
  decide

theorem C23_assign_beyond_capacity_witness :
    ∃ vm2, VoteManager.fullManager.assignCandidateToDistrict "D1" "C2" = (.ok (), vm2) ∧
      vm2.candidateIndices.find "D1" = some ([("C1", 1)] ++ [("C2", UMap.size [("C1", 1)] + 1)]) ∧
      (∀ d2, d2 ≠ "D1" →
        vm2.candidateIndices.find d2 = VoteManager.fullManager.candidateIndices.find d2) ∧
      vm2.districts = VoteManager.fullManager.districts ∧
      vm2.candidates = VoteManager.fullManager.candidates ∧
      vm2.districtTrees = VoteManager.fullManager.districtTrees ∧
      vm2.voteHistory = VoteManager.fullManager.voteHistory ∧
      ∀ tree, VoteManager.fullManager.districtTrees.find "D1" = some tree →
        UMap.size [("C1", 1)] = tree.size → tree.size < UMap.size [("C1", 1)] + 1 :=
  C23_assign_beyond_capacity VoteManager.fullManager "D1"
    { name := "Bob", party := "Blue", id := "C2" } [("C1", 1)]
    (by decide) (by decide) (by decide) (by decide)

/-- C25: `setupElection` throws `invalid_argument` "Number of candidates must match number
of parties" whenever the two lists have different lengths, before anything is registered: the
coordinator, with both catalogs and all slot assignments, is as it was. -/
theorem C25_setup_arity_mismatch (es : ElectionSystem)
    (districtNames candidateNames partyNames : List String)
    (h : candidateNames.length ≠ partyNames.length) :
    es.setupElection districtNames candidateNames partyNames =
      (.error (.invalid_argument "Number of candidates must match number of parties"), es) := by
  simp only [ElectionSystem.setupElection, if_pos h]

theorem C25_setup_arity_mismatch_witness :
    (ElectionSystem.construct "Test Election" "2024-01-01").setupElection
        ["District A"] ["Candidate 1", "Candidate 2"] ["Party A"] =
      (.error (.invalid_argument "Number of candidates must match number of parties"),
        ElectionSystem.construct "Test Election" "2024-01-01") :=
  C25_setup_arity_mismatch (ElectionSystem.construct "Test Election" "2024-01-01")
    ["District A"] ["Candidate 1", "Candidate 2"] ["Party A"] (by decide)

/-- C26: for `m ≥ 0` district names and `k ≥ 1` candidate names with `k` party names,
`setupElection` on a freshly constructed coordinator succeeds; the district catalog has `m`
entries, entry number `i` (from 0) bearing name number `i`, the id `"D"` followed by the
decimal text of `i + 1`, and the capacity `k`; the candidate catalog has `k` entries, entry
number `j` bearing name and party number `j` and the id `"C"` followed by the decimal text of
`j + 1`; and in every district candidate number `j` holds slot `j + 1`. -/
theorem C26_setup_result (name date : String)
    (districtNames candidateNames partyNames : List String)
    (hlen : candidateNames.length = partyNames.length) (hk : 1 ≤ candidateNames.length) :
    ∃ vm, (ElectionSystem.construct name date).setupElection districtNames candidateNames
        partyNames =
        (.ok (), { voteManager := vm, electionName := name, electionDate := date,
                   isActive := false }) ∧
      vm.districts.length = districtNames.length ∧
      (∀ (i : Nat) (n : String), districtNames[i]? = some n →
        vm.districts[i]? = some { name := n, id := "D" ++ toString (i + 1),
                                  candidateCount := candidateNames.length }) ∧
      vm.candidates.length = candidateNames.length ∧
      (∀ (j : Nat) (n q : String), candidateNames[j]? = some n → partyNames[j]? = some q →
        vm.candidates[j]? = some { name := n, party := q, id := "C" ++ toString (j + 1) }) ∧
      (∀ d ∈ vm.districts, ∀ (j : Nat) (c : Candidate), vm.candidates[j]? = some c →
        ∃ inner, vm.candidateIndices.find d.id = some inner ∧
          inner.find c.id = some (j + 1)) := by
  obtain ⟨vm, e, hd, hc, _, hslots⟩ := ElectionSystem.setupElection_exact name date
    districtNames candidateNames partyNames hlen hk
  refine ⟨vm, e, ?_, ?_, ?_, ?_, ?_⟩
  · rw [hd, ElectionSystem.districtCatalog_length]
  · intro i n hi
    rw [hd, ElectionSystem.districtCatalog_getElem _ _ 0 i n hi]
    simp
  · rw [hc, ElectionSystem.candidateCatalog_length _ _ _ hlen]
  · intro j n q hn hq
    rw [hc, ElectionSystem.candidateCatalog_getElem _ _ 0 j n q hn hq]
    simp
  · intro d hdm j c hj
    refine ⟨_, (hslots d hdm).2, ?_⟩
    have hnd : (vm.candidates.map (fun c => c.id)).Nodup := by
      rw [hc]
      exact ElectionSystem.candidateCatalog_nodup _ _ _
    rw [VoteManager.slotList_find vm.candidates 0 hnd j c hj]
    congr 1
    omega

theorem C26_setup_result_witness :
    ∃ vm, (ElectionSystem.construct "Test Election" "2024-01-01").setupElection
        ["District A", "District B"] ["Candidate 1", "Candidate 2"] ["Party A", "Party B"] =
        (.ok (), { voteManager := vm, electionName := "Test Election",
                   electionDate := "2024-01-01", isActive := false }) ∧
      vm.districts.length = ["District A", "District B"].length ∧
      (∀ (i : Nat) (n : String), ["District A", "District B"][i]? = some n →
        vm.districts[i]? = some { name := n, id := "D" ++ toString (i + 1),
                                  candidateCount := ["Candidate 1", "Candidate 2"].length }) ∧
      vm.candidates.length = ["Candidate 1", "Candidate 2"].length ∧
      (∀ (j : Nat) (n q : String), ["Candidate 1", "Candidate 2"][j]? = some n →
        ["Party A", "Party B"][j]? = some q →
        vm.candidates[j]? = some { name := n, party := q, id := "C" ++ toString (j + 1) }) ∧
      (∀ d ∈ vm.districts, ∀ (j : Nat) (c : Candidate), vm.candidates[j]? = some c →
        ∃ inner, vm.candidateIndices.find d.id = some inner ∧
          inner.find c.id = some (j + 1)) :=
  C26_setup_result "Test Election" "2024-01-01" ["District A", "District B"]
    ["Candidate 1", "Candidate 2"] ["Party A", "Party B"] (by decide) (by decide)

/-- C27 (scenario A): a freshly constructed coordinator is set up with two districts and two
candidates and started; the four updates (D1, C1, +100), (D1, C2, +75), (D2, C1, +80) and
(D2, C2, +120), given by name and with any timestamps, each return `true`; afterwards
`getCandidateTotalVotes` is 180 for `C1` and 195 for `C2`, `getDistrictTotalVotes` is 175 for
`D1` and `getOverallLeader` is `C2`. -/
theorem C27_scenario_A (ts1 ts2 ts3 ts4 : String) :
    ∃ es0 s1 s2 s3 s4,
      (ElectionSystem.construct "Test Election" "2024-01-01").setupElection
        ["District A", "District B"] ["Candidate 1", "Candidate 2"] ["Party A", "Party B"] =
        (.ok (), es0) ∧
      (es0.setElectionStatus true).processVoteUpdate "District A" "Candidate 1" 100 "P001" ts1 =
        (.ok true, s1) ∧
      s1.processVoteUpdate "District A" "Candidate 2" 75 "P002" ts2 = (.ok true, s2) ∧
      s2.processVoteUpdate "District B" "Candidate 1" 80 "P003" ts3 = (.ok true, s3) ∧
      s3.processVoteUpdate "District B" "Candidate 2" 120 "P004" ts4 = (.ok true, s4) ∧
      s4.voteManager.getCandidateTotalVotes "C1" = .ok 180 ∧
      s4.voteManager.getCandidateTotalVotes "C2" = .ok 195 ∧
      s4.voteManager.getDistrictTotalVotes "D1" = .ok 175 ∧
      s4.voteManager.getOverallLeader = .ok "C2" := by
  refine ⟨ElectionSystem.demoSystem, _, _, _, _, ElectionSystem.demoSystem_is_setup,
    rfl, rfl, rfl, rfl, ?_, ?_, ?_, ?_⟩
  · rfl
  · rfl
  · rfl
  · rfl

/-- C28 at the failing input: on the coordinator set up with two districts and two
candidates, before any vote (the history is empty and every total is 0),
`getOverallLeader` and `getDistrictLeader` return the id of the first candidate, not the
empty string, and `getCurrentLeader` names that candidate with 0 votes. -/
theorem C28_leader_without_votes :
    ElectionSystem.demoSystem.voteManager.voteHistory = [] ∧
      (∀ c ∈ ElectionSystem.demoSystem.voteManager.candidates,
        ElectionSystem.demoSystem.voteManager.getCandidateTotalVotes c.id = .ok 0) ∧
      ElectionSystem.demoSystem.voteManager.getOverallLeader = .ok "C1" ∧
      ElectionSystem.demoSystem.voteManager.getDistrictLeader "D1" = .ok "C1" ∧
      ElectionSystem.demoSystem.getCurrentLeader = .ok "Candidate 1 (Party A) - 0 votes" := by
  decide

/-- C29: for a table of size `n ≥ 1`, `1 ≤ i ≤ n` and any delta, `update(i, delta)` ends and
is the writing of the cells of its trace, which are at most `floor(log2 n) + 1`; `query(i)`
ends and is the sum of the cells of its trace, which are at most `floor(log2 i) + 1`. -/
theorem C29_logarithmic_steps (t : FenwickTree) (i : Nat) (delta : Int) (h1 : 1 ≤ i)
    (h2 : i ≤ t.size) :
    (∃ ws, FenwickTree.updateTrace t.size (t.size + 1) i = some ws ∧
      t.update i delta = (.ok (), { t with tree := FenwickTree.applyWrites delta t.tree ws }) ∧
      ws.length ≤ Nat.log 2 t.size + 1) ∧
    (∃ rs, FenwickTree.queryTrace i i = some rs ∧
      t.query i = .ok (FenwickTree.sumReads t.tree 0 rs) ∧
      rs.length ≤ Nat.log 2 i + 1) := by
  have hp := FenwickTree.lsb_pos i (by omega)
  refine ⟨?_, ?_⟩
  · obtain ⟨ws, e, _, hb⟩ := FenwickTree.updateTrace_bound t.size (t.size + 1) i (by omega)
      h2 (by omega)
    refine ⟨ws, e, ?_, FenwickTree.count_le_log _ _ _ hp hb⟩
    have hin : ¬ (i = 0 ∨ i > t.size) := by omega
    simp only [FenwickTree.update, if_neg hin, FenwickTree.updateLoop_eq_trace, e,
      Option.map_some']
  · obtain ⟨rs, e, _, hb⟩ := FenwickTree.queryTrace_bound i i (by omega) (le_refl _)
    refine ⟨rs, e, ?_, FenwickTree.count_le_log _ _ _ hp hb⟩
    have h0 : ¬ i = 0 := by omega
    have hgt : ¬ i > t.size := by omega
    simp only [FenwickTree.query, if_neg h0, if_neg hgt, FenwickTree.queryLoop_eq_trace, e,
      Option.map_some']

theorem C29_logarithmic_steps_witness :
    (∃ ws, FenwickTree.updateTrace 8 (8 + 1) 7 = some ws ∧
      FenwickTree.update { tree := [0, 0, 0, 0, 0, 0, 0, 0, 0], size := 8 } 7 5 =
        (.ok (), { tree := FenwickTree.applyWrites 5 [0, 0, 0, 0, 0, 0, 0, 0, 0] ws,
                   size := 8 }) ∧
      ws.length ≤ Nat.log 2 8 + 1) ∧
    (∃ rs, FenwickTree.queryTrace 7 7 = some rs ∧
      FenwickTree.query { tree := [0, 0, 0, 0, 0, 0, 0, 0, 0], size := 8 } 7 =
        .ok (FenwickTree.sumReads [0, 0, 0, 0, 0, 0, 0, 0, 0] 0 rs) ∧
      rs.length ≤ Nat.log 2 7 + 1) :=
  C29_logarithmic_steps { tree := [0, 0, 0, 0, 0, 0, 0, 0, 0], size := 8 } 7 5 (by decide)
    (by decide)

/-- C31, as the code has it: in every coordinator state reached from a freshly constructed
coordinator by one successful `setupElection` followed by any sequence of
`setElectionStatus`, `processVoteUpdate` and `resetElection` calls, for every district id `d`
and candidate id `c`, `getCandidateVotes(d, c)` returns the sum of `voteCount` over the audit
records of `d` and `c`, and `getDistrictTotalVotes(d)` the sum of `voteCount` over the audit
records of `d`, each brought into the range of `int64_t` by wraparound, hence the sum itself
whenever it lies in `-2^63 .. 2^63 - 1`. -/
theorem C31_tallies_wrap (name date : String)
    (districtNames candidateNames partyNames : List String) (es0 : ElectionSystem)
    (hsetup : (ElectionSystem.construct name date).setupElection districtNames candidateNames
      partyNames = (.ok (), es0))
    (ops : List ElectionSystem.Op) (d c : String) :
    (es0.run64 ops).voteManager.getCandidateVotes64 d c =
        .ok (wrap64 (VoteManager.auditSum (es0.run64 ops).getVoteHistory d c)) ∧
      (es0.run64 ops).voteManager.getDistrictTotalVotes64 d =
        .ok (wrap64 (VoteManager.auditDistrictSum (es0.run64 ops).getVoteHistory d)) ∧
      (-9223372036854775808 ≤ VoteManager.auditSum (es0.run64 ops).getVoteHistory d c →
        VoteManager.auditSum (es0.run64 ops).getVoteHistory d c < 9223372036854775808 →
        (es0.run64 ops).voteManager.getCandidateVotes64 d c =
          .ok (VoteManager.auditSum (es0.run64 ops).getVoteHistory d c)) ∧
      (-9223372036854775808 ≤ VoteManager.auditDistrictSum (es0.run64 ops).getVoteHistory d →
        VoteManager.auditDistrictSum (es0.run64 ops).getVoteHistory d < 9223372036854775808 →
        (es0.run64 ops).voteManager.getDistrictTotalVotes64 d =
          .ok (VoteManager.auditDistrictSum (es0.run64 ops).getVoteHistory d)) := by
  obtain ⟨ha, hta⟩ := ElectionSystem.setupElection_arranged name date districtNames
    candidateNames partyNames es0 hsetup
  obtain ⟨_, ⟨t1, t2⟩, _, _⟩ := ElectionSystem.run_arranged ops es0 ha hta
  have hsim := (ElectionSystem.run64_sim ops es0 es0 (ElectionSystem.coordinator_sim_refl es0)).1
  have hh : (es0.run64 ops).getVoteHistory = (es0.run ops).voteManager.voteHistory :=
    hsim.2.2.2.2
  have h1 : (es0.run64 ops).voteManager.getCandidateVotes64 d c =
      .ok (wrap64 (VoteManager.auditSum (es0.run64 ops).getVoteHistory d c)) := by
    rw [VoteManager.getCandidateVotes64_sim _ _ hsim d c, t1 d c, hh]
    rfl
  have h2 : (es0.run64 ops).voteManager.getDistrictTotalVotes64 d =
      .ok (wrap64 (VoteManager.auditDistrictSum (es0.run64 ops).getVoteHistory d)) := by
    rw [VoteManager.getDistrictTotalVotes64_sim _ _ hsim d, t2 d, hh]
    rfl
  refine ⟨h1, h2, ?_, ?_⟩
  · intro k1 k2
    rw [h1, wrap64_of_range _ k1 k2]
  · intro k1 k2
    rw [h2, wrap64_of_range _ k1 k2]

/-- C31 fails as stated: after `demoSystem` was started and `2^63 - 1` votes and then one
vote were processed for the first candidate in the first district, the audit records of the
pair, and of the district, add up to `2^63`, while `getCandidateVotes` and
`getDistrictTotalVotes` return `-2^63`. -/
theorem C31_tallies_counterexample :
    (ElectionSystem.demoSystem.run64
        [.setElectionStatus true,
         .processVoteUpdate "District A" "Candidate 1" 9223372036854775807 "P001"
           "Mon Jan  1 10:00:00 2024",
         .processVoteUpdate "District A" "Candidate 1" 1 "P002" "Mon Jan  1 10:01:00 2024"]).voteManager.getCandidateVotes64 "D1" "C1" = .ok (-9223372036854775808) ∧
      VoteManager.auditSum (ElectionSystem.demoSystem.run64
        [.setElectionStatus true,
         .processVoteUpdate "District A" "Candidate 1" 9223372036854775807 "P001"
           "Mon Jan  1 10:00:00 2024",
         .processVoteUpdate "District A" "Candidate 1" 1 "P002" "Mon Jan  1 10:01:00 2024"]).getVoteHistory "D1" "C1" = 9223372036854775808 ∧
      (ElectionSystem.demoSystem.run64
        [.setElectionStatus true,
         .processVoteUpdate "District A" "Candidate 1" 9223372036854775807 "P001"
           "Mon Jan  1 10:00:00 2024",
         .processVoteUpdate "District A" "Candidate 1" 1 "P002" "Mon Jan  1 10:01:00 2024"]).voteManager.getDistrictTotalVotes64 "D1" = .ok (-9223372036854775808) ∧
      VoteManager.auditDistrictSum (ElectionSystem.demoSystem.run64
        [.setElectionStatus true,
         .processVoteUpdate "District A" "Candidate 1" 9223372036854775807 "P001"
           "Mon Jan  1 10:00:00 2024",
         .processVoteUpdate "District A" "Candidate 1" 1 "P002" "Mon Jan  1 10:01:00 2024"]).getVoteHistory "D1" = 9223372036854775808 := by
  decide

theorem C31_tallies_wrap_witness :
    (ElectionSystem.demoSystem.run64
        [.setElectionStatus true,
         .processVoteUpdate "District A" "Candidate 1" 100 "P001" "Mon Jan  1 10:00:00 2024",
         .processVoteUpdate "District A" "Candidate 2" 75 "P002" "Mon Jan  1 10:01:00 2024",
         .processVoteUpdate "District A" "Candidate 2" (-5) "P002" "Mon Jan  1 10:02:00 2024"]).voteManager.getCandidateVotes64 "D1" "C2" =
        .ok (wrap64 (VoteManager.auditSum (ElectionSystem.demoSystem.run64
        [.setElectionStatus true,
         .processVoteUpdate "District A" "Candidate 1" 100 "P001" "Mon Jan  1 10:00:00 2024",
         .processVoteUpdate "District A" "Candidate 2" 75 "P002" "Mon Jan  1 10:01:00 2024",
         .processVoteUpdate "District A" "Candidate 2" (-5) "P002" "Mon Jan  1 10:02:00 2024"]).getVoteHistory "D1" "C2")) ∧
      (ElectionSystem.demoSystem.run64
        [.setElectionStatus true,
         .processVoteUpdate "District A" "Candidate 1" 100 "P001" "Mon Jan  1 10:00:00 2024",
         .processVoteUpdate "District A" "Candidate 2" 75 "P002" "Mon Jan  1 10:01:00 2024",
         .processVoteUpdate "District A" "Candidate 2" (-5) "P002" "Mon Jan  1 10:02:00 2024"]).voteManager.getDistrictTotalVotes64 "D1" =
        .ok (wrap64 (VoteManager.auditDistrictSum (ElectionSystem.demoSystem.run64
        [.setElectionStatus true,
         .processVoteUpdate "District A" "Candidate 1" 100 "P001" "Mon Jan  1 10:00:00 2024",
         .processVoteUpdate "District A" "Candidate 2" 75 "P002" "Mon Jan  1 10:01:00 2024",
         .processVoteUpdate "District A" "Candidate 2" (-5) "P002" "Mon Jan  1 10:02:00 2024"]).getVoteHistory "D1")) :=
  ⟨(C31_tallies_wrap "Test Election" "2024-01-01"
    ["District A", "District B"] ["Candidate 1", "Candidate 2"] ["Party A", "Party B"]
    ElectionSystem.demoSystem (by decide)
    [.setElectionStatus true,
         .processVoteUpdate "District A" "Candidate 1" 100 "P001" "Mon Jan  1 10:00:00 2024",
         .processVoteUpdate "District A" "Candidate 2" 75 "P002" "Mon Jan  1 10:01:00 2024",
         .processVoteUpdate "District A" "Candidate 2" (-5) "P002" "Mon Jan  1 10:02:00 2024"]
    "D1" "C2").1,
   (C31_tallies_wrap "Test Election" "2024-01-01"
    ["District A", "District B"] ["Candidate 1", "Candidate 2"] ["Party A", "Party B"]
    ElectionSystem.demoSystem (by decide)
    [.setElectionStatus true,
         .processVoteUpdate "District A" "Candidate 1" 100 "P001" "Mon Jan  1 10:00:00 2024",
         .processVoteUpdate "District A" "Candidate 2" 75 "P002" "Mon Jan  1 10:01:00 2024",
         .processVoteUpdate "District A" "Candidate 2" (-5) "P002" "Mon Jan  1 10:02:00 2024"]
    "D1" "C2").2.1⟩

/-- C32: in every coordinator state reached from a freshly constructed coordinator by one
successful `setupElection` followed by any sequence of `setElectionStatus`,
`processVoteUpdate` and `resetElection` calls, every catalog district has a table and an
index map all of whose slots `s` satisfy `1 ≤ s ≤ size of the table`; so, for all arguments,
`addVotes` succeeds or fails with a `runtime_error` (never `out_of_range` or
`invalid_argument`), and `getCandidateVotes`, `getCandidateTotalVotes`,
`getDistrictTotalVotes`, `getDistrictLeader` and `getOverallLeader` return a value. -/
theorem C32_slots_stay_in_range (name date : String)
    (districtNames candidateNames partyNames : List String) (es0 : ElectionSystem)
    (hsetup : (ElectionSystem.construct name date).setupElection districtNames candidateNames
      partyNames = (.ok (), es0))
    (ops : List ElectionSystem.Op) :
    (∀ d ∈ (es0.run ops).voteManager.districts, ∃ tree indices,
      (es0.run ops).voteManager.districtTrees.find d.id = some tree ∧
      (es0.run ops).voteManager.candidateIndices.find d.id = some indices ∧
      ∀ c s, indices.find c = some s → 1 ≤ s ∧ s ≤ tree.size) ∧
    (∀ d c v unit ts,
      (∃ vm2, (es0.run ops).voteManager.addVotes d c v unit ts = (.ok (), vm2)) ∨
      ∃ msg, (es0.run ops).voteManager.addVotes d c v unit ts =
        (.error (.runtime_error msg), (es0.run ops).voteManager)) ∧
    (∀ d c, ∃ n, (es0.run ops).voteManager.getCandidateVotes d c = .ok n) ∧
    (∀ c, ∃ n, (es0.run ops).voteManager.getCandidateTotalVotes c = .ok n) ∧
    (∀ d, ∃ n, (es0.run ops).voteManager.getDistrictTotalVotes d = .ok n) ∧
    (∀ d, ∃ l, (es0.run ops).voteManager.getDistrictLeader d = .ok l) ∧
    ∃ l, (es0.run ops).voteManager.getOverallLeader = .ok l := by
  obtain ⟨ha0, hta0⟩ := ElectionSystem.setupElection_arranged name date districtNames
    candidateNames partyNames es0 hsetup
  obtain ⟨ha, hta, _, _⟩ := ElectionSystem.run_arranged ops es0 ha0 hta0
  refine ⟨?_, ?_, ?_, ?_, ?_, ?_, ?_⟩
  · intro d hd
    obtain ⟨tree, ht, _, hsz, hi⟩ := ha.2.2.1 d hd
    refine ⟨tree, _, ht, hi, ?_⟩
    intro c s hs
    have := VoteManager.slotList_find_bounds _ 0 c s hs
    omega
  · intro d c v unit ts
    rcases VoteManager.addVotes_arranged _ ha d c v unit ts with
      ⟨msg, e⟩ | ⟨_, _, _, _, _, _, _, _, _, _, _, _, _, _, e⟩
    · exact Or.inr ⟨msg, e⟩
    · exact Or.inl ⟨_, e⟩
  · intro d c
    exact ⟨_, hta.1 d c⟩
  · intro c
    exact ⟨_, VoteManager.tallied_total _ hta c⟩
  · intro d
    exact ⟨_, hta.2 d⟩
  · intro d
    unfold VoteManager.getDistrictLeader
    cases (es0.run ops).voteManager.districtTrees.find d with
    | none => exact ⟨_, rfl⟩
    | some tree =>
      cases (es0.run ops).voteManager.candidateIndices.find d with
      | none => exact ⟨_, rfl⟩
      | some indices =>
        exact VoteManager.leaderLoop_ok _
          (fun x => VoteManager.auditSum (es0.run ops).voteManager.voteHistory d x.id) _ _ _
          (fun x _ => hta.1 d x.id)
  · exact VoteManager.leaderLoop_ok _
      (fun x => 0 + ((es0.run ops).voteManager.districts.map
        (fun d => VoteManager.auditSum (es0.run ops).voteManager.voteHistory d.id x.id)).sum)
      _ _ _ (fun x _ => VoteManager.tallied_total _ hta x.id)

theorem C32_slots_stay_in_range_witness :
    (∀ d ∈ (ElectionSystem.demoSystem.run [.setElectionStatus true, .resetElection]
        ).voteManager.districts, ∃ tree indices,
      (ElectionSystem.demoSystem.run [.setElectionStatus true, .resetElection]
        ).voteManager.districtTrees.find d.id = some tree ∧
      (ElectionSystem.demoSystem.run [.setElectionStatus true, .resetElection]
        ).voteManager.candidateIndices.find d.id = some indices ∧
      ∀ c s, indices.find c = some s → 1 ≤ s ∧ s ≤ tree.size) ∧
    (∀ d c v unit ts,
      (∃ vm2, (ElectionSystem.demoSystem.run [.setElectionStatus true, .resetElection]
        ).voteManager.addVotes d c v unit ts = (.ok (), vm2)) ∨
      ∃ msg, (ElectionSystem.demoSystem.run [.setElectionStatus true, .resetElection]
        ).voteManager.addVotes d c v unit ts =
        (.error (.runtime_error msg),
          (ElectionSystem.demoSystem.run [.setElectionStatus true, .resetElection]
            ).voteManager)) ∧
    (∀ d c, ∃ n, (ElectionSystem.demoSystem.run [.setElectionStatus true, .resetElection]
        ).voteManager.getCandidateVotes d c = .ok n) ∧
    (∀ c, ∃ n, (ElectionSystem.demoSystem.run [.setElectionStatus true, .resetElection]
        ).voteManager.getCandidateTotalVotes c = .ok n) ∧
    (∀ d, ∃ n, (ElectionSystem.demoSystem.run [.setElectionStatus true, .resetElection]
        ).voteManager.getDistrictTotalVotes d = .ok n) ∧
    (∀ d, ∃ l, (ElectionSystem.demoSystem.run [.setElectionStatus true, .resetElection]
        ).voteManager.getDistrictLeader d = .ok l) ∧
    ∃ l, (ElectionSystem.demoSystem.run [.setElectionStatus true, .resetElection]
        ).voteManager.getOverallLeader = .ok l :=
  C32_slots_stay_in_range "Test Election" "2024-01-01"
    ["District A", "District B"] ["Candidate 1", "Candidate 2"] ["Party A", "Party B"]
    ElectionSystem.demoSystem (by decide) [.setElectionStatus true, .resetElection]

/-- C33, as the code has it: in every registry state reached from the empty registry by a
sequence of `addDistrict`, `addCandidate`, `assignCandidateToDistrict`, `addVotes` and
`resetVotes` calls in which every `addDistrict` brings an id that is not in the catalog yet
and no `assignCandidateToDistrict` is made for a pair that holds a slot already, the
candidates that hold a slot in a district are the `k` pairwise distinct keys of its index map
and their slots are exactly `1..k`, and a slot that was assigned at some point of the sequence
is the same at every later point. A repeated `assignCandidateToDistrict` for a pair of the
catalogs that holds a slot `s` is not rejected: it moves the candidate to slot `k + 1`, where
`k ≥ s` is the number of candidates that hold a slot in the district. -/
theorem C33_slots_dense_and_stable (cs1 cs2 : List VoteManager.Call)
    (hadm : VoteManager.admissible VoteManager.empty (cs1 ++ cs2) = true) :
    (∀ d inner, (VoteManager.empty.calls (cs1 ++ cs2)).candidateIndices.find d = some inner →
      inner.map Prod.snd = List.range' 1 inner.length ∧ (inner.map Prod.fst).Nodup ∧
      ∀ c, (∃ s, (VoteManager.empty.calls (cs1 ++ cs2)).slotOf d c = some s) ↔
        c ∈ inner.map Prod.fst) ∧
    (∀ d c s, (VoteManager.empty.calls cs1).slotOf d c = some s →
      (VoteManager.empty.calls (cs1 ++ cs2)).slotOf d c = some s) ∧
    (∀ d (y : Candidate) s,
      (∃ x ∈ (VoteManager.empty.calls (cs1 ++ cs2)).districts, x.id = d) →
      y ∈ (VoteManager.empty.calls (cs1 ++ cs2)).candidates →
      (VoteManager.empty.calls (cs1 ++ cs2)).slotOf d y.id = some s →
      ((VoteManager.empty.calls (cs1 ++ cs2)).assignCandidateToDistrict d y.id).1 = .ok () ∧
      ∃ inner, (VoteManager.empty.calls (cs1 ++ cs2)).candidateIndices.find d = some inner ∧
        s ≤ inner.length ∧
        ((VoteManager.empty.calls (cs1 ++ cs2)).assignCandidateToDistrict d y.id).2.slotOf
          d y.id = some (inner.length + 1)) := by
  obtain ⟨a1, a2⟩ := VoteManager.admissible_append cs1 cs2 VoteManager.empty hadm
  have hd0 : VoteManager.empty.Dense := by
    intro d inner h
    simp [VoteManager.empty, UMap.find] at h
  have hk0 : VoteManager.empty.IndexedInCatalog := by
    intro d _
    rfl
  obtain ⟨d1, k1, _⟩ := VoteManager.calls_keep cs1 VoteManager.empty hd0 hk0 a1
  obtain ⟨d2, _, s2⟩ := VoteManager.calls_keep cs2 (VoteManager.empty.calls cs1) d1 k1 a2
  have happ : VoteManager.empty.calls (cs1 ++ cs2) =
      (VoteManager.empty.calls cs1).calls cs2 := List.foldl_append _ _ _ _
  rw [happ]
  refine ⟨?_, s2, ?_⟩
  · intro d inner hfind
    refine ⟨(d2 d inner hfind).1, (d2 d inner hfind).2, ?_⟩
    intro c
    unfold VoteManager.slotOf
    rw [hfind]
    exact UMap.find_some_iff_mem inner c
  · intro d y s hx hy hs
    have hok := VoteManager.assignCandidateToDistrict_ok _ d y hx hy
    rw [hok]
    refine ⟨rfl, ?_⟩
    unfold VoteManager.slotOf at hs ⊢
    cases hfi : ((VoteManager.empty.calls cs1).calls cs2).candidateIndices.find d with
    | none =>
      rw [hfi] at hs
      exact absurd hs (by simp)
    | some inner0 =>
      rw [hfi] at hs
      simp only at hs
      have hb := VoteManager.dense_slot_le inner0 y.id s (d2 d inner0 hfi).1 hs
      refine ⟨inner0, rfl, hb.2, ?_⟩
      simp [UMap.find_assign, UMap.size]

/-- C33 fails as stated: after one district of capacity two and one candidate were added and
the candidate was attached, the candidate holds slot 1; a second `assignCandidateToDistrict`
for the same pair returns and leaves the candidate with slot 2, which is then the only slot
of the district. -/
theorem C33_slots_counterexample :
    VoteManager.slotOf (VoteManager.empty.calls
        [.addDistrict { name := "North", id := "D1", candidateCount := 2 },
         .addCandidate { name := "Ann", party := "Red", id := "C1" },
         .assignCandidateToDistrict "D1" "C1"]) "D1" "C1" = some 1 ∧
      ((VoteManager.empty.calls
        [.addDistrict { name := "North", id := "D1", candidateCount := 2 },
         .addCandidate { name := "Ann", party := "Red", id := "C1" },
         .assignCandidateToDistrict "D1" "C1"]).assignCandidateToDistrict "D1" "C1").1 =
        .ok () ∧
      VoteManager.slotOf (VoteManager.empty.calls
        [.addDistrict { name := "North", id := "D1", candidateCount := 2 },
         .addCandidate { name := "Ann", party := "Red", id := "C1" },
         .assignCandidateToDistrict "D1" "C1",
         .assignCandidateToDistrict "D1" "C1"]) "D1" "C1" = some 2 ∧
      (VoteManager.empty.calls
        [.addDistrict { name := "North", id := "D1", candidateCount := 2 },
         .addCandidate { name := "Ann", party := "Red", id := "C1" },
         .assignCandidateToDistrict "D1" "C1",
         .assignCandidateToDistrict "D1" "C1"]).candidateIndices.find "D1" =
        some [("C1", 2)] := by
  decide

theorem C33_slots_dense_and_stable_witness :
    VoteManager.slotOf (VoteManager.empty.calls
        [.addDistrict { name := "North", id := "D1", candidateCount := 2 },
         .addCandidate { name := "Ann", party := "Red", id := "C1" },
         .addCandidate { name := "Bob", party := "Blue", id := "C2" },
         .assignCandidateToDistrict "D1" "C1"]) "D1" "C1" = some 1 ∧
      VoteManager.slotOf (VoteManager.empty.calls
        ([.addDistrict { name := "North", id := "D1", candidateCount := 2 },
          .addCandidate { name := "Ann", party := "Red", id := "C1" },
          .addCandidate { name := "Bob", party := "Blue", id := "C2" },
          .assignCandidateToDistrict "D1" "C1"] ++
         [.assignCandidateToDistrict "D1" "C2",
          .addVotes "D1" "C1" 7 "P001" "Mon Jan  1 10:00:00 2024",
          .resetVotes])) "D1" "C1" = some 1 :=
  ⟨by decide,
    (C33_slots_dense_and_stable
      [.addDistrict { name := "North", id := "D1", candidateCount := 2 },
       .addCandidate { name := "Ann", party := "Red", id := "C1" },
       .addCandidate { name := "Bob", party := "Blue", id := "C2" },
       .assignCandidateToDistrict "D1" "C1"]
      [.assignCandidateToDistrict "D1" "C2",
       .addVotes "D1" "C1" 7 "P001" "Mon Jan  1 10:00:00 2024",
       .resetVotes] (by decide)).2.1 "D1" "C1" 1 (by decide)⟩

/-- C34: for a table of size `n ≥ 1` and `1 ≤ i ≤ n`, `update(i, delta)` ends and writes
exactly the cells of its trace, all of them in `i..n` and strictly increasing; `query(i)`
ends and reads exactly the cells of its trace, all of them in `1..i` and strictly decreasing.
So neither loop touches cell `0` or a cell beyond `n`. -/
theorem C34_loops_stay_in_range (t : FenwickTree) (i : Nat) (delta : Int) (h1 : 1 ≤ i)
    (h2 : i ≤ t.size) :
    (∃ ws, FenwickTree.updateTrace t.size (t.size + 1) i = some ws ∧
      t.update i delta = (.ok (), { t with tree := FenwickTree.applyWrites delta t.tree ws }) ∧
      (∀ j ∈ ws, i ≤ j ∧ j ≤ t.size) ∧ ws.Pairwise (fun a b => a < b)) ∧
    (∃ rs, FenwickTree.queryTrace i i = some rs ∧
      t.query i = .ok (FenwickTree.sumReads t.tree 0 rs) ∧
      (∀ j ∈ rs, 1 ≤ j ∧ j ≤ i) ∧ rs.Pairwise (fun a b => a > b)) := by
  refine ⟨?_, ?_⟩
  · obtain ⟨ws, e, hu⟩ := FenwickTree.update_eq_trace t i delta h1 h2
    obtain ⟨r1, r2⟩ := FenwickTree.updateTrace_range t.size (t.size + 1) i ws (by omega) e
    exact ⟨ws, e, hu, r1, r2⟩
  · obtain ⟨rs, e, hq⟩ := FenwickTree.query_eq_trace t i h1 h2
    obtain ⟨r1, r2⟩ := FenwickTree.queryTrace_range i i rs e
    exact ⟨rs, e, hq, r1, r2⟩

theorem C34_loops_stay_in_range_witness :
    (∃ ws, FenwickTree.updateTrace 8 (8 + 1) 3 = some ws ∧
      FenwickTree.update { tree := [0, 1, 2, 3, 4, 5, 6, 7, 8], size := 8 } 3 5 =
        (.ok (), { tree := FenwickTree.applyWrites 5 [0, 1, 2, 3, 4, 5, 6, 7, 8] ws,
                   size := 8 }) ∧
      (∀ j ∈ ws, 3 ≤ j ∧ j ≤ 8) ∧ ws.Pairwise (fun a b => a < b)) ∧
    (∃ rs, FenwickTree.queryTrace 3 3 = some rs ∧
      FenwickTree.query { tree := [0, 1, 2, 3, 4, 5, 6, 7, 8], size := 8 } 3 =
        .ok (FenwickTree.sumReads [0, 1, 2, 3, 4, 5, 6, 7, 8] 0 rs) ∧
      (∀ j ∈ rs, 1 ≤ j ∧ j ≤ 3) ∧ rs.Pairwise (fun a b => a > b)) :=
  C34_loops_stay_in_range { tree := [0, 1, 2, 3, 4, 5, 6, 7, 8], size := 8 } 3 5 (by decide)
    (by decide)

/-- C35: for any table and valid indices `i`, `j`, `update(i, a)` followed by `update(j, b)`
and `update(j, b)` followed by `update(i, a)` both succeed and leave the same table, cell for
cell; and `update(i, a)` followed by `update(i, -a)` succeeds and leaves the table as it
was. -/
theorem C35_updates_commute_and_cancel (t : FenwickTree) (i j : Nat) (a b : Int)
    (hi1 : 1 ≤ i) (hi2 : i ≤ t.size) (hj1 : 1 ≤ j) (hj2 : j ≤ t.size) :
    (∃ ta tb t2, t.update i a = (.ok (), ta) ∧ ta.update j b = (.ok (), t2) ∧
      t.update j b = (.ok (), tb) ∧ tb.update i a = (.ok (), t2)) ∧
    (∃ ta, t.update i a = (.ok (), ta) ∧ ta.update i (-a) = (.ok (), t)) := by
  obtain ⟨wi, ei, ui⟩ := FenwickTree.update_eq_trace t i a hi1 hi2
  obtain ⟨wj, ej, uj⟩ := FenwickTree.update_eq_trace t j b hj1 hj2
  obtain ⟨wj2, ej2, uj2⟩ := FenwickTree.update_eq_trace
    { t with tree := FenwickTree.applyWrites a t.tree wi } j b hj1 hj2
  obtain ⟨wi2, ei2, ui2⟩ := FenwickTree.update_eq_trace
    { t with tree := FenwickTree.applyWrites b t.tree wj } i a hi1 hi2
  obtain ⟨wi3, ei3, ui3⟩ := FenwickTree.update_eq_trace
    { t with tree := FenwickTree.applyWrites a t.tree wi } i (-a) hi1 hi2
  have h1 : wj2 = wj := Option.some.inj (ej2.symm.trans ej)
  have h2 : wi2 = wi := Option.some.inj (ei2.symm.trans ei)
  have h3 : wi3 = wi := Option.some.inj (ei3.symm.trans ei)
  subst h1 h2 h3
  refine ⟨⟨_, _, _, ui, uj2, uj, ?_⟩, ⟨_, ui, ?_⟩⟩
  · rw [ui2]
    show (Except.ok (), ({ tree := _, size := _ } : FenwickTree)) = _
    rw [FenwickTree.applyWrites_comm]
  · rw [ui3]
    show (Except.ok (), ({ tree := _, size := _ } : FenwickTree)) = _
    rw [FenwickTree.applyWrites_cancel]

theorem C35_updates_commute_and_cancel_witness :
    (∃ ta tb t2,
      FenwickTree.update { tree := [0, 1, 2, 3, 4, 5, 6, 7, 8], size := 8 } 3 5 = (.ok (), ta) ∧
      ta.update 6 (-2) = (.ok (), t2) ∧
      FenwickTree.update { tree := [0, 1, 2, 3, 4, 5, 6, 7, 8], size := 8 } 6 (-2) =
        (.ok (), tb) ∧
      tb.update 3 5 = (.ok (), t2)) ∧
    (∃ ta,
      FenwickTree.update { tree := [0, 1, 2, 3, 4, 5, 6, 7, 8], size := 8 } 3 5 = (.ok (), ta) ∧
      ta.update 3 (-5) = (.ok (), { tree := [0, 1, 2, 3, 4, 5, 6, 7, 8], size := 8 })) :=
  C35_updates_commute_and_cancel { tree := [0, 1, 2, 3, 4, 5, 6, 7, 8], size := 8 } 3 6 5 (-2)
    (by decide) (by decide) (by decide) (by decide)

/-- C37: on a freshly constructed coordinator, `setupElection` with at least one district
name and no candidate and no party names throws the table's `invalid_argument` "Fenwick Tree
size must be greater than 0" after the first district was appended: afterwards the district
catalog is that one district with id `D1`, no table and no index map exist, and
`getDistrictTotalVotes("D1")` returns 0. -/
theorem C37_setup_without_candidates (name date first : String) (rest : List String) :
    ∃ es2, (ElectionSystem.construct name date).setupElection (first :: rest) [] [] =
        (.error (.invalid_argument "Fenwick Tree size must be greater than 0"), es2) ∧
      es2.voteManager.districts = [{ name := first, id := "D1", candidateCount := 0 }] ∧
      es2.voteManager.districtTrees = [] ∧ es2.voteManager.candidateIndices = [] ∧
      es2.voteManager.getDistrictTotalVotes "D1" = .ok 0 :=
  ⟨_, rfl, rfl, rfl, rfl, rfl⟩

/-- C39: in every coordinator state reached by one successful `setupElection` and any
sequence of later calls, a `processVoteUpdate` that returns `true` appends one record whose
ids are those of the first catalog district and the first catalog candidate bearing the given
names; and no `processVoteUpdate` call, whatever its arguments, changes a count or the total
of a district that stands in the catalog behind another district of the same name, or a count
or the total of a candidate that stands behind another candidate of the same name. -/
theorem C39_first_match_resolution (name date : String)
    (districtNames candidateNames partyNames : List String) (es0 : ElectionSystem)
    (hsetup : (ElectionSystem.construct name date).setupElection districtNames candidateNames
      partyNames = (.ok (), es0))
    (ops : List ElectionSystem.Op) (dn cn : String) (v : Int) (unit ts : String) :
    (((es0.run ops).processVoteUpdate dn cn v unit ts).1 = .ok true →
      ∃ dpre d dpost cpre c cpost,
        (es0.run ops).voteManager.getDistricts = dpre ++ d :: dpost ∧ d.name = dn ∧
        (∀ x ∈ dpre, x.name ≠ dn) ∧
        (es0.run ops).voteManager.getCandidates = cpre ++ c :: cpost ∧ c.name = cn ∧
        (∀ x ∈ cpre, x.name ≠ cn) ∧
        ((es0.run ops).processVoteUpdate dn cn v unit ts).2.getVoteHistory =
          (es0.run ops).getVoteHistory ++
            [{ districtId := d.id, candidateId := c.id, voteCount := v, precinctId := unit,
               timestamp := ts }]) ∧
    (∀ pre d1 mid d2 post,
      (es0.run ops).voteManager.getDistricts = pre ++ d1 :: (mid ++ d2 :: post) →
      d1.name = d2.name →
      (∀ c, ((es0.run ops).processVoteUpdate dn cn v unit ts).2.voteManager.getCandidateVotes
          d2.id c = (es0.run ops).voteManager.getCandidateVotes d2.id c) ∧
        ((es0.run ops).processVoteUpdate dn cn v unit ts).2.voteManager.getDistrictTotalVotes
          d2.id = (es0.run ops).voteManager.getDistrictTotalVotes d2.id) ∧
    (∀ pre c1 mid c2 post,
      (es0.run ops).voteManager.getCandidates = pre ++ c1 :: (mid ++ c2 :: post) →
      c1.name = c2.name →
      (∀ d, ((es0.run ops).processVoteUpdate dn cn v unit ts).2.voteManager.getCandidateVotes
          d c2.id = (es0.run ops).voteManager.getCandidateVotes d c2.id) ∧
        ((es0.run ops).processVoteUpdate dn cn v unit ts).2.voteManager.getCandidateTotalVotes
          c2.id = (es0.run ops).voteManager.getCandidateTotalVotes c2.id) := by
  obtain ⟨ha0, hta0⟩ := ElectionSystem.setupElection_arranged name date districtNames
    candidateNames partyNames es0 hsetup
  obtain ⟨ha, hta, _, _⟩ := ElectionSystem.run_arranged ops es0 ha0 hta0
  rcases ElectionSystem.processVoteUpdate_arranged (es0.run ops) ha hta dn cn v unit ts with
    e | ⟨d, c, vm2, hd, hc, e, hds, hcs, hh, ha2, hta2⟩
  · rw [e]
    refine ⟨?_, ?_, ?_⟩
    · intro h
      exact absurd h (by simp)
    · intro pre d1 mid d2 post _ _
      exact ⟨fun _ => rfl, rfl⟩
    · intro pre c1 mid c2 post _ _
      exact ⟨fun _ => rfl, rfl⟩
  · rw [e]
    refine ⟨?_, ?_, ?_⟩
    · intro _
      obtain ⟨hpd, dpre, dpost, hdl, hdpre⟩ := List.find?_eq_some.mp hd
      obtain ⟨hpc, cpre, cpost, hcl, hcpre⟩ := List.find?_eq_some.mp hc
      refine ⟨dpre, d, dpost, cpre, c, cpost, hdl, by simpa using hpd, ?_, hcl,
        by simpa using hpc, ?_, hh⟩
      · intro x hx
        simpa using hdpre x hx
      · intro x hx
        simpa using hcpre x hx
    · intro pre d1 mid d2 post hl hname
      have hne : d.id ≠ d2.id := first_match_not_later (fun x : District => x.name)
        (fun x => x.id) _ pre mid post d1 d2 d dn ha.1 hl hname hd
      refine ⟨?_, ?_⟩
      · intro c'
        show vm2.getCandidateVotes d2.id c' = _
        rw [hta2.1 d2.id c', hta.1 d2.id c', hh, VoteManager.auditSum_append]
        simp [hne]
      · show vm2.getDistrictTotalVotes d2.id = _
        rw [hta2.2 d2.id, hta.2 d2.id, hh, VoteManager.auditDistrictSum_append]
        simp [hne]
    · intro pre c1 mid c2 post hl hname
      have hne : c.id ≠ c2.id := first_match_not_later (fun x : Candidate => x.name)
        (fun x => x.id) _ pre mid post c1 c2 c cn ha.2.1 hl hname hc
      have hcount : ∀ d', vm2.getCandidateVotes d' c2.id =
          (es0.run ops).voteManager.getCandidateVotes d' c2.id := by
        intro d'
        rw [hta2.1 d' c2.id, hta.1 d' c2.id, hh, VoteManager.auditSum_append]
        simp [hne]
      refine ⟨hcount, ?_⟩
      show vm2.getCandidateTotalVotes c2.id = _
      unfold VoteManager.getCandidateTotalVotes
      rw [hds]
      exact VoteManager.totalLoop_congr _ _ _ _ _ (fun x _ => hcount x.id)

theorem C39_first_match_resolution_witness :
    ((((ElectionSystem.twinSystem.run [.setElectionStatus true]).processVoteUpdate "Twin" "Ann"
        10 "P001" "Mon Jan  1 10:00:00 2024").1 = .ok true →
      ∃ dpre d dpost cpre c cpost,
        (ElectionSystem.twinSystem.run [.setElectionStatus true]).voteManager.getDistricts =
          dpre ++ d :: dpost ∧ d.name = "Twin" ∧
        (∀ x ∈ dpre, x.name ≠ "Twin") ∧
        (ElectionSystem.twinSystem.run [.setElectionStatus true]).voteManager.getCandidates =
          cpre ++ c :: cpost ∧ c.name = "Ann" ∧
        (∀ x ∈ cpre, x.name ≠ "Ann") ∧
        ((ElectionSystem.twinSystem.run [.setElectionStatus true]).processVoteUpdate "Twin"
            "Ann" 10 "P001" "Mon Jan  1 10:00:00 2024").2.getVoteHistory =
          (ElectionSystem.twinSystem.run [.setElectionStatus true]).getVoteHistory ++
            [{ districtId := d.id, candidateId := c.id, voteCount := 10, precinctId := "P001",
               timestamp := "Mon Jan  1 10:00:00 2024" }]) ∧
    (∀ pre d1 mid d2 post,
      (ElectionSystem.twinSystem.run [.setElectionStatus true]).voteManager.getDistricts =
        pre ++ d1 :: (mid ++ d2 :: post) →
      d1.name = d2.name →
      (∀ c, ((ElectionSystem.twinSystem.run [.setElectionStatus true]).processVoteUpdate "Twin"
            "Ann" 10 "P001" "Mon Jan  1 10:00:00 2024").2.voteManager.getCandidateVotes
          d2.id c =
          (ElectionSystem.twinSystem.run [.setElectionStatus true]).voteManager.getCandidateVotes
            d2.id c) ∧
        ((ElectionSystem.twinSystem.run [.setElectionStatus true]).processVoteUpdate "Twin"
            "Ann" 10 "P001" "Mon Jan  1 10:00:00 2024").2.voteManager.getDistrictTotalVotes
          d2.id =
          (ElectionSystem.twinSystem.run
            [.setElectionStatus true]).voteManager.getDistrictTotalVotes d2.id) ∧
    (∀ pre c1 mid c2 post,
      (ElectionSystem.twinSystem.run [.setElectionStatus true]).voteManager.getCandidates =
        pre ++ c1 :: (mid ++ c2 :: post) →
      c1.name = c2.name →
      (∀ d, ((ElectionSystem.twinSystem.run [.setElectionStatus true]).processVoteUpdate "Twin"
            "Ann" 10 "P001" "Mon Jan  1 10:00:00 2024").2.voteManager.getCandidateVotes
          d c2.id =
          (ElectionSystem.twinSystem.run [.setElectionStatus true]).voteManager.getCandidateVotes
            d c2.id) ∧
        ((ElectionSystem.twinSystem.run [.setElectionStatus true]).processVoteUpdate "Twin"
            "Ann" 10 "P001" "Mon Jan  1 10:00:00 2024").2.voteManager.getCandidateTotalVotes
          c2.id =
          (ElectionSystem.twinSystem.run
            [.setElectionStatus true]).voteManager.getCandidateTotalVotes c2.id)) ∧
    ((ElectionSystem.twinSystem.run [.setElectionStatus true]).processVoteUpdate "Twin" "Ann"
        10 "P001" "Mon Jan  1 10:00:00 2024").2.getVoteHistory =
      [{ districtId := "D1", candidateId := "C1", voteCount := 10, precinctId := "P001",
         timestamp := "Mon Jan  1 10:00:00 2024" }] :=
  ⟨C39_first_match_resolution "Twin Election" "2024-01-01" ["Twin", "Twin"] ["Ann", "Ann"]
    ["Red", "Blue"] ElectionSystem.twinSystem ElectionSystem.twinSystem_is_setup
    [.setElectionStatus true] "Twin" "Ann" 10 "P001" "Mon Jan  1 10:00:00 2024", by decide⟩
